import Mathlib

/-!
# gocache-s3: a GOCACHEPROG server backed by S3

A shallow embedding of `cache.go` and `main.go` and the properties of the
store operations (`cache.get`, `cache.put`), of the key derivation
(`cache.s3Key`, `cache.diskPath`) and of the request dispatcher (`main`).

* Byte slices are lists of `Byte`. Go strings are modelled by `String`: a Go
  string is taken to be valid UTF-8 and is read character by character. The
  library functions embedded here (`encoding/hex`, `path/filepath`) tell apart
  ASCII characters only, on which bytes and characters agree; where `hex.Decode`
  names a byte in its error, it is the first byte of the character.
* The store operations are computations that call their environment (the S3
  client, the file system, the clock). What a call returns is decided by a
  `Handler`; the properties of `get` and `put` hold for every handler, and
  `World` is the handler of a bucket and a staging directory that can be
  struck by faults.
* The process is a step relation on `State`: the main goroutine and one
  goroutine for each get and put, with the mutex around standard output and
  the wait group. Every interleaving of the goroutines is a run.
* Standard input is a list of complete lines: `bufio.Reader.ReadBytes` hands
  a last line without newline over together with `io.EOF`, on which the loop
  of `main` ends, so such a line is never read as a request. Standard output is
  the list of the records written so far, one line each, and takes every
  write. `enc.Encode` writes the line of a record that can be marshalled and
  nothing for one that cannot; the one field whose marshaler can fail is
  `Time`, and what `Time.MarshalJSON` returns is decided by the `TimeLib`.
-/

namespace GocacheS3

/-! ## Bytes and `encoding/hex` -/

/-- A Go `byte`. -/
abbrev Byte := Fin 256

/-- The table `hextable = "0123456789abcdef"` of `encoding/hex`. -/
def hextable : List Char := "0123456789abcdef".data

/-- The character `hextable[n]`. -/
def hexDigit (n : Nat) : Char := hextable.getD n '0'

/-- Go `hex.EncodeToString`: every byte `v` gives `hextable[v>>4]` and
`hextable[v&0x0f]`. -/
def EncodeToString (src : List Byte) : String :=
  ⟨src.flatMap fun v => [hexDigit (v.val / 16), hexDigit (v.val % 16)]⟩

/-- The table `reverseHexTable` of `encoding/hex`: the value of a hex digit
(either case), and `0xff` for every other character. -/
def reverseHexTable (c : Char) : Nat :=
  if 48 ≤ c.toNat ∧ c.toNat ≤ 57 then c.toNat - 48
  else if 97 ≤ c.toNat ∧ c.toNat ≤ 102 then c.toNat - 97 + 10
  else if 65 ≤ c.toNat ∧ c.toNat ≤ 70 then c.toNat - 65 + 10
  else 0xff

/-- The errors of `hex.Decode`: `InvalidByteError`, a byte, and `ErrLength`. -/
inductive HexError where
  | InvalidByteError (b : Byte)
  | ErrLength
  deriving DecidableEq, Repr

/-- The table `udigits = "0123456789ABCDEFX"` of package `fmt`. -/
def udigits : List Char := "0123456789ABCDEFX".data

/-- Go `strconv.IsPrint` on a rune below 256: the ASCII characters from the
space to `~`, and the characters from `¡` to `ÿ` but the soft hyphen. -/
def IsPrint (r : Nat) : Bool :=
  if 0x20 ≤ r ∧ r ≤ 0x7E then true
  else if 0xA1 ≤ r ∧ r ≤ 0xFF then r != 0xAD
  else false

/-- The verb `%#U` of package `fmt` on the rune of a byte: `U+` and four hex
digits, and the character in quotes when it is printable. -/
def fmtUnicode (b : Byte) : String :=
  ⟨['U', '+', '0', '0', udigits.getD (b.val / 16) '0', udigits.getD (b.val % 16) '0'] ++
    (if IsPrint b.val then [' ', Char.ofNat 39, Char.ofNat b.val, Char.ofNat 39] else [])⟩

/-- The text of a `hex` error: `fmt.Sprintf("encoding/hex: invalid byte: %#U", rune(e))`
and the text of `ErrLength`. -/
def HexError.Error : HexError → String
  | .InvalidByteError b => "encoding/hex: invalid byte: " ++ fmtUnicode b
  | .ErrLength => "encoding/hex: odd length hex string"

/-- The first byte of the UTF-8 encoding of a character. `Decode` reads the
bytes of the string; the first byte it rejects is the first byte of the first
character that is no hex digit, every character before it being one byte. -/
def firstByte (c : Char) : Byte :=
  if c.toNat < 0x80 then ⟨c.toNat % 256, Nat.mod_lt _ (by decide)⟩
  else if c.toNat < 0x800 then ⟨(0xC0 + c.toNat / 0x40) % 256, Nat.mod_lt _ (by decide)⟩
  else if c.toNat < 0x10000 then ⟨(0xE0 + c.toNat / 0x1000) % 256, Nat.mod_lt _ (by decide)⟩
  else ⟨(0xF0 + c.toNat / 0x40000) % 256, Nat.mod_lt _ (by decide)⟩

/-- Go `hex.Decode`, on the characters of the source: pairs of digits are
decoded left to right; an invalid digit is reported, by its first byte, before
an odd length. -/
def Decode : List Char → Except HexError (List Byte)
  | [] => .ok []
  | [p] =>
    if reverseHexTable p > 0x0f then .error (.InvalidByteError (firstByte p))
    else .error .ErrLength
  | p :: q :: rest =>
    let a := reverseHexTable p
    let b := reverseHexTable q
    if a > 0x0f then .error (.InvalidByteError (firstByte p))
    else if b > 0x0f then .error (.InvalidByteError (firstByte q))
    else
      match Decode rest with
      | .error e => .error e
      | .ok dst => .ok (⟨(a * 16 ||| b) % 256, Nat.mod_lt _ (by decide)⟩ :: dst)

/-- Go `hex.DecodeString`. -/
def DecodeString (s : String) : Except HexError (List Byte) := Decode s.data

/-! ## `path/filepath` (Unix) -/

/-- The output buffer of `filepath.Clean`: `buf[:w]` is what was written. -/
structure lazybuf where
  buf : List Char
  w : Nat
  deriving DecidableEq, Repr

/-- The byte at position `i` of the buffer. -/
def lazybuf.index (b : lazybuf) (i : Nat) : Char := b.buf.getD i '/'

/-- Write `c` at position `w` and advance. -/
def lazybuf.append (b : lazybuf) (c : Char) : lazybuf :=
  ⟨b.buf.take b.w ++ [c], b.w + 1⟩

/-- The written part `buf[:w]`. -/
def lazybuf.string (b : lazybuf) : String := ⟨b.buf.take b.w⟩

/-- The inner loop `for out.w > dotdot && out.index(out.w) != '/' { out.w-- }`;
it runs at most `w` times. -/
def backtrackLoop (dotdot : Nat) : Nat → lazybuf → lazybuf
  | 0, out => out
  | fuel + 1, out =>
    if out.w > dotdot ∧ out.index out.w ≠ '/' then
      backtrackLoop dotdot fuel { out with w := out.w - 1 }
    else out

/-- The loop `for ; r < n && path[r] != '/'; r++ { out.append(path[r]) }`:
returns what is left of the path and the buffer. -/
def copyElem : List Char → lazybuf → List Char × lazybuf
  | [], out => ([], out)
  | c :: rest, out => if c = '/' then (c :: rest, out) else copyElem rest (out.append c)

/-- The state of the main loop of `Clean`: the buffer and `dotdot`. -/
structure CleanState where
  out : lazybuf
  dotdot : Nat
  deriving DecidableEq, Repr

/-- The `..` case of the loop of `Clean`. -/
def dotdotElem (rooted : Bool) (s : CleanState) : CleanState :=
  if s.out.w > s.dotdot then
    -- can backtrack
    let out := { s.out with w := s.out.w - 1 }
    { s with out := backtrackLoop s.dotdot out.w out }
  else if !rooted then
    -- cannot backtrack, but not rooted, so append .. element
    let out := if s.out.w > 0 then s.out.append '/' else s.out
    let out := (out.append '.').append '.'
    { out := out, dotdot := out.w }
  else s

/-- The main loop `for r < n` of `Clean`, on `path[r:]`; every turn consumes at
least one character, so `fuel = len(path)` is enough. -/
def cleanLoop (rooted : Bool) : Nat → List Char → CleanState → CleanState
  | 0, _, s => s
  | _ + 1, [], s => s
  | fuel + 1, c :: rest, s =>
    if c = '/' then
      -- empty path element
      cleanLoop rooted fuel rest s
    else if c = '.' ∧ (rest = [] ∨ rest.head? = some '/') then
      -- . element
      cleanLoop rooted fuel rest s
    else if c = '.' ∧ rest.head? = some '.' ∧
        (rest.tail = [] ∨ rest.tail.head? = some '/') then
      -- .. element: remove to last /
      cleanLoop rooted fuel rest.tail (dotdotElem rooted s)
    else
      -- real path element: add slash if needed, copy element
      let out :=
        if (rooted ∧ s.out.w ≠ 1) ∨ (¬ rooted ∧ s.out.w ≠ 0) then s.out.append '/' else s.out
      let (rest', out) := copyElem (c :: rest) out
      cleanLoop rooted fuel rest' { s with out := out }

/-- Go `filepath.Clean` (Unix). -/
def Clean (path : String) : String :=
  if path = "" then "."
  else
    let rooted : Bool := path.data.head? = some '/'
    let n := path.data.length
    let start : CleanState × List Char :=
      if rooted then (⟨(lazybuf.mk [] 0).append '/', 1⟩, path.data.tail)
      else (⟨lazybuf.mk [] 0, 0⟩, path.data)
    let s := cleanLoop rooted n start.2 start.1
    -- Turn empty string into "."
    if s.out.w = 0 then "." else s.out.string

/-- The loop of `Clean` on what is left of the path, with the fuel that is
always enough. -/
def cleanRun (rooted : Bool) (p : List Char) (s : CleanState) : CleanState :=
  cleanLoop rooted p.length p s

/-- What `Clean` returns from the last state of its loop. -/
def cleanResult (s : CleanState) : String :=
  if s.out.w = 0 then "." else s.out.string

/-- The `out.append('/')` of a real path element, when it is needed. -/
def addSlash (rooted : Bool) (out : lazybuf) : lazybuf :=
  if (rooted ∧ out.w ≠ 1) ∨ (¬ rooted ∧ out.w ≠ 0) then out.append '/' else out

/-- A path element without separator and without dot, as hex digits are. -/
def plain (l : List Char) : Prop := ∀ c ∈ l, c ≠ '/' ∧ c ≠ '.'

/-- Go `strings.Join`. -/
def stringsJoin (elems : List String) (sep : String) : String := sep.intercalate elems

/-- Go `filepath.Join` (Unix): the elements from the first non-empty one on are
joined with the separator and cleaned; all empty gives the empty string. -/
def Join : List String → String
  | [] => ""
  | e :: es => if e ≠ "" then Clean (stringsJoin (e :: es) "/") else Join es

/-! ## `cache.go`: key derivation -/

/-- The configuration of `type cache struct`; the S3 client is the environment
the store operations run in. -/
structure cache where
  bucket : String
  /-- The field `prefix` of the Go struct. -/
  keyPrefix : String
  tmpDir : String
  deriving DecidableEq, Repr

/-- The method `(c *cache) s3Key`. -/
def cache.s3Key (c : cache) (actionID : List Byte) : String :=
  let k := EncodeToString actionID
  if c.keyPrefix ≠ "" then c.keyPrefix ++ "/" ++ k else k

/-- The method `(c *cache) diskPath`. -/
def cache.diskPath (c : cache) (actionID : List Byte) : String :=
  Join [c.tmpDir, EncodeToString actionID]

/-! ## `main.go`: requests and responses -/

/-- A Go `time.Time`: the instant, in nanoseconds since the Unix epoch, and the
offset of its location, in seconds east of UTC. -/
structure Time where
  unixNano : Int
  offset : Int := 0
  deriving DecidableEq, Repr

/-- The functions of package `time` the program uses: `now.Format(layout)` and
`time.Parse(layout, ts)` with the layout `time.RFC3339Nano` (`none` when
`Parse` returns an error), and `t.MarshalJSON()`, which `enc.Encode` calls on
the field `Time` of a response (`none` when it returns an error). -/
structure TimeLib where
  Format : Time → String
  Parse : String → Option Time
  MarshalJSON : Time → Option String

/-- The constant `cmdGet`. -/
def cmdGet : String := "get"

/-- The constant `cmdPut`. -/
def cmdPut : String := "put"

/-- The constant `cmdClose`. -/
def cmdClose : String := "close"

/-- The Go `type request struct`; a field left out of the JSON record has the
zero value. -/
structure request where
  ID : Int
  Command : String := ""
  ActionID : List Byte := []
  OutputID : List Byte := []
  BodySize : Int := 0
  body : List Byte := []
  deriving DecidableEq, Repr

/-- The Go `type response struct`; a field with the zero value (`""`, `[]`,
`false`, `0`, `none`) is left out of the JSON record (`omitempty`). -/
structure response where
  ID : Int
  Err : String := ""
  KnownCommands : List String := []
  Miss : Bool := false
  OutputID : List Byte := []
  Size : Int := 0
  Time : Option Time := none
  DiskPath : String := ""
  deriving DecidableEq, Repr

/-! ## The environment of the store: S3 and the file system -/

/-- An error returned by an operation of the S3 client: the SDK wraps every
error in a `smithy.OperationError`; `apiCode` is the `ErrorCode()` of the
`smithy.APIError` that `errors.As` finds in the chain, if there is one. -/
structure OperationError where
  ServiceID : String
  OperationName : String
  apiCode : Option String
  Err : String
  deriving DecidableEq, Repr

/-- The method `(*smithy.OperationError).Error`. -/
def OperationError.Error (e : OperationError) : String :=
  "operation error " ++ e.ServiceID ++ ": " ++ e.OperationName ++ ", " ++ e.Err

/-- Go `fs.PathError`, the error of `os.Create`, `os.OpenFile` and `File.Close`. -/
structure PathError where
  Op : String
  Path : String
  Err : String
  deriving DecidableEq, Repr

/-- The method `(*fs.PathError).Error`. -/
def PathError.Error (e : PathError) : String := e.Op ++ " " ++ e.Path ++ ": " ++ e.Err

/-- The errors of `os.WriteFile`: a `*PathError` of the open, the write or the
close, or `io.ErrShortWrite`. -/
inductive WriteFileError where
  | path (e : PathError)
  | ErrShortWrite
  deriving DecidableEq, Repr

/-- The text of an error of `os.WriteFile`. -/
def WriteFileError.Error : WriteFileError → String
  | .path e => e.Error
  | .ErrShortWrite => "short write"

/-- Any other Go `error` (what `io.Copy` returns), known by its text. -/
structure GoError where
  text : String
  deriving DecidableEq, Repr

/-- The method `Error` of an `error`. -/
def GoError.Error (e : GoError) : String := e.text

/-- The part of `s3.GetObjectOutput` the store reads: the bytes the `Body`
stream delivers and the `Metadata` map. -/
structure GetObjectOutput where
  Body : List Byte
  Metadata : List (String × String)
  deriving DecidableEq, Repr

/-- The calls the store operations make to their environment. -/
inductive Call where
  /-- The call `c.client.GetObject(ctx, {Bucket, Key})`. -/
  | GetObject (Bucket Key : String)
  /-- The deferred `out.Body.Close()`. -/
  | BodyClose
  /-- The call `os.Create(name)`. -/
  | Create (name : String)
  /-- The call `io.Copy(f, out.Body)` on the file created at `name`. -/
  | Copy (name : String) (src : List Byte)
  /-- The call `f.Close()` on the file created at `name`. -/
  | FileClose (name : String)
  /-- The call `os.WriteFile(name, data, perm)`. -/
  | WriteFile (name : String) (data : List Byte) (perm : Nat)
  /-- The call `c.client.PutObject(ctx, {Bucket, Key, Body, Metadata})`. -/
  | PutObject (Bucket Key : String) (Body : List Byte) (Metadata : List (String × String))
  /-- The call `time.Now()`. -/
  | Now
  /-- The call `os.RemoveAll(path)` of `(c *cache) close`. -/
  | RemoveAll (path : String)
  deriving DecidableEq, Repr

/-- What a call returns: the value, or the Go error (`none` is `nil`). -/
@[reducible] def Call.Result : Call → Type
  | .GetObject _ _ => Except OperationError GetObjectOutput
  | .BodyClose => Unit
  | .Create _ => Option PathError
  | .Copy _ _ => Nat × Option GoError
  | .FileClose _ => Option PathError
  | .WriteFile _ _ _ => Option WriteFileError
  | .PutObject _ _ _ _ => Option OperationError
  | .Now => Time
  | .RemoveAll _ => Unit

/-- A store operation: a computation that calls the environment and goes on
with what the call returned, until it returns its result. -/
inductive Prog (α : Type) where
  | ret (a : α)
  | call (c : Call) (k : c.Result → Prog α)

/-- An environment with states `σ`: what every call returns in every state,
and the state after it. -/
abbrev Handler (σ : Type) := σ → (c : Call) → c.Result × σ

/-- Run an operation to its end in an environment: its result, the final
state of the environment and the calls made, in order. -/
def Prog.run {σ α : Type} (h : Handler σ) : Prog α → σ → α × σ × List Call
  | .ret a, s => (a, s, [])
  | .call c k, s =>
    let out := (k (h s c).1).run h (h s c).2
    (out.1, out.2.1, c :: out.2.2)

/-! ## `cache.go`: the store operations -/

/-- A return of `get` after `defer out.Body.Close()`. -/
def closeBody (resp : response) : Prog response :=
  .call .BodyClose fun _ => .ret resp

/-- The method `(c *cache) get`. -/
def cache.get (L : TimeLib) (c : cache) (req : request) : Prog response :=
  let resp : response := { ID := req.ID }
  .call (.GetObject c.bucket (c.s3Key req.ActionID)) fun r =>
  match r with
  | .error err =>
    match err.apiCode with
    | some code =>
      if code = "NoSuchKey" ∨ code = "NotFound" then .ret { resp with Miss := true }
      else .ret { resp with Err := err.Error }
    | none => .ret { resp with Err := err.Error }
  | .ok out =>
    match out.Metadata.lookup "outputid" with
    | none => closeBody { resp with Miss := true }
    | some outputIDHex =>
      match DecodeString outputIDHex with
      | .error err =>
        closeBody { resp with Err := "decode output id metadata: " ++ err.Error }
      | .ok outputID =>
        let path := c.diskPath req.ActionID
        .call (.Create path) fun r =>
        match r with
        | some err => closeBody { resp with Err := err.Error }
        | none =>
          .call (.Copy path out.Body) fun r =>
          .call (.FileClose path) fun closeErr =>
          match r.2 with
          | some copyErr => closeBody { resp with Err := copyErr.Error }
          | none =>
            match closeErr with
            | some closeErr => closeBody { resp with Err := closeErr.Error }
            | none =>
              let resp := { resp with OutputID := outputID, Size := r.1, DiskPath := path }
              match out.Metadata.lookup "time" with
              | some ts =>
                match L.Parse ts with
                | some t => closeBody { resp with Time := some t }
                | none => closeBody resp
              | none => closeBody resp

/-- The method `(c *cache) put`. -/
def cache.put (L : TimeLib) (c : cache) (req : request) : Prog response :=
  let resp : response := { ID := req.ID }
  .call .Now fun now =>
  let path := c.diskPath req.ActionID
  .call (.WriteFile path req.body 0o644) fun r =>
  match r with
  | some err => .ret { resp with Err := err.Error }
  | none =>
    .call (.PutObject c.bucket (c.s3Key req.ActionID) req.body
      [("outputid", EncodeToString req.OutputID), ("time", L.Format now)]) fun r =>
    match r with
    | some err => .ret { resp with Err := err.Error }
    | none => .ret { resp with DiskPath := path }

/-- The method `(c *cache) close`. -/
def cache.close (c : cache) : Prog Unit :=
  .call (.RemoveAll c.tmpDir) fun _ => .ret ()

/-! ## A bucket and a staging directory

A concrete environment: the objects of the bucket, the files of the file
system, and a script of the faults that strike the coming calls. A call that
is not struck does what its documentation says. -/

/-- What happens at one call. -/
inductive Fault where
  /-- The call does what it should. -/
  | ok
  /-- An S3 operation fails with `e` and leaves the bucket as it was. -/
  | s3 (e : OperationError)
  /-- The file is not opened (`Create`, `WriteFile`) or not closed properly. -/
  | fs (e : PathError)
  /-- `io.Copy` stops with `e` after `n` bytes. -/
  | copy (n : Nat) (e : GoError)
  /-- `os.WriteFile` opens the file and fails with `e` after `n` bytes. -/
  | write (n : Nat) (e : WriteFileError)
  deriving DecidableEq, Repr

/-- The state of the environment. The first entry of `objects` (of `files`)
for a key (a name) is the current one. -/
structure World where
  objects : List ((String × String) × GetObjectOutput)
  files : List (String × List Byte)
  clock : Time
  faults : List Fault
  deriving DecidableEq, Repr

/-- The error of S3 for a key that names no object. -/
def noSuchKey : OperationError :=
  { ServiceID := "S3", OperationName := "GetObject", apiCode := some "NoSuchKey",
    Err := "api error NoSuchKey: The specified key does not exist." }

/-- The content of the file `name`, empty when there is none. -/
def World.content (w : World) (name : String) : List Byte :=
  (w.files.lookup name).getD []

/-- The world behind a call: the head of the script is used up. -/
def World.next (w : World) : World := { w with faults := w.faults.tail }

/-- The file `name` now holds `data`. -/
def World.setFile (w : World) (name : String) (data : List Byte) : World :=
  { w with files := (name, data) :: w.files }

/-- The object `(b, k)` is now `o`. -/
def World.setObject (w : World) (b k : String) (o : GetObjectOutput) : World :=
  { w with objects := ((b, k), o) :: w.objects }

/-- The environment `World`: the fault at the head of the script decides how
the call goes. -/
def World.handle : Handler World := fun w c =>
  let f := w.faults.headD .ok
  match c with
  | .GetObject b k =>
    match f with
    | .s3 e => (.error e, w.next)
    | _ =>
      match w.objects.lookup (b, k) with
      | some o => (.ok o, w.next)
      | none => (.error noSuchKey, w.next)
  | .BodyClose => ((), w.next)
  | .Create name =>
    match f with
    | .fs e => (some e, w.next)
    | _ => (none, w.next.setFile name [])
  | .Copy name src =>
    match f with
    | .copy n e =>
      ((min n src.length, some e), w.next.setFile name (w.content name ++ src.take n))
    | _ => ((src.length, none), w.next.setFile name (w.content name ++ src))
  | .FileClose _ =>
    match f with
    | .fs e => (some e, w.next)
    | _ => (none, w.next)
  | .WriteFile name data _ =>
    match f with
    | .fs e => (some (.path e), w.next)
    | .write n e => (some e, w.next.setFile name (data.take n))
    | _ => (none, w.next.setFile name data)
  | .PutObject b k body metadata =>
    match f with
    | .s3 e => (some e, w.next)
    | _ => (none, w.next.setObject b k ⟨body, metadata⟩)
  | .Now => (w.clock, w.next)
  | .RemoveAll path =>
    ((), { w.next with
      files := w.files.filter fun f => !(f.1 = path || (path ++ "/").isPrefixOf f.1) })

/-! ## `main.go`: the dispatcher

The process is the main goroutine and the goroutines it starts, one for each
get and put. A step is one action of one goroutine; which goroutine moves next
is not determined. -/

/-- A line of standard input, as the two decoders of `main` see it:
`json.Unmarshal(line, &req)` and `json.Unmarshal(bodyLine, &req.body)`, each
`none` when it returns an error. -/
structure Line where
  asRequest : Option request
  asBody : Option (List Byte)
  deriving DecidableEq, Repr

/-- Where a goroutine stands in a call of the closure `send`: at `mu.Lock()`,
at `enc.Encode(r)` with the mutex held, or at the deferred `mu.Unlock()`. -/
inductive SendPC where
  | lock
  | encode
  | unlock
  deriving DecidableEq, Repr

/-- Where the main goroutine stands. -/
inductive MainPC where
  /-- In the `send` of the handshake (line 92). -/
  | handshake (p : SendPC)
  /-- At the top of the `for` loop (line 101). -/
  | read
  /-- At `wg.Wait()` of `case cmdClose` (line 138), for the close request `ID`. -/
  | closeWait (ID : Int)
  /-- In `send(response{ID: req.ID})` of `case cmdClose` (line 139). -/
  | closeAck (ID : Int) (p : SendPC)
  /-- At the `wg.Wait()` behind the loop (line 144). -/
  | eofWait
  /-- At the return of `main`: the deferred `c.close()`. -/
  | deferred
  deriving DecidableEq, Repr

/-- Where a goroutine started for a get or a put stands. -/
inductive TaskPC where
  /-- Inside `c.get(ctx, req)` or `c.put(ctx, req)`, with what is left to do. -/
  | op (p : Prog response)
  /-- In `send` of the response `r`. -/
  | send (r : response) (p : SendPC)
  /-- At the deferred `wg.Done()`. -/
  | done
  /-- The goroutine has ended. -/
  | finished

/-- The state of the process and of its environment. -/
structure State (σ : Type) where
  /-- The lines of standard input not read yet. -/
  stdin : List Line
  /-- Whether standard input ends in a read error rather than in `io.EOF`. -/
  broken : Bool
  /-- The records written to standard output; each is one line. -/
  stdout : List response
  /-- The state of S3 and of the file system. -/
  env : σ
  /-- The calls made to the environment so far. -/
  calls : List Call
  /-- Whether the mutex `mu` is held. -/
  mu : Bool
  /-- The counter of the wait group `wg`. -/
  wg : Nat
  main : MainPC
  tasks : List TaskPC
  /-- The exit code, once the process has ended. -/
  exit : Option Nat

/-- The handshake `response{ID: 0, KnownCommands: []cmd{cmdGet, cmdPut, cmdClose}}`. -/
def handshake : response := { ID := 0, KnownCommands := [cmdGet, cmdPut, cmdClose] }

/-- The state in which `main` starts sending the handshake. -/
def State.init {σ : Type} (stdin : List Line) (broken : Bool) (env : σ) : State σ :=
  { stdin := stdin, broken := broken, stdout := [], env := env, calls := [], mu := false,
    wg := 0, main := .handshake .lock, tasks := [], exit := none }

/-- Whether `json.Marshal` of the response succeeds, as `enc.Encode` calls it:
of the fields of `response` only `Time` has a marshaler that can return an
error, and a nil `Time` is left out. -/
def encodes (L : TimeLib) (r : response) : Bool :=
  match r.Time with
  | none => true
  | some t => (L.MarshalJSON t).isSome

/-- A step of the closure `send` on the response `r`: the state after it and
the place in `send` reached (`none` when `send` has returned); no step at
`mu.Lock()` while the mutex is held. `enc.Encode(r)` writes the line when the
response can be marshalled and nothing when it cannot, and `send` drops the
error it returns. -/
def sendStep {σ : Type} (L : TimeLib) (r : response) (p : SendPC) (s : State σ) :
    Option (State σ × Option SendPC) :=
  match p with
  | .lock => if s.mu then none else some ({ s with mu := true }, some .encode)
  | .encode =>
    some (if encodes L r then { s with stdout := s.stdout ++ [r] } else s, some .unlock)
  | .unlock => some ({ s with mu := false }, none)

/-- The call `log.Fatalf`: the process ends with code 1. -/
def fatal {σ : Type} (s : State σ) : State σ := { s with exit := some 1 }

/-- The `switch req.Command` of the loop, after the request and its body were
read and `stdin` is what is left. -/
def dispatch {σ : Type} (L : TimeLib) (c : cache) (req : request) (s : State σ) : State σ :=
  if req.Command = cmdGet then
    { s with wg := s.wg + 1, tasks := s.tasks ++ [.op (c.get L req)] }
  else if req.Command = cmdPut then
    { s with wg := s.wg + 1, tasks := s.tasks ++ [.op (c.put L req)] }
  else if req.Command = cmdClose then
    { s with main := .closeWait req.ID }
  else s

/-- One turn of the `for` loop up to the `switch` (lines 101 to 141). The
request decoded from a line has no body yet: `body` is not a JSON field. -/
def readStep {σ : Type} (L : TimeLib) (c : cache) (s : State σ) : State σ :=
  match s.stdin with
  | [] => if s.broken then fatal s else { s with main := .eofWait }
  | line :: rest =>
    match line.asRequest with
    | none => fatal { s with stdin := rest }
    | some r =>
      let req : request := { r with body := [] }
      if req.BodySize > 0 then
        match rest with
        | [] => fatal { s with stdin := [] }
        | bodyLine :: rest =>
          match bodyLine.asBody with
          | none => fatal { s with stdin := rest }
          | some body => dispatch L c { req with body := body } { s with stdin := rest }
      else dispatch L c req { s with stdin := rest }

/-- A step of the main goroutine, if it can move. -/
def mainStep {σ : Type} (h : Handler σ) (L : TimeLib) (c : cache) (s : State σ) :
    Option (State σ) :=
  match s.main with
  | .handshake p =>
    (sendStep L handshake p s).map fun out =>
      { out.1 with main := match out.2 with | some q => .handshake q | none => .read }
  | .read => some (readStep L c s)
  | .closeWait ID => if s.wg = 0 then some { s with main := .closeAck ID .lock } else none
  | .closeAck ID p =>
    (sendStep L { ID := ID } p s).map fun out =>
      { out.1 with main := match out.2 with | some q => .closeAck ID q | none => .deferred }
  | .eofWait => if s.wg = 0 then some { s with main := .deferred } else none
  | .deferred =>
    let out := c.close.run h s.env
    some { s with env := out.2.1, calls := s.calls ++ out.2.2, exit := some 0 }

/-- A step of the goroutine `i`, if there is one and it can move. -/
def taskStep {σ : Type} (h : Handler σ) (L : TimeLib) (s : State σ) (i : Nat) :
    Option (State σ) :=
  match s.tasks.get? i with
  | none => none
  | some (.op (.call cl k)) =>
    some { s with env := (h s.env cl).2, calls := s.calls ++ [cl],
                  tasks := s.tasks.set i (.op (k (h s.env cl).1)) }
  | some (.op (.ret r)) => some { s with tasks := s.tasks.set i (.send r .lock) }
  | some (.send r p) =>
    (sendStep L r p s).map fun out =>
      { out.1 with tasks := s.tasks.set i (match out.2 with | some q => .send r q | none => .done) }
  | some .done =>
    if s.wg = 0 then some { s with exit := some 2 }
    else some { s with wg := s.wg - 1, tasks := s.tasks.set i .finished }
  | some .finished => none

/-- A step of the process: of the main goroutine (`tid = 0`) or of the
goroutine `tid - 1`; none once the process has ended. -/
def step {σ : Type} (h : Handler σ) (L : TimeLib) (c : cache) (s : State σ) (tid : Nat) :
    Option (State σ) :=
  if s.exit.isSome then none
  else
    match tid with
    | 0 => mainStep h L c s
    | i + 1 => taskStep h L s i

/-- The process moves from `s` to `t` in one step. -/
def Step {σ : Type} (h : Handler σ) (L : TimeLib) (c : cache) (s t : State σ) : Prop :=
  ∃ tid, step h L c s tid = some t

/-- Run the goroutines named by a schedule, one step each; a goroutine that
cannot move is passed over. -/
def exec {σ : Type} (h : Handler σ) (L : TimeLib) (c : cache) :
    List Nat → State σ → State σ
  | [], s => s
  | tid :: sched, s => exec h L c sched ((step h L c s tid).getD s)

/-- The lines `ls` carry the requests `rs`: one record for each request, and
behind it one line with the body when its `BodySize` is positive. -/
inductive Framed : List Line → List request → Prop where
  | nil : Framed [] []
  | bare (l : Line) (ls : List Line) (r : request) (rs : List request) :
      l.asRequest = some r → r.BodySize ≤ 0 → Framed ls rs →
      Framed (l :: ls) ({ r with body := [] } :: rs)
  | body (l b : Line) (ls : List Line) (r : request) (bs : List Byte) (rs : List request) :
      l.asRequest = some r → 0 < r.BodySize → b.asBody = some bs → Framed ls rs →
      Framed (l :: b :: ls) ({ r with body := bs } :: rs)

/-! ## Samples for the examples -/

/-- A sample of package `time`, right on the two timestamps of the examples.
`time.Parse` takes the offset `+24:00` (its range test on the hours of an
offset is `hr > 24`), and from Go 1.20 on `MarshalJSON` returns an error for
it (`timezone hour outside of range [0,23]`), as for every offset of 24 hours
or more. -/
def sampleTime : TimeLib where
  Format := fun _ => "2024-01-01T00:00:00Z"
  Parse := fun ts =>
    if ts = "2024-01-01T00:00:00Z" then some { unixNano := 1704067200000000000 }
    else if ts = "2024-01-01T00:00:00+24:00" then
      some { unixNano := 1703980800000000000, offset := 86400 }
    else none
  MarshalJSON := fun t =>
    if 24 * 3600 ≤ t.offset.natAbs then none
    else some (String.singleton (Char.ofNat 34) ++ "2024-01-01T00:00:00Z" ++
      String.singleton (Char.ofNat 34))

/-- A sample configuration. -/
def sampleCache : cache := { bucket := "bkt", keyPrefix := "", tmpDir := "/tmp/gocache-s3-1" }

/-- An empty bucket and an empty staging directory, without faults. -/
def emptyWorld : World :=
  { objects := [], files := [], clock := { unixNano := 1704067200000000000 }, faults := [] }

/-- A bucket with one object, under the key `aa`, with the given metadata. -/
def worldWith (metadata : List (String × String)) : World :=
  { emptyWorld with objects := [(("bkt", "aa"), ⟨[1, 2, 3], metadata⟩)] }

/-- The put of the example of the specification. -/
def samplePut : request :=
  { ID := 1, Command := cmdPut, ActionID := [0xAA], OutputID := [0xBB], BodySize := 3,
    body := [1, 2, 3] }

/-- The get of the example of the specification. -/
def sampleGet : request := { ID := 2, Command := cmdGet, ActionID := [0xAA] }

/-! ## Valid hex, in the words of the specification -/

/-- The hex digits, of either case. -/
def hexDigits : List Char := "0123456789abcdefABCDEF".data

/-- A string is valid hex when its length is even and every character of it is
a hex digit. -/
def validHex (s : String) : Prop := s.data.length % 2 = 0 ∧ ∀ c ∈ s.data, c ∈ hexDigits

instance (s : String) : Decidable (validHex s) := by
  unfold validHex; infer_instance

/-- No fault is left in the script: every coming call does what it should. -/
def World.Faithful (w : World) : Prop := ∀ f ∈ w.faults, f = .ok

instance (w : World) : Decidable w.Faithful := by
  unfold World.Faithful; infer_instance

/-- What `Clean` returns for a path whose earlier elements left the loop in the
state `s` and whose last element is `l`, of hex digits or empty. -/
def cleanLast (rooted : Bool) (s : CleanState) (l : List Char) : String :=
  cleanResult (if l = [] then s else { s with out := l.foldl lazybuf.append (addSlash rooted s.out) })

/-! ## Runs of the dispatcher -/

/-- A run of `n` steps from `s` to `t`. -/
inductive Steps {σ : Type} (h : Handler σ) (L : TimeLib) (c : cache) :
    Nat → State σ → State σ → Prop where
  | refl (s : State σ) : Steps h L c 0 s s
  | step {n : Nat} {s t u : State σ} : Step h L c s t → Steps h L c n t u → Steps h L c (n + 1) s u

/-- The state `t` is reached by a run from `s`. -/
def Reach {σ : Type} (h : Handler σ) (L : TimeLib) (c : cache) (s t : State σ) : Prop :=
  ∃ n, Steps h L c n s t

/-- A goroutine that holds the mutex: past `mu.Lock()`, before the end of
`mu.Unlock()`. -/
def TaskPC.holding : TaskPC → Bool
  | .send _ .encode => true
  | .send _ .unlock => true
  | _ => false

/-- A goroutine that has not called `wg.Done()` yet. -/
def TaskPC.live : TaskPC → Bool
  | .finished => false
  | _ => true

/-- A goroutine that is past `enc.Encode`: its response is on standard output,
or could not be marshalled and was dropped. -/
def TaskPC.encoded : TaskPC → Bool
  | .send _ .unlock => true
  | .done => true
  | .finished => true
  | _ => false

/-- The main goroutine holds the mutex. -/
def MainPC.holding : MainPC → Bool
  | .handshake .encode => true
  | .handshake .unlock => true
  | .closeAck _ .encode => true
  | .closeAck _ .unlock => true
  | _ => false

/-- The main goroutine has written the handshake. -/
def MainPC.greeted : MainPC → Bool
  | .handshake .lock => false
  | .handshake .encode => false
  | _ => true

/-- The main goroutine has written the acknowledgement of the close request. -/
def MainPC.acked : MainPC → Bool
  | .closeAck _ .unlock => true
  | .deferred => true
  | _ => false

/-- The number of goroutines, the main one included, that hold the mutex. -/
def State.holders {σ : Type} (s : State σ) : Nat :=
  (if s.main.holding then 1 else 0) + s.tasks.countP TaskPC.holding

/-- The mutex is held by exactly the goroutines inside `send`, at most one,
and the wait group counts the goroutines that have not ended. -/
def State.Sound {σ : Type} (s : State σ) : Prop :=
  s.holders = (if s.mu then 1 else 0) ∧ s.wg = s.tasks.countP TaskPC.live

/-- An operation makes at most `n` calls. -/
def Prog.Bounded {α : Type} : Nat → Prog α → Prop
  | _, .ret _ => True
  | 0, .call _ _ => False
  | n + 1, .call _ k => ∀ r, Prog.Bounded n (k r)

/-- The goroutine ends within `n` steps. -/
def TaskPC.Within : TaskPC → Nat → Prop
  | .op p, n => ∃ m, p.Bounded m ∧ m + 5 ≤ n
  | .send _ .lock, n => 4 ≤ n
  | .send _ .encode, n => 3 ≤ n
  | .send _ .unlock, n => 2 ≤ n
  | .done, n => 1 ≤ n
  | .finished, _ => True

/-- The steps the main goroutine has left, the goroutines it will start
included, when `len` lines are left to read. -/
def MainPC.budget (len : Nat) : MainPC → Nat
  | .handshake .lock => len * 12 + 9
  | .handshake .encode => len * 12 + 8
  | .handshake .unlock => len * 12 + 7
  | .read => len * 12 + 6
  | .closeWait _ => 5
  | .closeAck _ .lock => 4
  | .closeAck _ .encode => 3
  | .closeAck _ .unlock => 2
  | .eofWait => 2
  | .deferred => 1

/-- The process ends within `n` steps. -/
def State.Within {σ : Type} (s : State σ) (n : Nat) : Prop :=
  ∃ ns : List Nat, List.Forall₂ TaskPC.Within s.tasks ns ∧
    (if s.exit.isSome then 0 else s.main.budget s.stdin.length) + ns.sum ≤ n

/-- The input the claims on `close` are about: the lines of requests, none of
them a close, then the lines of a close request, then anything. -/
structure CloseInput where
  reqs : List request
  lines : List Line
  closeLines : List Line
  closeReq : request
  rest : List Line
  broken : Bool

/-- The lines of a `CloseInput`. -/
def CloseInput.stdin (I : CloseInput) : List Line := I.lines ++ (I.closeLines ++ I.rest)

/-- A `CloseInput` is well formed: the lines carry the requests, none is a
close, and the close lines carry one request, which is a close. -/
structure CloseInput.WF (I : CloseInput) : Prop where
  framed : Framed I.lines I.reqs
  noClose : ∀ r ∈ I.reqs, r.Command ≠ cmdClose
  closeFramed : Framed I.closeLines [I.closeReq]
  isClose : I.closeReq.Command = cmdClose

/-- Every result the operation can return satisfies `P`. -/
def Prog.Yields {α : Type} (P : α → Prop) : Prog α → Prop
  | .ret a => P a
  | .call _ k => ∀ r, Prog.Yields P (k r)

/-- The goroutine answers the request `q`: the response it computes, and then
sends, carries the ID of `q`. -/
def TaskPC.Answers (a : TaskPC) (q : request) : Prop :=
  match a with
  | .op p => p.Yields fun r => r.ID = q.ID
  | .send r _ => r.ID = q.ID
  | .done => True
  | .finished => True

/-- The IDs of the requests whose goroutine is past `enc.Encode`, for the
goroutines `ts` started for the requests `qs`. -/
def answered : List TaskPC → List request → List Int
  | a :: ts, q :: qs => if a.encoded then q.ID :: answered ts qs else answered ts qs
  | _, _ => []

/-- The requests that start a goroutine: the gets and the puts, in order. -/
def spawned (reqs : List request) : List request :=
  reqs.filter fun r => r.Command = cmdGet ∨ r.Command = cmdPut

/-- What is on standard output when the main goroutine stands at `main` and
the goroutines of the requests with the IDs `ids` are past `enc.Encode`: the
handshake once `main` has written it, the responses of these goroutines that
could be marshalled, in any order (the others were dropped), and the
acknowledgement of the close request once `main` has written it. -/
def CloseInput.Output (I : CloseInput) (L : TimeLib) (main : MainPC) (stdout : List response)
    (ids : List Int) : Prop :=
  ∃ outs dropped : List response,
    stdout = (if main.greeted then [handshake] else []) ++ outs ++
      (if main.acked then [{ ID := I.closeReq.ID }] else []) ∧
    (∀ r ∈ outs, encodes L r = true) ∧ (∀ r ∈ dropped, encodes L r = false) ∧
    ((outs ++ dropped).map fun r => r.ID).Perm ids

/-- What is left of the input, for which requests goroutines were started
(`qs`) and how many have not ended (`live`), when the main goroutine stands at
`main`. -/
def CloseInput.Place (I : CloseInput) (main : MainPC) (stdin : List Line)
    (qs : List request) (live : Nat) : Prop :=
  match main with
  | .handshake _ => qs = [] ∧ stdin = I.stdin
  | .read =>
    ∃ done todo lines, I.reqs = done ++ todo ∧ Framed lines todo ∧
      stdin = lines ++ (I.closeLines ++ I.rest) ∧ qs = spawned done
  | .closeWait ID => ID = I.closeReq.ID ∧ qs = spawned I.reqs
  | .closeAck ID _ => ID = I.closeReq.ID ∧ qs = spawned I.reqs ∧ live = 0
  | .eofWait => False
  | .deferred => qs = spawned I.reqs ∧ live = 0

/-- What holds of every state of a run on a `CloseInput`. -/
def CloseInput.Inv {σ : Type} (I : CloseInput) (L : TimeLib) (s : State σ) : Prop :=
  (s.exit = none ∨ (s.exit = some 0 ∧ s.main = .deferred)) ∧
  ∃ qs : List request,
    List.Forall₂ TaskPC.Answers s.tasks qs ∧
    I.Output L s.main s.stdout (answered s.tasks qs) ∧
    I.Place s.main s.stdin qs (s.tasks.countP TaskPC.live)

/-- The same state with another standard input. -/
def State.withInput {σ : Type} (s : State σ) (stdin : List Line) (broken : Bool) : State σ :=
  { s with stdin := stdin, broken := broken }

/-- The steps of the process, one rule for each place of a goroutine: the
steps of `step`, spelled out. -/
inductive Trans {σ : Type} (h : Handler σ) (L : TimeLib) (c : cache) :
    State σ → State σ → Prop where
  | hsLock (s : State σ) : s.exit = none → s.main = .handshake .lock → s.mu = false →
      Trans h L c s { s with mu := true, main := .handshake .encode }
  | hsEncode (s : State σ) : s.exit = none → s.main = .handshake .encode →
      Trans h L c s { s with stdout := s.stdout ++ [handshake], main := .handshake .unlock }
  | hsUnlock (s : State σ) : s.exit = none → s.main = .handshake .unlock →
      Trans h L c s { s with mu := false, main := .read }
  | read (s : State σ) : s.exit = none → s.main = .read → Trans h L c s (readStep L c s)
  | closeWait (s : State σ) (ID : Int) : s.exit = none → s.main = .closeWait ID → s.wg = 0 →
      Trans h L c s { s with main := .closeAck ID .lock }
  | ackLock (s : State σ) (ID : Int) : s.exit = none → s.main = .closeAck ID .lock →
      s.mu = false → Trans h L c s { s with mu := true, main := .closeAck ID .encode }
  | ackEncode (s : State σ) (ID : Int) : s.exit = none → s.main = .closeAck ID .encode →
      Trans h L c s { s with stdout := s.stdout ++ [{ ID := ID }], main := .closeAck ID .unlock }
  | ackUnlock (s : State σ) (ID : Int) : s.exit = none → s.main = .closeAck ID .unlock →
      Trans h L c s { s with mu := false, main := .deferred }
  | eofWait (s : State σ) : s.exit = none → s.main = .eofWait → s.wg = 0 →
      Trans h L c s { s with main := .deferred }
  | deferred (s : State σ) : s.exit = none → s.main = .deferred →
      Trans h L c s { s with env := (c.close.run h s.env).2.1,
                             calls := s.calls ++ (c.close.run h s.env).2.2, exit := some 0 }
  | opCall (s : State σ) (i : Nat) (cl : Call) (k : cl.Result → Prog response) :
      s.exit = none → s.tasks.get? i = some (.op (.call cl k)) →
      Trans h L c s { s with env := (h s.env cl).2, calls := s.calls ++ [cl],
                             tasks := s.tasks.set i (.op (k (h s.env cl).1)) }
  | opRet (s : State σ) (i : Nat) (r : response) :
      s.exit = none → s.tasks.get? i = some (.op (.ret r)) →
      Trans h L c s { s with tasks := s.tasks.set i (.send r .lock) }
  | sendLock (s : State σ) (i : Nat) (r : response) :
      s.exit = none → s.tasks.get? i = some (.send r .lock) → s.mu = false →
      Trans h L c s { s with mu := true, tasks := s.tasks.set i (.send r .encode) }
  | sendEncode (s : State σ) (i : Nat) (r : response) :
      s.exit = none → s.tasks.get? i = some (.send r .encode) → encodes L r = true →
      Trans h L c s { s with stdout := s.stdout ++ [r], tasks := s.tasks.set i (.send r .unlock) }
  | sendDrop (s : State σ) (i : Nat) (r : response) :
      s.exit = none → s.tasks.get? i = some (.send r .encode) → encodes L r = false →
      Trans h L c s { s with tasks := s.tasks.set i (.send r .unlock) }
  | sendUnlock (s : State σ) (i : Nat) (r : response) :
      s.exit = none → s.tasks.get? i = some (.send r .unlock) →
      Trans h L c s { s with mu := false, tasks := s.tasks.set i .done }
  | donePanic (s : State σ) (i : Nat) :
      s.exit = none → s.tasks.get? i = some .done → s.wg = 0 →
      Trans h L c s { s with exit := some 2 }
  | done (s : State σ) (i : Nat) :
      s.exit = none → s.tasks.get? i = some .done → s.wg ≠ 0 →
      Trans h L c s { s with wg := s.wg - 1, tasks := s.tasks.set i .finished }

/-- What one turn of the loop of `main` does, one rule for each way through
lines 101 to 141: the turns of `readStep`, spelled out. -/
inductive ReadTurn {σ : Type} (L : TimeLib) (c : cache) : State σ → State σ → Prop where
  | eof (s : State σ) : s.stdin = [] → s.broken = false →
      ReadTurn L c s { s with main := .eofWait }
  | readErr (s : State σ) : s.stdin = [] → s.broken = true → ReadTurn L c s (fatal s)
  | badRequest (s : State σ) (line : Line) (rest : List Line) :
      s.stdin = line :: rest → line.asRequest = none →
      ReadTurn L c s (fatal { s with stdin := rest })
  | noBody (s : State σ) (line : Line) (r : request) :
      s.stdin = [line] → line.asRequest = some r → 0 < r.BodySize →
      ReadTurn L c s (fatal { s with stdin := [] })
  | badBody (s : State σ) (line b : Line) (rest : List Line) (r : request) :
      s.stdin = line :: b :: rest → line.asRequest = some r → 0 < r.BodySize →
      b.asBody = none → ReadTurn L c s (fatal { s with stdin := rest })
  | withBody (s : State σ) (line b : Line) (rest : List Line) (r : request) (bs : List Byte) :
      s.stdin = line :: b :: rest → line.asRequest = some r → 0 < r.BodySize →
      b.asBody = some bs →
      ReadTurn L c s (dispatch L c { r with body := bs } { s with stdin := rest })
  | bare (s : State σ) (line : Line) (rest : List Line) (r : request) :
      s.stdin = line :: rest → line.asRequest = some r → r.BodySize ≤ 0 →
      ReadTurn L c s (dispatch L c { r with body := [] } { s with stdin := rest })

/-- The main goroutine has not read the close request yet. -/
def MainPC.reading : MainPC → Bool
  | .handshake _ => true
  | .read => true
  | _ => false

/-- Two states of two runs that read the same requests up to the close
request, on the lines `cls`, and differ in nothing but what is behind it on
standard input: `tA` in the one run, `tB` in the other. -/
def Twin {σ : Type} (cls : List Line) (clReq : request) (tA tB : List Line)
    (s s' : State σ) : Prop :=
  (∃ x b, s' = s.withInput x b) ∧
  (s.main.reading = true →
    ∃ todo lines, Framed lines todo ∧ (∀ r ∈ todo, r.Command ≠ cmdClose) ∧
      Framed cls [clReq] ∧ clReq.Command = cmdClose ∧
      s.stdin = lines ++ (cls ++ tA) ∧ s'.stdin = lines ++ (cls ++ tB))

/-- The close request with the ID `ID` is received on the input `stdin`: the
lines up to it are the lines of requests, none of them a close before it. -/
def Received (stdin : List Line) (ID : Int) : Prop :=
  ∃ I : CloseInput, I.WF ∧ I.stdin = stdin ∧ I.closeReq.ID = ID

/-- The lines read so far, on any input, were the lines of requests: while
`main` reads, none of them was a close, and once `main` is in `case cmdClose`,
the last of them was. -/
def Framing {σ : Type} (stdin : List Line) (s : State σ) : Prop :=
  match s.main with
  | .handshake _ => s.exit = none → s.stdin = stdin
  | .read =>
    s.exit = none → ∃ reqs lines, Framed lines reqs ∧ (∀ r ∈ reqs, r.Command ≠ cmdClose) ∧
      stdin = lines ++ s.stdin
  | .closeWait ID => Received stdin ID
  | .closeAck ID _ => Received stdin ID
  | .eofWait => True
  | .deferred => True

/-- The input of the example of the specification: a put with its body, a get,
a close, and a line that is no request behind it. -/
def sampleInput : CloseInput where
  reqs := [samplePut, sampleGet]
  lines := [⟨some { samplePut with body := [] }, none⟩, ⟨none, some [1, 2, 3]⟩,
    ⟨some sampleGet, none⟩]
  closeLines := [⟨some { ID := 9, Command := cmdClose }, none⟩]
  closeReq := { ID := 9, Command := cmdClose }
  rest := [⟨none, none⟩]
  broken := false

/-- A get and a close. -/
def dropInput : CloseInput where
  reqs := [sampleGet]
  lines := [⟨some sampleGet, none⟩]
  closeLines := [⟨some { ID := 9, Command := cmdClose }, none⟩]
  closeReq := { ID := 9, Command := cmdClose }
  rest := []
  broken := false

/-- A bucket whose object under the key `aa` carries a time of offset `+24:00`,
which `time.Parse` takes and `MarshalJSON` does not. -/
def dropWorld : World :=
  worldWith [("outputid", "bb"), ("time", "2024-01-01T00:00:00+24:00")]

/-- A schedule for `dropInput`: `main` up to the close, then the get, then
`main` to the end. -/
def dropSchedule : List Nat :=
  List.replicate 5 0 ++ List.replicate 10 1 ++ List.replicate 5 0

/-- The record of a close request that declares a body. -/
def closeWithBody : Line := ⟨some { ID := 9, Command := cmdClose, BodySize := 1 }, none⟩

/-- The record of a close request that declares no body. -/
def closeBare : Line := ⟨some { ID := 9, Command := cmdClose }, none⟩

/-- A line that is a body and no request. -/
def bodyLine : Line := ⟨none, some [1]⟩

/-- The record of a get, which is no body. -/
def getLine : Line := ⟨some { ID := 10, Command := cmdGet, ActionID := [0xAA] }, none⟩

/-- A line that is neither a request nor a body. -/
def badLine : Line := ⟨none, none⟩

/-- A schedule for `sampleInput`: `main` up to the close, then the get, then
the put, then `main` to the end. -/
def sampleSchedule : List Nat :=
  List.replicate 6 0 ++ List.replicate 8 2 ++ List.replicate 8 1 ++ List.replicate 8 0

/-! ## Error texts -/

theorem String.ne_empty_of_data {s : String} (h : s.data ≠ []) : s ≠ "" := by
  intro hs; apply h; rw [hs]

theorem PathError.pathText_ne_empty (e : PathError) : e.Error ≠ "" := by
  apply String.ne_empty_of_data
  simp [PathError.Error, String.data_append]

theorem WriteFileError.writeText_ne_empty (e : WriteFileError) : e.Error ≠ "" := by
  cases e with
  | path e => exact e.pathText_ne_empty
  | ErrShortWrite => decide

theorem OperationError.opText_ne_empty (e : OperationError) : e.Error ≠ "" := by
  apply String.ne_empty_of_data
  simp [OperationError.Error, String.data_append]

/-! ## `encoding/hex` -/

theorem reverseHexTable_hexDigit (n : Nat) (h : n < 16) : reverseHexTable (hexDigit n) = n := by
  interval_cases n <;> decide

set_option maxRecDepth 100000 in
theorem hexDigit_join (v : Byte) : (v.val / 16 * 16 ||| v.val % 16) % 256 = v.val := by
  revert v; decide

theorem EncodeToString_cons (v : Byte) (vs : List Byte) :
    (EncodeToString (v :: vs)).data =
      hexDigit (v.val / 16) :: hexDigit (v.val % 16) :: (EncodeToString vs).data := by
  simp [EncodeToString, List.flatMap_cons]

theorem Decode_Encode (src : List Byte) : Decode (EncodeToString src).data = .ok src := by
  induction src with
  | nil => rfl
  | cons v vs ih =>
    have h1 : v.val / 16 < 16 := by omega
    have h2 : v.val % 16 < 16 := by omega
    have h3 : ¬ (v.val / 16 > 15) := by omega
    have h4 : ¬ (v.val % 16 > 15) := by omega
    rw [EncodeToString_cons]
    simp only [Decode, reverseHexTable_hexDigit _ h1, reverseHexTable_hexDigit _ h2, ih, h3, h4,
      if_false]
    congr 2
    exact Fin.ext (hexDigit_join v)

theorem DecodeString_EncodeToString (src : List Byte) :
    DecodeString (EncodeToString src) = .ok src := Decode_Encode src

theorem mem_hexDigits_of_reverseHexTable {c : Char} (h : ¬ reverseHexTable c > 0x0f) :
    c ∈ hexDigits := by
  have hc : c = Char.ofNat c.toNat := (Char.ofNat_toNat c).symm
  unfold reverseHexTable at h
  generalize c.toNat = n at hc h
  subst hc
  split at h
  · rename_i h1; obtain ⟨h1, h2⟩ := h1; interval_cases n <;> decide
  · split at h
    · rename_i h1; obtain ⟨h1, h2⟩ := h1; interval_cases n <;> decide
    · split at h
      · rename_i h1; obtain ⟨h1, h2⟩ := h1; interval_cases n <;> decide
      · exact absurd (by decide) h

theorem Decode_ok_valid : ∀ (n : Nat) (l : List Char), l.length ≤ n → ∀ dst, Decode l = .ok dst →
    l.length % 2 = 0 ∧ ∀ c ∈ l, c ∈ hexDigits := by
  intro n
  induction n with
  | zero =>
    intro l hl dst _
    have : l = [] := List.length_eq_zero.mp (Nat.le_zero.mp hl)
    subst this; simp
  | succ n ih =>
    intro l hl dst hd
    match l, hl, hd with
    | [], _, _ => simp
    | [p], _, hd =>
      simp only [Decode] at hd
      split at hd <;> cases hd
    | p :: q :: rest, hl, hd =>
      simp only [Decode] at hd
      split at hd
      · cases hd
      · rename_i hp
        split at hd
        · cases hd
        · rename_i hq
          split at hd
          · cases hd
          · rename_i d hrest
            have := ih rest (by simp at hl; omega) d hrest
            refine ⟨by simp; omega, ?_⟩
            intro c hc
            simp only [List.mem_cons] at hc
            rcases hc with rfl | rfl | hc
            · exact mem_hexDigits_of_reverseHexTable hp
            · exact mem_hexDigits_of_reverseHexTable hq
            · exact this.2 c hc

theorem DecodeString_error_of_invalid (s : String) (h : ¬ validHex s) :
    ∃ e, DecodeString s = .error e := by
  cases hd : DecodeString s with
  | error e => exact ⟨e, rfl⟩
  | ok dst => exact absurd (Decode_ok_valid _ s.data le_rfl dst hd) h

/-! ## The bucket and the staging directory -/

theorem World.Faithful.headD {w : World} (h : w.Faithful) : w.faults.headD .ok = .ok := by
  unfold World.Faithful at h
  cases hf : w.faults with
  | nil => rfl
  | cons f fs => rw [hf] at h; simpa using h f (List.mem_cons_self _ _)

theorem World.Faithful.next {w : World} (h : w.Faithful) : w.next.Faithful := by
  intro f hf
  exact h f (List.mem_of_mem_tail hf)

theorem World.Faithful.setFile {w : World} (h : w.Faithful) (name : String) (data : List Byte) :
    (w.setFile name data).Faithful := h

theorem World.handle_GetObject_snd (w : World) (b k : String) :
    (World.handle w (.GetObject b k)).2 = w.next := by
  simp only [World.handle]
  repeat' split
  all_goals rfl

theorem World.handle_BodyClose (w : World) : World.handle w .BodyClose = ((), w.next) := rfl

theorem World.handle_Now (w : World) : World.handle w .Now = (w.clock, w.next) := rfl

theorem World.handle_WriteFile_cases (w : World) (name : String) (data : List Byte) (perm : Nat) :
    World.handle w (.WriteFile name data perm) = (none, w.next.setFile name data) ∨
    ∃ e, (World.handle w (.WriteFile name data perm)).1 = some e := by
  simp only [World.handle]
  split <;> simp

theorem World.handle_PutObject_cases (w : World) (b k : String) (body : List Byte)
    (md : List (String × String)) :
    World.handle w (.PutObject b k body md) = (none, w.next.setObject b k ⟨body, md⟩) ∨
    ((World.handle w (.PutObject b k body md)).2 = w.next ∧
      ∃ e, (World.handle w (.PutObject b k body md)).1 = some e) := by
  simp only [World.handle]
  split <;> simp

theorem World.handle_WriteFile_objects (w : World) (name : String) (data : List Byte)
    (perm : Nat) : (World.handle w (.WriteFile name data perm)).2.objects = w.objects := by
  simp only [World.handle]
  split <;> rfl

theorem World.handle_GetObject_faithful {w : World} (hw : w.Faithful) {b k : String}
    {out : GetObjectOutput} (h : w.objects.lookup (b, k) = some out) :
    World.handle w (.GetObject b k) = (.ok out, w.next) := by
  simp only [World.handle, hw.headD, h]

theorem World.handle_Create_faithful {w : World} (hw : w.Faithful) (name : String) :
    World.handle w (.Create name) = (none, w.next.setFile name []) := by
  simp only [World.handle, hw.headD]

theorem World.handle_Copy_faithful {w : World} (hw : w.Faithful) (name : String)
    (src : List Byte) :
    World.handle w (.Copy name src) =
      ((src.length, none), w.next.setFile name (w.content name ++ src)) := by
  simp only [World.handle, hw.headD]

theorem World.handle_FileClose_faithful {w : World} (hw : w.Faithful) (name : String) :
    World.handle w (.FileClose name) = (none, w.next) := by
  simp only [World.handle, hw.headD]

theorem World.content_setFile (w : World) (name : String) (data : List Byte) :
    (w.setFile name data).content name = data := by
  simp [World.content, World.setFile]

theorem World.content_next (w : World) (name : String) : w.next.content name = w.content name :=
  rfl

/-! ## The responses of the store operations -/

/-- The three shapes of a response of `get`. -/
theorem get_shape {σ : Type} (L : TimeLib) (c : cache) (req : request) (h : Handler σ) (s : σ) :
    ((c.get L req).run h s).1 = { ID := req.ID, Miss := true } ∨
    (∃ e, ((c.get L req).run h s).1 = { ID := req.ID, Err := e }) ∨
    (∃ o n t, ((c.get L req).run h s).1 =
      { ID := req.ID, OutputID := o, Size := n, Time := t,
        DiskPath := c.diskPath req.ActionID }) := by
  simp only [cache.get, closeBody]
  repeat' (first | split | (simp only [Prog.run]))
  all_goals simp

/-- The two shapes of a response of `put`. -/
theorem put_shape {σ : Type} (L : TimeLib) (c : cache) (req : request) (h : Handler σ) (s : σ) :
    (∃ e, ((c.put L req).run h s).1 = { ID := req.ID, Err := e }) ∨
    ((c.put L req).run h s).1 = { ID := req.ID, DiskPath := c.diskPath req.ActionID } := by
  simp only [cache.put]
  repeat' (first | split | (simp only [Prog.run]))
  all_goals simp

/-- A put that answers with an empty Err has written the file and the object. -/
theorem put_success (L : TimeLib) (c : cache) (req : request) (w : World)
    (hput : ((c.put L req).run World.handle w).1.Err = "") :
    ((c.put L req).run World.handle w).1 = { ID := req.ID, DiskPath := c.diskPath req.ActionID } ∧
    ((c.put L req).run World.handle w).2.1 =
      ((w.next.next.setFile (c.diskPath req.ActionID) req.body).next.setObject c.bucket
        (c.s3Key req.ActionID)
        ⟨req.body, [("outputid", EncodeToString req.OutputID), ("time", L.Format w.clock)]⟩) := by
  simp only [cache.put, Prog.run, World.handle_Now] at hput ⊢
  rcases World.handle_WriteFile_cases w.next (c.diskPath req.ActionID) req.body 0o644
    with hW | ⟨err, hW⟩
  · simp only [hW, Prog.run] at hput ⊢
    rcases World.handle_PutObject_cases (w.next.next.setFile (c.diskPath req.ActionID) req.body)
      c.bucket (c.s3Key req.ActionID) req.body
      [("outputid", EncodeToString req.OutputID), ("time", L.Format w.clock)]
      with hP | ⟨_, err, hP⟩
    · simp only [hP, Prog.run]
      trivial
    · simp only [hP, Prog.run] at hput
      exact absurd hput err.opText_ne_empty
  · simp only [hW, Prog.run] at hput
    exact absurd hput err.writeText_ne_empty

/-- A get in a bucket that holds the object, when no fault strikes. -/
theorem get_faithful (L : TimeLib) (c : cache) (req : request) (w : World) (o : List Byte)
    (out : GetObjectOutput) (hw : w.Faithful)
    (hobj : w.objects.lookup (c.bucket, c.s3Key req.ActionID) = some out)
    (hmeta : out.Metadata.lookup "outputid" = some (EncodeToString o)) :
    ((c.get L req).run World.handle w).1 =
      { ID := req.ID, OutputID := o, Size := out.Body.length,
        Time := (out.Metadata.lookup "time").bind L.Parse,
        DiskPath := c.diskPath req.ActionID } ∧
    ((c.get L req).run World.handle w).2.1.content (c.diskPath req.ActionID) = out.Body := by
  have hw1 := hw.next
  have hw2 := (hw1.next).setFile (c.diskPath req.ActionID) []
  have hw3 := (hw2.next).setFile (c.diskPath req.ActionID)
    ((w.next.next.setFile (c.diskPath req.ActionID) []).content (c.diskPath req.ActionID) ++
      out.Body)
  have hc : ∀ r : response, (closeBody r).run World.handle
      ((w.next.next.setFile (c.diskPath req.ActionID) []).next.setFile (c.diskPath req.ActionID)
        ((w.next.next.setFile (c.diskPath req.ActionID) []).content
          (c.diskPath req.ActionID) ++ out.Body)).next =
      (r, (((w.next.next.setFile (c.diskPath req.ActionID) []).next.setFile
        (c.diskPath req.ActionID)
        ((w.next.next.setFile (c.diskPath req.ActionID) []).content
          (c.diskPath req.ActionID) ++ out.Body)).next).next, [.BodyClose]) := by
    intro r
    simp only [closeBody, Prog.run, World.handle_BodyClose]
  cases ht : out.Metadata.lookup "time" with
  | none =>
    simp only [cache.get, Prog.run, World.handle_GetObject_faithful hw hobj, hmeta,
      DecodeString_EncodeToString, World.handle_Create_faithful hw1,
      World.handle_Copy_faithful hw2, World.handle_FileClose_faithful hw3, ht, hc]
    simp [World.content_next, World.content_setFile]
  | some ts =>
    cases hp : L.Parse ts <;>
    · simp only [cache.get, Prog.run, World.handle_GetObject_faithful hw hobj, hmeta,
        DecodeString_EncodeToString, World.handle_Create_faithful hw1,
        World.handle_Copy_faithful hw2, World.handle_FileClose_faithful hw3, ht, hp, hc]
      simp [World.content_next, World.content_setFile, hp]

/-- C1: when a put of `(a, o, body)` answers with an empty Err in a bucket and a
staging directory of any content, under any faults, and no fault strikes
afterwards, the get of `a` that follows answers Miss=false, Err empty,
OutputID = o, Size = len(body), the DiskPath of the put, and the file at that
path holds exactly `body`. -/
theorem C1_put_then_get (L : TimeLib) (c : cache) (preq greq : request) (w : World)
    (hkey : greq.ActionID = preq.ActionID)
    (hput : ((c.put L preq).run World.handle w).1.Err = "")
    (hfaith : ((c.put L preq).run World.handle w).2.1.Faithful) :
    ((c.get L greq).run World.handle ((c.put L preq).run World.handle w).2.1).1.Miss = false ∧
    ((c.get L greq).run World.handle ((c.put L preq).run World.handle w).2.1).1.Err = "" ∧
    ((c.get L greq).run World.handle ((c.put L preq).run World.handle w).2.1).1.OutputID =
      preq.OutputID ∧
    ((c.get L greq).run World.handle ((c.put L preq).run World.handle w).2.1).1.Size =
      preq.body.length ∧
    ((c.get L greq).run World.handle ((c.put L preq).run World.handle w).2.1).1.DiskPath =
      ((c.put L preq).run World.handle w).1.DiskPath ∧
    ((c.get L greq).run World.handle ((c.put L preq).run World.handle w).2.1).2.1.content
      ((c.get L greq).run World.handle ((c.put L preq).run World.handle w).2.1).1.DiskPath =
      preq.body := by
  obtain ⟨h1, h2⟩ := put_success L c preq w hput
  have hg := get_faithful L c greq ((c.put L preq).run World.handle w).2.1 preq.OutputID
    ⟨preq.body, [("outputid", EncodeToString preq.OutputID), ("time", L.Format w.clock)]⟩ hfaith
    (by rw [h2, hkey]; simp [World.setObject]) (by simp)
  obtain ⟨g1, g2⟩ := hg
  rw [g1, h1]
  simp only [hkey, true_and]
  rw [hkey] at g2
  exact g2

/-- C1 at the example of the specification, over an earlier put to the same
key with another OutputID and body. -/
theorem C1_put_then_get_witness :
    ((sampleCache.put sampleTime samplePut).run World.handle
      (worldWith [("outputid", "cc")])).1.Err = "" ∧
    ((sampleCache.get sampleTime sampleGet).run World.handle
      ((sampleCache.put sampleTime samplePut).run World.handle
        (worldWith [("outputid", "cc")])).2.1).1.OutputID = [0xBB] :=
  ⟨by decide,
   (C1_put_then_get sampleTime sampleCache samplePut sampleGet (worldWith [("outputid", "cc")])
      rfl (by decide) (by decide)).2.2.1⟩

/-- C3: a get whose fetch fails with the object-absent signal (an API error
with code NoSuchKey or NotFound) answers exactly `{ID, Miss: true}`; the fetch
is the only call made, so no staging file is created. -/
theorem C3_get_absent_is_miss {σ : Type} (L : TimeLib) (c : cache) (req : request)
    (h : Handler σ) (s : σ) (e : OperationError)
    (hfetch : (h s (.GetObject c.bucket (c.s3Key req.ActionID))).1 = .error e)
    (hcode : e.apiCode = some "NoSuchKey" ∨ e.apiCode = some "NotFound") :
    (c.get L req).run h s =
      ({ ID := req.ID, Err := "", KnownCommands := [], Miss := true, OutputID := [], Size := 0,
         Time := none, DiskPath := "" },
       (h s (.GetObject c.bucket (c.s3Key req.ActionID))).2,
       [.GetObject c.bucket (c.s3Key req.ActionID)]) := by
  simp only [cache.get, Prog.run, hfetch]
  rcases hcode with hc | hc <;> simp [hc, Prog.run]

/-- C3 at the example of the specification: a get of the key `ff` in an empty
bucket. -/
theorem C3_get_absent_is_miss_witness :
    (World.handle emptyWorld (.GetObject "bkt" "ff")).1 = .error noSuchKey ∧
    (sampleCache.get sampleTime { ID := 3, Command := cmdGet, ActionID := [0xFF] }).run
        World.handle emptyWorld =
      ({ ID := 3, Miss := true }, emptyWorld, [.GetObject "bkt" "ff"]) :=
  ⟨rfl, C3_get_absent_is_miss sampleTime sampleCache
    { ID := 3, Command := cmdGet, ActionID := [0xFF] } World.handle emptyWorld noSuchKey rfl
    (Or.inl rfl)⟩

/-- C4: on every response of get and of put, whatever the environment does,
Miss and a non-empty Err never come together, and a non-empty Err comes with
Miss=false, no OutputID, zero Size and empty DiskPath. -/
theorem C4_err_miss_exclusive {σ : Type} (L : TimeLib) (c : cache) (req : request)
    (h : Handler σ) (s : σ) :
    (¬ (((c.get L req).run h s).1.Miss = true ∧ ((c.get L req).run h s).1.Err ≠ "") ∧
      (((c.get L req).run h s).1.Err ≠ "" →
        ((c.get L req).run h s).1.Miss = false ∧ ((c.get L req).run h s).1.OutputID = [] ∧
        ((c.get L req).run h s).1.Size = 0 ∧ ((c.get L req).run h s).1.DiskPath = "")) ∧
    (¬ (((c.put L req).run h s).1.Miss = true ∧ ((c.put L req).run h s).1.Err ≠ "") ∧
      (((c.put L req).run h s).1.Err ≠ "" →
        ((c.put L req).run h s).1.Miss = false ∧ ((c.put L req).run h s).1.OutputID = [] ∧
        ((c.put L req).run h s).1.Size = 0 ∧ ((c.put L req).run h s).1.DiskPath = "")) := by
  constructor
  · rcases get_shape L c req h s with h1 | ⟨e, h1⟩ | ⟨o, n, t, h1⟩ <;> simp [h1]
  · rcases put_shape L c req h s with ⟨e, h1⟩ | h1 <;> simp [h1]

/-- C4 at a get that fails: the fetch is struck by an access error. -/
theorem C4_err_miss_exclusive_witness :
    ((sampleCache.get sampleTime sampleGet).run World.handle
        { emptyWorld with faults := [.s3 ⟨"S3", "GetObject", some "AccessDenied", "denied"⟩] }).1.Err
        ≠ "" ∧
    ((sampleCache.get sampleTime sampleGet).run World.handle
        { emptyWorld with faults := [.s3 ⟨"S3", "GetObject", some "AccessDenied", "denied"⟩] }).1.Miss
        = false :=
  ⟨by decide,
   ((C4_err_miss_exclusive sampleTime sampleCache sampleGet World.handle
      { emptyWorld with
        faults := [.s3 ⟨"S3", "GetObject", some "AccessDenied", "denied"⟩] }).1.2 (by decide)).1⟩

/-- C7: a get whose object exists but has no "outputid" metadata answers
exactly `{ID, Miss: true}`, which is the answer of a get whose fetch fails with
the object-absent signal, in any environment. -/
theorem C7_no_outputid_is_miss {σ : Type} (L : TimeLib) (c : cache) (req : request)
    (h : Handler σ) (s : σ) (out : GetObjectOutput)
    (hfetch : (h s (.GetObject c.bucket (c.s3Key req.ActionID))).1 = .ok out)
    (hmeta : out.Metadata.lookup "outputid" = none) :
    ((c.get L req).run h s).1 =
      { ID := req.ID, Err := "", KnownCommands := [], Miss := true, OutputID := [], Size := 0,
        Time := none, DiskPath := "" } ∧
    ∀ (τ : Type) (h' : Handler τ) (s' : τ) (e : OperationError),
      (h' s' (.GetObject c.bucket (c.s3Key req.ActionID))).1 = .error e →
      (e.apiCode = some "NoSuchKey" ∨ e.apiCode = some "NotFound") →
      ((c.get L req).run h s).1 = ((c.get L req).run h' s').1 := by
  have h1 : ((c.get L req).run h s).1 = { ID := req.ID, Miss := true } := by
    simp only [cache.get, Prog.run, hfetch, hmeta, closeBody]
  refine ⟨h1, ?_⟩
  intro τ h' s' e hf hc
  rw [h1]
  simp only [cache.get, Prog.run, hf]
  rcases hc with hc | hc <;> simp [hc, Prog.run]

/-- C7 at an object with a body and a time but no "outputid": the get answers
as the get in the empty bucket does. -/
theorem C7_no_outputid_is_miss_witness :
    (World.handle (worldWith [("time", "2024-01-01T00:00:00Z")]) (.GetObject "bkt" "aa")).1 =
      .ok ⟨[1, 2, 3], [("time", "2024-01-01T00:00:00Z")]⟩ ∧
    ((sampleCache.get sampleTime sampleGet).run World.handle
        (worldWith [("time", "2024-01-01T00:00:00Z")])).1 = { ID := 2, Miss := true } ∧
    ((sampleCache.get sampleTime sampleGet).run World.handle
        (worldWith [("time", "2024-01-01T00:00:00Z")])).1 =
      ((sampleCache.get sampleTime sampleGet).run World.handle emptyWorld).1 :=
  ⟨rfl,
   (C7_no_outputid_is_miss sampleTime sampleCache sampleGet World.handle
      (worldWith [("time", "2024-01-01T00:00:00Z")]) _ rfl rfl).1,
   (C7_no_outputid_is_miss sampleTime sampleCache sampleGet World.handle
      (worldWith [("time", "2024-01-01T00:00:00Z")]) _ rfl rfl).2 World World.handle emptyWorld
      noSuchKey rfl (Or.inl rfl)⟩

/-- C9: a put whose write of the body to the staging path fails answers with a
non-empty Err and an empty DiskPath; the calls made are the clock and the
write, the upload is not among them, and in a bucket the objects are as they
were. -/
theorem C9_failed_local_write_aborts {σ : Type} (L : TimeLib) (c : cache) (req : request)
    (h : Handler σ) (s : σ) (err : WriteFileError)
    (hwrite : (h (h s .Now).2 (.WriteFile (c.diskPath req.ActionID) req.body 0o644)).1 = some err) :
    ((c.put L req).run h s).1 = { ID := req.ID, Err := err.Error } ∧
    ((c.put L req).run h s).1.Err ≠ "" ∧
    ((c.put L req).run h s).1.DiskPath = "" ∧
    ((c.put L req).run h s).2.2 = [.Now, .WriteFile (c.diskPath req.ActionID) req.body 0o644] ∧
    ((c.put L req).run h s).2.1 =
      (h (h s .Now).2 (.WriteFile (c.diskPath req.ActionID) req.body 0o644)).2 ∧
    ∀ (w : World) (e : WriteFileError),
      (World.handle (World.handle w .Now).2
        (.WriteFile (c.diskPath req.ActionID) req.body 0o644)).1 = some e →
      ((c.put L req).run World.handle w).2.1.objects = w.objects := by
  have h1 : (c.put L req).run h s = ({ ID := req.ID, Err := err.Error },
      (h (h s .Now).2 (.WriteFile (c.diskPath req.ActionID) req.body 0o644)).2,
      [.Now, .WriteFile (c.diskPath req.ActionID) req.body 0o644]) := by
    simp only [cache.put, Prog.run, hwrite]
  refine ⟨by rw [h1], by rw [h1]; exact err.writeText_ne_empty, by rw [h1], by rw [h1], by rw [h1], ?_⟩
  intro w e he
  have h2 : ((c.put L req).run World.handle w).2.1 =
      (World.handle (World.handle w .Now).2
        (.WriteFile (c.diskPath req.ActionID) req.body 0o644)).2 := by
    simp only [cache.put, Prog.run, he]
  rw [h2, World.handle_WriteFile_objects]
  rfl

/-- C9 at the put of the example when the staging directory cannot be
written. -/
theorem C9_failed_local_write_aborts_witness :
    (World.handle (World.handle { emptyWorld with
        faults := [.ok, .fs ⟨"open", "/tmp/gocache-s3-1/aa", "permission denied"⟩] } .Now).2
      (.WriteFile (sampleCache.diskPath samplePut.ActionID) samplePut.body 0o644)).1 =
      some (.path ⟨"open", "/tmp/gocache-s3-1/aa", "permission denied"⟩) ∧
    ((sampleCache.put sampleTime samplePut).run World.handle { emptyWorld with
        faults := [.ok, .fs ⟨"open", "/tmp/gocache-s3-1/aa", "permission denied"⟩] }).1 =
      { ID := 1, Err := "open /tmp/gocache-s3-1/aa: permission denied" } :=
  ⟨by decide,
   (C9_failed_local_write_aborts sampleTime sampleCache samplePut World.handle
      { emptyWorld with
        faults := [.ok, .fs ⟨"open", "/tmp/gocache-s3-1/aa", "permission denied"⟩] }
      (.path ⟨"open", "/tmp/gocache-s3-1/aa", "permission denied"⟩) (by decide)).1⟩
/-- C8: a get whose object carries an "outputid" that is not valid hex (odd
length or a character that is no hex digit) answers with a non-empty Err,
Miss=false, no OutputID, zero Size and empty DiskPath; the calls made are the
fetch and the closing of the body, so no staging file is created or modified,
and in a bucket with a staging directory the files are as they were. -/
theorem C8_corrupt_outputid_is_error {σ : Type} (L : TimeLib) (c : cache) (req : request)
    (h : Handler σ) (s : σ) (out : GetObjectOutput) (outputIDHex : String)
    (hfetch : (h s (.GetObject c.bucket (c.s3Key req.ActionID))).1 = .ok out)
    (hmeta : out.Metadata.lookup "outputid" = some outputIDHex)
    (hbad : ¬ validHex outputIDHex) :
    ((c.get L req).run h s).1.Err ≠ "" ∧
    ((c.get L req).run h s).1.Miss = false ∧
    ((c.get L req).run h s).1.OutputID = [] ∧
    ((c.get L req).run h s).1.Size = 0 ∧
    ((c.get L req).run h s).1.DiskPath = "" ∧
    ((c.get L req).run h s).1.Time = none ∧
    ((c.get L req).run h s).2.2 = [.GetObject c.bucket (c.s3Key req.ActionID), .BodyClose] ∧
    ∀ (w : World) (o : GetObjectOutput),
      (World.handle w (.GetObject c.bucket (c.s3Key req.ActionID))).1 = .ok o →
      o.Metadata.lookup "outputid" = some outputIDHex →
      ((c.get L req).run World.handle w).2.1.files = w.files := by
  obtain ⟨e, he⟩ := DecodeString_error_of_invalid outputIDHex hbad
  have h1 : ∀ (τ : Type) (g : Handler τ) (t : τ) (o : GetObjectOutput),
      (g t (.GetObject c.bucket (c.s3Key req.ActionID))).1 = .ok o →
      o.Metadata.lookup "outputid" = some outputIDHex →
      (c.get L req).run g t =
        ({ ID := req.ID, Err := "decode output id metadata: " ++ e.Error },
         (g (g t (.GetObject c.bucket (c.s3Key req.ActionID))).2 .BodyClose).2,
         [.GetObject c.bucket (c.s3Key req.ActionID), .BodyClose]) := by
    intro τ g t o hf hm
    simp only [cache.get, Prog.run, hf, hm, he, closeBody]
  rw [h1 σ h s out hfetch hmeta]
  refine ⟨?_, rfl, rfl, rfl, rfl, rfl, rfl, ?_⟩
  · apply String.ne_empty_of_data
    simp [String.data_append]
  · intro w o hf hm
    rw [h1 World World.handle w o hf hm]
    rw [World.handle_BodyClose, World.handle_GetObject_snd]
    rfl

/-- C8 at an object whose "outputid" is `zz`. -/
theorem C8_corrupt_outputid_is_error_witness :
    (World.handle (worldWith [("outputid", "zz")]) (.GetObject "bkt" "aa")).1 =
      .ok ⟨[1, 2, 3], [("outputid", "zz")]⟩ ∧
    ¬ validHex "zz" ∧
    ((sampleCache.get sampleTime sampleGet).run World.handle
      (worldWith [("outputid", "zz")])).1.Err ≠ "" :=
  ⟨rfl, by decide,
   (C8_corrupt_outputid_is_error sampleTime sampleCache sampleGet World.handle
      (worldWith [("outputid", "zz")]) _ "zz" rfl rfl (by decide)).1⟩


/-- C5 as stated fails: the put of the example succeeds and its response
carries DiskPath without OutputID, Size and Time; a get that succeeds on an
object without "time" metadata carries OutputID, Size and DiskPath without
Time. -/
theorem C5_success_fields_not_together :
    (((sampleCache.put sampleTime samplePut).run World.handle emptyWorld).1 =
        { ID := 1, DiskPath := "/tmp/gocache-s3-1/aa" } ∧
      ((sampleCache.put sampleTime samplePut).run World.handle emptyWorld).1.DiskPath ≠ "" ∧
      ((sampleCache.put sampleTime samplePut).run World.handle emptyWorld).1.OutputID = [] ∧
      ((sampleCache.put sampleTime samplePut).run World.handle emptyWorld).1.Size = 0 ∧
      ((sampleCache.put sampleTime samplePut).run World.handle emptyWorld).1.Time = none) ∧
    (((sampleCache.get sampleTime sampleGet).run World.handle
          (worldWith [("outputid", "bb")])).1 =
        { ID := 2, OutputID := [0xBB], Size := 3, DiskPath := "/tmp/gocache-s3-1/aa" } ∧
      ((sampleCache.get sampleTime sampleGet).run World.handle
          (worldWith [("outputid", "bb")])).1.DiskPath ≠ "" ∧
      ((sampleCache.get sampleTime sampleGet).run World.handle
          (worldWith [("outputid", "bb")])).1.Time = none) := by
  decide

/-- C5, amended: a response of get or put with Miss or a non-empty Err carries
none of OutputID, Size, DiskPath and Time; a response of put never carries
OutputID, Size or Time, and a put whose local write and upload both return no
error carries the staging path as DiskPath; a get whose fetch, decoding,
create, copy and close all succeed carries the decoded OutputID, the number of
bytes copied as Size, the staging path as DiskPath, and Time exactly when the
"time" metadata is there and parses. -/
theorem C5_success_fields {σ : Type} (L : TimeLib) (c : cache) (req : request)
    (h : Handler σ) (s : σ) :
    ((((c.get L req).run h s).1.Miss = true ∨ ((c.get L req).run h s).1.Err ≠ "") →
      ((c.get L req).run h s).1.OutputID = [] ∧ ((c.get L req).run h s).1.Size = 0 ∧
      ((c.get L req).run h s).1.DiskPath = "" ∧ ((c.get L req).run h s).1.Time = none) ∧
    ((((c.put L req).run h s).1.Miss = true ∨ ((c.put L req).run h s).1.Err ≠ "") →
      ((c.put L req).run h s).1.OutputID = [] ∧ ((c.put L req).run h s).1.Size = 0 ∧
      ((c.put L req).run h s).1.DiskPath = "" ∧ ((c.put L req).run h s).1.Time = none) ∧
    (((c.put L req).run h s).1.OutputID = [] ∧ ((c.put L req).run h s).1.Size = 0 ∧
      ((c.put L req).run h s).1.Time = none) ∧
    ((h (h s .Now).2 (.WriteFile (c.diskPath req.ActionID) req.body 0o644)).1 = none →
      (h (h (h s .Now).2 (.WriteFile (c.diskPath req.ActionID) req.body 0o644)).2
        (.PutObject c.bucket (c.s3Key req.ActionID) req.body
          [("outputid", EncodeToString req.OutputID), ("time", L.Format (h s .Now).1)])).1 = none →
      ((c.put L req).run h s).1 = { ID := req.ID, DiskPath := c.diskPath req.ActionID }) ∧
    (∀ (out : GetObjectOutput) (outputIDHex : String) (outputID : List Byte) (n : Nat),
      (h s (.GetObject c.bucket (c.s3Key req.ActionID))).1 = .ok out →
      out.Metadata.lookup "outputid" = some outputIDHex →
      DecodeString outputIDHex = .ok outputID →
      (h (h s (.GetObject c.bucket (c.s3Key req.ActionID))).2
        (.Create (c.diskPath req.ActionID))).1 = none →
      (h (h (h s (.GetObject c.bucket (c.s3Key req.ActionID))).2
        (.Create (c.diskPath req.ActionID))).2 (.Copy (c.diskPath req.ActionID) out.Body)).1 =
        (n, none) →
      (h (h (h (h s (.GetObject c.bucket (c.s3Key req.ActionID))).2
        (.Create (c.diskPath req.ActionID))).2 (.Copy (c.diskPath req.ActionID) out.Body)).2
        (.FileClose (c.diskPath req.ActionID))).1 = none →
      ((c.get L req).run h s).1 =
        { ID := req.ID, OutputID := outputID, Size := n,
          Time := (out.Metadata.lookup "time").bind L.Parse,
          DiskPath := c.diskPath req.ActionID }) := by
  refine ⟨?_, ?_, ?_, ?_, ?_⟩
  · rcases get_shape L c req h s with h1 | ⟨e, h1⟩ | ⟨o, n, t, h1⟩ <;> simp [h1]
  · rcases put_shape L c req h s with ⟨e, h1⟩ | h1 <;> simp [h1]
  · rcases put_shape L c req h s with ⟨e, h1⟩ | h1 <;> simp [h1]
  · intro hW hP
    simp only [cache.put, Prog.run, hW, hP]
  · intro out hx o n hG hM hD hC hY hF
    cases ht : out.Metadata.lookup "time" with
    | none => simp [cache.get, Prog.run, hG, hM, hD, hC, hY, hF, ht, closeBody]
    | some ts =>
      cases hp : L.Parse ts <;>
        simp [cache.get, Prog.run, hG, hM, hD, hC, hY, hF, ht, hp, closeBody]

/-- C5, amended, at the put and the get of the example of the specification. -/
theorem C5_success_fields_witness :
    ((sampleCache.put sampleTime samplePut).run World.handle emptyWorld).1 =
        { ID := 1, DiskPath := sampleCache.diskPath [0xAA] } ∧
    ((sampleCache.get sampleTime sampleGet).run World.handle
        (worldWith [("outputid", "bb"), ("time", "2024-01-01T00:00:00Z")])).1 =
      { ID := 2, OutputID := [0xBB], Size := (3 : Nat),
        Time := some { unixNano := 1704067200000000000 }, DiskPath := sampleCache.diskPath [0xAA] } :=
  ⟨(C5_success_fields sampleTime sampleCache samplePut World.handle emptyWorld).2.2.2.1
      (by decide) (by decide),
   (C5_success_fields sampleTime sampleCache sampleGet World.handle
      (worldWith [("outputid", "bb"), ("time", "2024-01-01T00:00:00Z")])).2.2.2.2
      ⟨[1, 2, 3], [("outputid", "bb"), ("time", "2024-01-01T00:00:00Z")]⟩ "bb" [0xBB] 3
      rfl rfl rfl rfl rfl rfl⟩

/-! ## `filepath.Clean` and the key derivation -/

theorem EncodeToString_injective {a b : List Byte} (h : EncodeToString a = EncodeToString b) :
    a = b := by
  have h1 := DecodeString_EncodeToString a
  rw [h, DecodeString_EncodeToString b] at h1
  exact (Except.ok.inj h1).symm

theorem hexDigit_plain (n : Nat) (h : n < 16) : hexDigit n ≠ '/' ∧ hexDigit n ≠ '.' := by
  interval_cases n <;> decide

theorem EncodeToString_plain (a : List Byte) : plain (EncodeToString a).data := by
  induction a with
  | nil => intro c hc; simp [EncodeToString] at hc
  | cons v vs ih =>
    intro c hc
    rw [EncodeToString_cons] at hc
    simp only [List.mem_cons] at hc
    rcases hc with rfl | rfl | hc
    · exact hexDigit_plain _ (by omega)
    · exact hexDigit_plain _ (by omega)
    · exact ih c hc

theorem copyElem_length (l : List Char) (out : lazybuf) :
    (copyElem l out).1.length ≤ l.length := by
  induction l generalizing out with
  | nil => simp [copyElem]
  | cons c rest ih =>
    simp only [copyElem]
    split
    · exact le_rfl
    · exact le_trans (ih _) (by simp)

theorem copyElem_length_lt {c : Char} (hc : c ≠ '/') (rest : List Char) (out : lazybuf) :
    (copyElem (c :: rest) out).1.length ≤ rest.length := by
  simp only [copyElem, hc, if_false]
  exact copyElem_length _ _

theorem copyElem_append (l t : List Char) (out : lazybuf) :
    copyElem (l ++ '/' :: t) out = ((copyElem l out).1 ++ '/' :: t, (copyElem l out).2) := by
  induction l generalizing out with
  | nil => simp [copyElem]
  | cons c rest ih =>
    simp only [List.cons_append, copyElem]
    split
    · rfl
    · exact ih _

theorem copyElem_plain (l : List Char) (hl : plain l) (out : lazybuf) :
    copyElem l out = ([], l.foldl lazybuf.append out) := by
  induction l generalizing out with
  | nil => rfl
  | cons c rest ih =>
    have hc : c ≠ '/' := (hl c (List.mem_cons_self _ _)).1
    simp only [copyElem, hc, if_false, List.foldl_cons]
    exact ih (fun d hd => hl d (List.mem_cons_of_mem _ hd)) _

theorem lazybuf.append_w (b : lazybuf) (c : Char) : (b.append c).w = b.w + 1 := rfl

theorem lazybuf.append_string (b : lazybuf) (c : Char) :
    (b.append c).string.data = b.string.data ++ [c] := by
  simp only [lazybuf.append, lazybuf.string]
  apply List.take_of_length_le
  simp only [List.length_append, List.length_take, List.length_singleton]
  omega

theorem lazybuf.foldl_append_w (l : List Char) (b : lazybuf) :
    (l.foldl lazybuf.append b).w = b.w + l.length := by
  induction l generalizing b with
  | nil => rfl
  | cons c rest ih => simp only [List.foldl_cons, ih, lazybuf.append_w, List.length_cons]; omega

theorem lazybuf.foldl_append_string (l : List Char) (b : lazybuf) :
    (l.foldl lazybuf.append b).string.data = b.string.data ++ l := by
  induction l generalizing b with
  | nil => simp
  | cons c rest ih => simp only [List.foldl_cons, ih, lazybuf.append_string, List.append_assoc,
      List.singleton_append]

/-- The fuel of the loop of `Clean` does not matter once it is the length of
what is left of the path. -/
theorem cleanLoop_fuel (rooted : Bool) : ∀ (f1 f2 : Nat) (p : List Char) (s : CleanState),
    p.length ≤ f1 → p.length ≤ f2 → cleanLoop rooted f1 p s = cleanLoop rooted f2 p s := by
  intro f1
  induction f1 with
  | zero =>
    intro f2 p s h1 _
    have : p = [] := List.length_eq_zero.mp (Nat.le_zero.mp h1)
    subst this
    cases f2 <;> rfl
  | succ f1 ih =>
    intro f2 p s h1 h2
    cases p with
    | nil => cases f2 <;> rfl
    | cons c rest =>
      cases f2 with
      | zero => simp at h2
      | succ f2 =>
        simp only [List.length_cons, Nat.add_le_add_iff_right] at h1 h2
        simp only [cleanLoop]
        split
        · exact ih f2 rest s h1 h2
        · split
          · exact ih f2 rest s h1 h2
          · split
            · exact ih f2 _ _ (le_trans (by simp) h1) (le_trans (by simp) h2)
            · rename_i hc _ _
              exact ih f2 _ _ (le_trans (copyElem_length_lt hc _ _) h1)
                (le_trans (copyElem_length_lt hc _ _) h2)


theorem cleanRun_nil (rooted : Bool) (s : CleanState) : cleanRun rooted [] s = s := rfl

theorem cleanRun_cons (rooted : Bool) (c : Char) (rest : List Char) (s : CleanState) :
    cleanRun rooted (c :: rest) s =
      if c = '/' then cleanRun rooted rest s
      else if c = '.' ∧ (rest = [] ∨ rest.head? = some '/') then cleanRun rooted rest s
      else if c = '.' ∧ rest.head? = some '.' ∧
          (rest.tail = [] ∨ rest.tail.head? = some '/') then
        cleanRun rooted rest.tail (dotdotElem rooted s)
      else
        cleanRun rooted (copyElem (c :: rest) (addSlash rooted s.out)).1
          { s with out := (copyElem (c :: rest) (addSlash rooted s.out)).2 } := by
  simp only [cleanRun, List.length_cons, cleanLoop, addSlash]
  split
  · rfl
  · split
    · rfl
    · split
      · exact cleanLoop_fuel rooted _ _ _ _ (by simp) le_rfl
      · rename_i hc _ _
        exact cleanLoop_fuel rooted _ _ _ _ (copyElem_length_lt hc _ _) le_rfl

/-- The loop of `Clean` reads a path element without looking behind the
separator that ends it. -/
theorem cleanRun_append (rooted : Bool) (t : List Char) : ∀ (n : Nat) (p : List Char)
    (s : CleanState), p.length ≤ n →
    cleanRun rooted (p ++ '/' :: t) s = cleanRun rooted t (cleanRun rooted p s) := by
  intro n
  induction n with
  | zero =>
    intro p s hp
    have : p = [] := List.length_eq_zero.mp (Nat.le_zero.mp hp)
    subst this
    simp [cleanRun_cons, cleanRun_nil]
  | succ n ih =>
    intro p s hp
    cases p with
    | nil => simp [cleanRun_cons, cleanRun_nil]
    | cons c rest =>
      simp only [List.length_cons, Nat.add_le_add_iff_right] at hp
      rw [List.cons_append, cleanRun_cons, cleanRun_cons rooted c rest]
      by_cases h1 : c = '/'
      · simp only [h1, if_true]
        exact ih rest s hp
      · simp only [h1, if_false]
        have e2 : (rest ++ '/' :: t = [] ∨ (rest ++ '/' :: t).head? = some '/') ↔
            (rest = [] ∨ rest.head? = some '/') := by
          cases rest <;> simp
        have e3 : ((rest ++ '/' :: t).head? = some '.' ∧
            ((rest ++ '/' :: t).tail = [] ∨ (rest ++ '/' :: t).tail.head? = some '/')) ↔
            (rest.head? = some '.' ∧ (rest.tail = [] ∨ rest.tail.head? = some '/')) := by
          cases rest with
          | nil => simp
          | cons d r => cases r <;> simp
        simp only [e2, e3]
        by_cases h2 : c = '.' ∧ (rest = [] ∨ rest.head? = some '/')
        · simp only [h2, and_self, if_true]
          exact ih rest s hp
        · simp only [h2, if_false]
          by_cases h3 : c = '.' ∧ rest.head? = some '.' ∧
              (rest.tail = [] ∨ rest.tail.head? = some '/')
          · simp only [h3, and_self, if_true]
            cases rest with
            | nil => simp at h3
            | cons d r =>
              simp only [List.cons_append, List.tail_cons]
              exact ih r _ (le_trans (by simp) hp)
          · simp only [h3, if_false]
            rw [← List.cons_append, copyElem_append]
            exact ih _ _ (le_trans (copyElem_length_lt h1 _ _) hp)

/-- The loop of `Clean` on a last path element of hex digits. -/
theorem cleanRun_plain (rooted : Bool) (l : List Char) (hl : plain l) (hne : l ≠ [])
    (s : CleanState) :
    cleanRun rooted l s = { s with out := l.foldl lazybuf.append (addSlash rooted s.out) } := by
  cases l with
  | nil => exact absurd rfl hne
  | cons c rest =>
    have hc := hl c (List.mem_cons_self _ _)
    rw [cleanRun_cons]
    simp only [hc.1, hc.2, false_and, if_false]
    rw [copyElem_plain _ hl]
    rfl


theorem cleanLast_data_of_ne_nil (rooted : Bool) (s : CleanState) (l : List Char) (hl : l ≠ []) :
    (cleanLast rooted s l).data = (addSlash rooted s.out).string.data ++ l := by
  have hw : (l.foldl lazybuf.append (addSlash rooted s.out)).w ≠ 0 := by
    rw [lazybuf.foldl_append_w]
    have : 0 < l.length := List.length_pos.mpr hl
    omega
  simp only [cleanLast, hl, if_false, cleanResult, hw]
  exact lazybuf.foldl_append_string _ _

theorem cleanLast_nil_ne (rooted : Bool) (s : CleanState) (l : List Char) (hp : plain l)
    (hl : l ≠ []) : cleanLast rooted s [] ≠ cleanLast rooted s l := by
  intro h
  have h := congrArg String.data h
  rw [cleanLast_data_of_ne_nil rooted s l hl] at h
  obtain ⟨c, rest, rfl⟩ := List.exists_cons_of_ne_nil hl
  have hc := hp c (List.mem_cons_self _ _)
  simp only [cleanLast, if_true, cleanResult] at h
  by_cases hw : s.out.w = 0
  · have hs : s.out.string.data = [] := by simp [lazybuf.string, hw]
    simp only [hw, if_true] at h
    unfold addSlash at h
    split at h
    · rw [lazybuf.append_string, hs] at h
      simp at h
    · rw [hs] at h
      simp at h
      exact hc.2 h.1.symm
  · simp only [hw, if_false] at h
    have hlen := congrArg List.length h
    unfold addSlash at hlen
    split at hlen
    · rw [lazybuf.append_string] at hlen
      simp at hlen
    · simp at hlen

theorem cleanLast_injective (rooted : Bool) (s : CleanState) (l1 l2 : List Char)
    (h1 : plain l1) (h2 : plain l2) (h : cleanLast rooted s l1 = cleanLast rooted s l2) :
    l1 = l2 := by
  by_cases e1 : l1 = []
  · by_cases e2 : l2 = []
    · rw [e1, e2]
    · subst e1
      exact absurd h (cleanLast_nil_ne rooted s l2 h2 e2)
  · by_cases e2 : l2 = []
    · subst e2
      exact absurd h.symm (cleanLast_nil_ne rooted s l1 h1 e1)
    · have h := congrArg String.data h
      rw [cleanLast_data_of_ne_nil rooted s l1 e1, cleanLast_data_of_ne_nil rooted s l2 e2] at h
      exact List.append_cancel_left h

/-- What `Clean` does with the staging directory joined to a name of hex
digits: the directory decides the state of the loop, the name comes last. -/
theorem Clean_join (d : String) (hd : d ≠ "") :
    ∃ (rooted : Bool) (s : CleanState), ∀ h : String, plain h.data →
      Clean (d ++ "/" ++ h) = cleanLast rooted s h.data := by
  have hdd : d.data ≠ [] := by
    intro h0
    apply hd
    cases d
    simp only at h0
    subst h0
    rfl
  obtain ⟨c, rest, hcr⟩ := List.exists_cons_of_ne_nil hdd
  have hdata : ∀ h : String, (d ++ "/" ++ h).data = c :: (rest ++ '/' :: h.data) := by
    intro h
    simp [String.data_append, hcr]
  have hne : ∀ h : String, d ++ "/" ++ h ≠ "" := by
    intro h h0
    have := congrArg String.data h0
    rw [hdata] at this
    simp at this
  have hlast : ∀ (r : Bool) (s : CleanState) (l : List Char), plain l →
      cleanResult (cleanRun r l s) = cleanLast r s l := by
    intro r s l hl
    unfold cleanLast
    by_cases e : l = []
    · subst e; rfl
    · rw [cleanRun_plain r l hl e]
      simp only [e, if_false]
  by_cases hc : c = '/'
  · refine ⟨true, cleanRun true rest ⟨(lazybuf.mk [] 0).append '/', 1⟩, ?_⟩
    intro h hp
    rw [← hlast _ _ _ hp, ← cleanRun_append true h.data rest.length rest _ le_rfl]
    simp only [Clean, hne h, if_false, hdata, hc, List.head?_cons, decide_True, if_true,
      List.tail_cons, List.length_cons]
    rw [cleanLoop_fuel true _ (rest ++ '/' :: h.data).length _ _ (by simp) le_rfl]
    rfl
  · refine ⟨false, cleanRun false (c :: rest) ⟨lazybuf.mk [] 0, 0⟩, ?_⟩
    intro h hp
    rw [← hlast _ _ _ hp,
      ← cleanRun_append false h.data (c :: rest).length (c :: rest) _ le_rfl]
    have hcc : ¬ (some c = some '/') := by simpa using hc
    simp only [Clean, hne h, if_false, hdata, List.head?_cons, hcc, decide_False,
      Bool.false_eq_true]
    rfl

theorem Clean_plain (h : String) (hp : plain h.data) (hne : h ≠ "") : Clean h = h := by
  have hdd : h.data ≠ [] := by
    intro h0
    apply hne
    cases h
    simp only at h0
    subst h0
    rfl
  obtain ⟨c, rest, hcr⟩ := List.exists_cons_of_ne_nil hdd
  have hc := hp c (by rw [hcr]; exact List.mem_cons_self _ _)
  have hcc : ¬ (some c = some '/') := by simpa using hc.1
  have hrun := cleanRun_plain false h.data hp hdd ⟨lazybuf.mk [] 0, 0⟩
  simp only [Clean, hne, if_false, hcr, List.head?_cons, hcc, decide_False, Bool.false_eq_true]
  rw [hcr] at hrun
  unfold cleanRun at hrun
  rw [hrun]
  have hw : ((c :: rest).foldl lazybuf.append (addSlash false (lazybuf.mk [] 0))).w ≠ 0 := by
    rw [lazybuf.foldl_append_w]; simp
  simp only [hw, if_false]
  apply String.ext
  rw [lazybuf.foldl_append_string, hcr]
  simp [addSlash, lazybuf.string]

theorem diskPath_injective (c : cache) (a b : List Byte)
    (h : c.diskPath a = c.diskPath b) : a = b := by
  apply EncodeToString_injective
  have pa := EncodeToString_plain a
  have pb := EncodeToString_plain b
  by_cases hd : c.tmpDir = ""
  · have key : ∀ x : List Byte, c.diskPath x = EncodeToString x := by
      intro x
      by_cases hx : EncodeToString x = ""
      · simp [cache.diskPath, Join, hd, hx]
      · simp [cache.diskPath, Join, hd, hx, stringsJoin, String.intercalate,
          String.intercalate.go, Clean_plain _ (EncodeToString_plain x) hx]
    rw [key, key] at h
    exact h
  · obtain ⟨r, s, hrs⟩ := Clean_join c.tmpDir hd
    have key : ∀ x : List Byte, c.diskPath x = cleanLast r s (EncodeToString x).data := by
      intro x
      rw [← hrs _ (EncodeToString_plain x)]
      simp [cache.diskPath, Join, hd, stringsJoin, String.intercalate, String.intercalate.go]
    rw [key, key] at h
    exact String.ext (cleanLast_injective r s _ _ pa pb h)

theorem s3Key_injective (c : cache) (a b : List Byte) (h : c.s3Key a = c.s3Key b) : a = b := by
  apply EncodeToString_injective
  unfold cache.s3Key at h
  by_cases hp : c.keyPrefix = ""
  · simpa [hp] using h
  · simp only [ne_eq, hp, not_false_eq_true, if_true] at h
    have h := congrArg String.data h
    simp only [String.data_append, List.append_assoc] at h
    exact String.ext (List.append_cancel_left (List.append_cancel_left h))

/-- C10: under a fixed configuration two different ActionIDs never share a
remote key nor a staging path, where the remote key is the lowercase hex of
the ActionID, behind the configured `prefix` and "/" exactly when that is not
empty, and the staging path is `filepath.Join` of the staging directory and the
lowercase hex of the ActionID. -/
theorem C10_key_derivation_injective (c : cache) (a b : List Byte) (hab : a ≠ b) :
    c.s3Key a ≠ c.s3Key b ∧ c.diskPath a ≠ c.diskPath b ∧
    c.s3Key a = (if c.keyPrefix = "" then EncodeToString a
      else c.keyPrefix ++ "/" ++ EncodeToString a) ∧
    c.diskPath a = Join [c.tmpDir, EncodeToString a] := by
  refine ⟨fun h => hab (s3Key_injective c a b h), fun h => hab (diskPath_injective c a b h), ?_, rfl⟩
  unfold cache.s3Key
  by_cases hp : c.keyPrefix = "" <;> simp [hp]

/-- C10 at the keys `aa` and `ab` of the sample configuration. -/
theorem C10_key_derivation_injective_witness :
    ([0xAA] : List Byte) ≠ [0xAB] ∧
    sampleCache.s3Key [0xAA] ≠ sampleCache.s3Key [0xAB] ∧
    sampleCache.diskPath [0xAA] ≠ sampleCache.diskPath [0xAB] :=
  ⟨by decide,
   (C10_key_derivation_injective sampleCache [0xAA] [0xAB] (by decide)).1,
   (C10_key_derivation_injective sampleCache [0xAA] [0xAB] (by decide)).2.1⟩


/-! ## The dispatcher: its steps -/

theorem encodes_handshake (L : TimeLib) : encodes L handshake = true := rfl

theorem encodes_ack (L : TimeLib) (ID : Int) : encodes L { ID := ID } = true := rfl

theorem Trans_of_step {σ : Type} (h : Handler σ) (L : TimeLib) (c : cache) (s t : State σ)
    (tid : Nat) (hst : step h L c s tid = some t) : Trans h L c s t := by
  unfold step at hst
  split at hst
  · cases hst
  · rename_i hex
    have hex : s.exit = none := by
      cases he : s.exit with
      | none => rfl
      | some v => simp [he] at hex
    cases tid with
    | zero =>
      simp only [mainStep] at hst
      split at hst
      · rename_i p hm
        cases p <;> simp only [sendStep, encodes_handshake, ↓reduceIte] at hst
        · split at hst
          · cases hst
          · rename_i hmu
            simp only [Option.map_some', Option.some.injEq] at hst
            subst hst
            exact Trans.hsLock s hex hm (by simpa using hmu)
        · simp only [Option.map_some', Option.some.injEq] at hst
          subst hst
          exact Trans.hsEncode s hex hm
        · simp only [Option.map_some', Option.some.injEq] at hst
          subst hst
          exact Trans.hsUnlock s hex hm
      · rename_i hm
        simp only [Option.some.injEq] at hst
        subst hst
        exact Trans.read s hex hm
      · rename_i ID hm
        split at hst
        · rename_i hwg
          simp only [Option.some.injEq] at hst
          subst hst
          exact Trans.closeWait s ID hex hm hwg
        · cases hst
      · rename_i ID p hm
        cases p <;> simp only [sendStep, encodes_ack, ↓reduceIte] at hst
        · split at hst
          · cases hst
          · rename_i hmu
            simp only [Option.map_some', Option.some.injEq] at hst
            subst hst
            exact Trans.ackLock s ID hex hm (by simpa using hmu)
        · simp only [Option.map_some', Option.some.injEq] at hst
          subst hst
          exact Trans.ackEncode s ID hex hm
        · simp only [Option.map_some', Option.some.injEq] at hst
          subst hst
          exact Trans.ackUnlock s ID hex hm
      · rename_i hm
        split at hst
        · rename_i hwg
          simp only [Option.some.injEq] at hst
          subst hst
          exact Trans.eofWait s hex hm hwg
        · cases hst
      · rename_i hm
        simp only [Option.some.injEq] at hst
        subst hst
        exact Trans.deferred s hex hm
    | succ i =>
      simp only [taskStep] at hst
      split at hst
      · cases hst
      · rename_i cl k ht
        simp only [Option.some.injEq] at hst
        subst hst
        exact Trans.opCall s i cl k hex ht
      · rename_i r ht
        simp only [Option.some.injEq] at hst
        subst hst
        exact Trans.opRet s i r hex ht
      · rename_i r p ht
        cases p <;> simp only [sendStep] at hst
        · split at hst
          · cases hst
          · rename_i hmu
            simp only [Option.map_some', Option.some.injEq] at hst
            subst hst
            exact Trans.sendLock s i r hex ht (by simpa using hmu)
        · by_cases hen : encodes L r = true
          · simp only [hen, ↓reduceIte, Option.map_some', Option.some.injEq] at hst
            subst hst
            exact Trans.sendEncode s i r hex ht hen
          · have hen : encodes L r = false := by simpa using hen
            simp only [hen, Bool.false_eq_true, ↓reduceIte, Option.map_some',
              Option.some.injEq] at hst
            subst hst
            exact Trans.sendDrop s i r hex ht hen
        · simp only [Option.map_some', Option.some.injEq] at hst
          subst hst
          exact Trans.sendUnlock s i r hex ht
      · rename_i ht
        split at hst
        · rename_i hwg
          simp only [Option.some.injEq] at hst
          subst hst
          exact Trans.donePanic s i hex ht hwg
        · rename_i hwg
          simp only [Option.some.injEq] at hst
          subst hst
          exact Trans.done s i hex ht hwg
      · cases hst

theorem step_of_Trans {σ : Type} (h : Handler σ) (L : TimeLib) (c : cache) (s t : State σ)
    (ht : Trans h L c s t) : Step h L c s t := by
  cases ht with
  | hsLock he hm hmu => exact ⟨0, by simp [step, he, mainStep, hm, sendStep, hmu]⟩
  | hsEncode he hm => exact ⟨0, by simp [step, he, mainStep, hm, sendStep, encodes_handshake]⟩
  | hsUnlock he hm => exact ⟨0, by simp [step, he, mainStep, hm, sendStep]⟩
  | read he hm => exact ⟨0, by simp [step, he, mainStep, hm]⟩
  | closeWait ID he hm hw => exact ⟨0, by simp [step, he, mainStep, hm, hw]⟩
  | ackLock ID he hm hmu => exact ⟨0, by simp [step, he, mainStep, hm, sendStep, hmu]⟩
  | ackEncode ID he hm => exact ⟨0, by simp [step, he, mainStep, hm, sendStep, encodes_ack]⟩
  | ackUnlock ID he hm => exact ⟨0, by simp [step, he, mainStep, hm, sendStep]⟩
  | eofWait he hm hw => exact ⟨0, by simp [step, he, mainStep, hm, hw]⟩
  | deferred he hm => exact ⟨0, by simp [step, he, mainStep, hm]⟩
  | opCall i cl k he ht => exact ⟨i + 1, by simp only [step, he, Option.isSome_none, Bool.false_eq_true, if_false, taskStep, ht, Option.map_some']⟩
  | opRet i r he ht => exact ⟨i + 1, by simp only [step, he, Option.isSome_none, Bool.false_eq_true, if_false, taskStep, ht, Option.map_some']⟩
  | sendLock i r he ht hmu => exact ⟨i + 1, by simp only [step, he, Option.isSome_none, Bool.false_eq_true, if_false, taskStep, ht, Option.map_some', sendStep, hmu]⟩
  | sendEncode i r he ht hen => exact ⟨i + 1, by simp only [step, he, Option.isSome_none, Bool.false_eq_true, if_false, taskStep, ht, Option.map_some', sendStep, hen, ↓reduceIte]⟩
  | sendDrop i r he ht hen => exact ⟨i + 1, by simp only [step, he, Option.isSome_none, Bool.false_eq_true, if_false, taskStep, ht, Option.map_some', sendStep, hen, ↓reduceIte]⟩
  | sendUnlock i r he ht => exact ⟨i + 1, by simp only [step, he, Option.isSome_none, Bool.false_eq_true, if_false, taskStep, ht, Option.map_some', sendStep]⟩
  | donePanic i he ht hw => exact ⟨i + 1, by simp only [step, he, Option.isSome_none, Bool.false_eq_true, if_false, taskStep, ht, Option.map_some', hw]; simp⟩
  | done i he ht hw => exact ⟨i + 1, by simp only [step, he, Option.isSome_none, Bool.false_eq_true, if_false, taskStep, ht, Option.map_some', hw]⟩

theorem Step_iff_Trans {σ : Type} (h : Handler σ) (L : TimeLib) (c : cache) (s t : State σ) :
    Step h L c s t ↔ Trans h L c s t :=
  ⟨fun ⟨tid, hst⟩ => Trans_of_step h L c s t tid hst, step_of_Trans h L c s t⟩

theorem ReadTurn_readStep {σ : Type} (L : TimeLib) (c : cache) (s : State σ) :
    ReadTurn L c s (readStep L c s) := by
  cases hin : s.stdin with
  | nil =>
    cases hb : s.broken with
    | true =>
      have e : readStep L c s = fatal s := by simp [readStep, hin, hb]
      rw [e]; exact ReadTurn.readErr s hin hb
    | false =>
      have e : readStep L c s = { s with main := .eofWait } := by simp [readStep, hin, hb]
      rw [e]; exact ReadTurn.eof s hin hb
  | cons line rest =>
    cases hr : line.asRequest with
    | none =>
      have e : readStep L c s = fatal { s with stdin := rest } := by simp [readStep, hin, hr]
      rw [e]; exact ReadTurn.badRequest s line rest hin hr
    | some r =>
      by_cases hsz : 0 < r.BodySize
      · cases rest with
        | nil =>
          have e : readStep L c s = fatal { s with stdin := [] } := by
            simp [readStep, hin, hr, hsz]
          rw [e]; exact ReadTurn.noBody s line r hin hr hsz
        | cons b rest =>
          cases hb : b.asBody with
          | none =>
            have e : readStep L c s = fatal { s with stdin := rest } := by
              simp [readStep, hin, hr, hsz, hb]
            rw [e]; exact ReadTurn.badBody s line b rest r hin hr hsz hb
          | some bs =>
            have e : readStep L c s =
                dispatch L c { r with body := bs } { s with stdin := rest } := by
              simp [readStep, hin, hr, hsz, hb]
            rw [e]; exact ReadTurn.withBody s line b rest r bs hin hr hsz hb
      · have e : readStep L c s =
            dispatch L c { r with body := [] } { s with stdin := rest } := by
          simp [readStep, hin, hr, hsz]
        rw [e]; exact ReadTurn.bare s line rest r hin hr (by omega)


/-! ## The dispatcher: mutex and wait group -/

theorem countP_set {α : Type} (p : α → Bool) (l : List α) (i : Nat) (a b : α)
    (h : l.get? i = some a) :
    (l.set i b).countP p + (if p a then 1 else 0) = l.countP p + (if p b then 1 else 0) := by
  induction l generalizing i with
  | nil => simp at h
  | cons x xs ih =>
    cases i with
    | zero =>
      simp only [List.get?_cons_zero, Option.some.injEq] at h
      subst h
      simp only [List.set_cons_zero, List.countP_cons]
      omega
    | succ i =>
      simp only [List.get?_cons_succ] at h
      have := ih i h
      simp only [List.set_cons_succ, List.countP_cons]
      omega

theorem Sound_init {σ : Type} (stdin : List Line) (broken : Bool) (env : σ) :
    (State.init stdin broken env).Sound := by
  simp [State.Sound, State.holders, State.init, MainPC.holding]

theorem Sound_dispatch {σ : Type} (L : TimeLib) (c : cache) (req : request) (s : State σ)
    (hm : s.main = .read) (hs : s.Sound) : (dispatch L c req s).Sound := by
  obtain ⟨h1, h2⟩ := hs
  unfold State.holders at h1
  unfold dispatch
  split
  · simp [State.Sound, State.holders, hm, MainPC.holding, TaskPC.holding, TaskPC.live] at h1 h2 ⊢
    exact ⟨h1, h2⟩
  · split
    · simp [State.Sound, State.holders, hm, MainPC.holding, TaskPC.holding, TaskPC.live] at h1 h2 ⊢
      exact ⟨h1, h2⟩
    · split
      · simp [State.Sound, State.holders, hm, MainPC.holding] at h1 h2 ⊢
        exact ⟨h1, h2⟩
      · exact ⟨h1, h2⟩

theorem Sound_readStep {σ : Type} (L : TimeLib) (c : cache) (s : State σ)
    (hm : s.main = .read) (hs : s.Sound) : (readStep L c s).Sound := by
  have hin : ∀ x : List Line, State.Sound { s with stdin := x } := fun _ => hs
  have hr := ReadTurn_readStep L c s
  generalize readStep L c s = t at hr
  cases hr with
  | eof _ _ =>
    obtain ⟨h1, h2⟩ := hs
    simp [State.Sound, State.holders, hm, MainPC.holding] at h1 h2 ⊢
    exact ⟨h1, h2⟩
  | readErr _ _ => exact hs
  | badRequest line rest _ _ => exact hs
  | noBody line r _ _ _ => exact hs
  | badBody line b rest r _ _ _ _ => exact hs
  | withBody line b rest r bs _ _ _ _ => exact Sound_dispatch L c _ _ hm (hin rest)
  | bare line rest r _ _ _ => exact Sound_dispatch L c _ _ hm (hin rest)

theorem Sound_step {σ : Type} (h : Handler σ) (L : TimeLib) (c : cache) (s t : State σ)
    (hst : Step h L c s t) (hs : s.Sound) : t.Sound := by
  have ht := (Step_iff_Trans h L c s t).mp hst
  cases ht with
  | read he hm => exact Sound_readStep L c s hm hs
  | hsLock he hm hmu =>
    obtain ⟨h1, h2⟩ := hs
    simp [State.Sound, State.holders, hm, hmu, MainPC.holding] at h1 h2 ⊢
    exact ⟨h1, h2⟩
  | hsEncode he hm =>
    obtain ⟨h1, h2⟩ := hs
    simp [State.Sound, State.holders, hm, MainPC.holding] at h1 h2 ⊢
    exact ⟨h1, h2⟩
  | hsUnlock he hm =>
    obtain ⟨h1, h2⟩ := hs
    simp only [State.holders, hm, MainPC.holding, if_true] at h1
    have h0 : s.tasks.countP TaskPC.holding = 0 := by split at h1 <;> omega
    refine ⟨?_, h2⟩
    simp [State.holders, MainPC.holding, h0]
  | closeWait ID he hm hw =>
    obtain ⟨h1, h2⟩ := hs
    simp [State.Sound, State.holders, hm, MainPC.holding] at h1 h2 ⊢
    exact ⟨h1, h2⟩
  | ackLock ID he hm hmu =>
    obtain ⟨h1, h2⟩ := hs
    simp [State.Sound, State.holders, hm, hmu, MainPC.holding] at h1 h2 ⊢
    exact ⟨h1, h2⟩
  | ackEncode ID he hm =>
    obtain ⟨h1, h2⟩ := hs
    simp [State.Sound, State.holders, hm, MainPC.holding] at h1 h2 ⊢
    exact ⟨h1, h2⟩
  | ackUnlock ID he hm =>
    obtain ⟨h1, h2⟩ := hs
    simp only [State.holders, hm, MainPC.holding, if_true] at h1
    have h0 : s.tasks.countP TaskPC.holding = 0 := by split at h1 <;> omega
    refine ⟨?_, h2⟩
    simp [State.holders, MainPC.holding, h0]
  | eofWait he hm hw =>
    obtain ⟨h1, h2⟩ := hs
    simp [State.Sound, State.holders, hm, MainPC.holding] at h1 h2 ⊢
    exact ⟨h1, h2⟩
  | deferred he hm => exact hs
  | opCall i cl k he ht =>
    obtain ⟨h1, h2⟩ := hs
    have e1 := countP_set TaskPC.holding s.tasks i _ (.op (k (h s.env cl).1)) ht
    have e2 := countP_set TaskPC.live s.tasks i _ (.op (k (h s.env cl).1)) ht
    simp [TaskPC.holding, TaskPC.live] at e1 e2
    simp only [State.Sound, State.holders] at h1 h2 ⊢
    rw [e1, e2]
    exact ⟨h1, h2⟩
  | opRet i r he ht =>
    obtain ⟨h1, h2⟩ := hs
    have e1 := countP_set TaskPC.holding s.tasks i _ (.send r .lock) ht
    have e2 := countP_set TaskPC.live s.tasks i _ (.send r .lock) ht
    simp [TaskPC.holding, TaskPC.live] at e1 e2
    simp only [State.Sound, State.holders] at h1 h2 ⊢
    rw [e1, e2]
    exact ⟨h1, h2⟩
  | sendLock i r he ht hmu =>
    obtain ⟨h1, h2⟩ := hs
    have e1 := countP_set TaskPC.holding s.tasks i _ (.send r .encode) ht
    have e2 := countP_set TaskPC.live s.tasks i _ (.send r .encode) ht
    simp [TaskPC.holding, TaskPC.live] at e1 e2
    simp only [State.holders, hmu, Bool.false_eq_true, if_false] at h1
    simp only [State.Sound, State.holders, if_true]
    rw [e1, e2]
    exact ⟨by omega, h2⟩
  | sendEncode i r he ht hen =>
    obtain ⟨h1, h2⟩ := hs
    have e1 := countP_set TaskPC.holding s.tasks i _ (.send r .unlock) ht
    have e2 := countP_set TaskPC.live s.tasks i _ (.send r .unlock) ht
    simp [TaskPC.holding, TaskPC.live] at e1 e2
    simp only [State.Sound, State.holders] at h1 h2 ⊢
    rw [e1, e2]
    exact ⟨h1, h2⟩
  | sendDrop i r he ht hen =>
    obtain ⟨h1, h2⟩ := hs
    have e1 := countP_set TaskPC.holding s.tasks i _ (.send r .unlock) ht
    have e2 := countP_set TaskPC.live s.tasks i _ (.send r .unlock) ht
    simp [TaskPC.holding, TaskPC.live] at e1 e2
    simp only [State.Sound, State.holders] at h1 h2 ⊢
    rw [e1, e2]
    exact ⟨h1, h2⟩
  | sendUnlock i r he ht =>
    obtain ⟨h1, h2⟩ := hs
    have e1 := countP_set TaskPC.holding s.tasks i _ .done ht
    have e2 := countP_set TaskPC.live s.tasks i _ .done ht
    simp [TaskPC.holding, TaskPC.live] at e1 e2
    simp only [State.holders] at h1
    simp only [State.Sound, State.holders, Bool.false_eq_true, if_false]
    rw [e2]
    refine ⟨?_, h2⟩
    cases hmu : s.mu <;> simp only [hmu, Bool.false_eq_true, if_true, if_false] at h1 <;> omega
  | donePanic i he ht hw => exact hs
  | done i he ht hw =>
    obtain ⟨h1, h2⟩ := hs
    have e1 := countP_set TaskPC.holding s.tasks i _ .finished ht
    have e2 := countP_set TaskPC.live s.tasks i _ .finished ht
    simp [TaskPC.holding, TaskPC.live] at e1 e2
    simp only [State.Sound, State.holders] at h1 h2 ⊢
    rw [e1]
    refine ⟨h1, ?_⟩
    omega


/-- A process that has not ended is never stuck: the goroutine that holds the
mutex can move, and when the mutex is free every goroutine that has not ended
can move, and so can `main` once they all have. -/
theorem progress {σ : Type} (h : Handler σ) (L : TimeLib) (c : cache) (s : State σ)
    (hs : s.Sound) (he : s.exit = none) : ∃ t, Step h L c s t := by
  obtain ⟨h1, h2⟩ := hs
  unfold State.holders at h1
  have mk : ∀ t, Trans h L c s t → ∃ t, Step h L c s t :=
    fun t ht => ⟨t, step_of_Trans h L c s t ht⟩
  cases hmu : s.mu with
  | true =>
    simp only [hmu, if_true] at h1
    cases hmh : s.main.holding with
    | true =>
      cases hm : s.main with
      | handshake p =>
        cases p with
        | lock => simp [hm, MainPC.holding] at hmh
        | encode => exact mk _ (Trans.hsEncode s he hm)
        | unlock => exact mk _ (Trans.hsUnlock s he hm)
      | closeAck ID p =>
        cases p with
        | lock => simp [hm, MainPC.holding] at hmh
        | encode => exact mk _ (Trans.ackEncode s ID he hm)
        | unlock => exact mk _ (Trans.ackUnlock s ID he hm)
      | read => simp [hm, MainPC.holding] at hmh
      | closeWait ID => simp [hm, MainPC.holding] at hmh
      | eofWait => simp [hm, MainPC.holding] at hmh
      | deferred => simp [hm, MainPC.holding] at hmh
    | false =>
      simp only [hmh, Bool.false_eq_true, if_false, Nat.zero_add] at h1
      have hpos : 0 < s.tasks.countP TaskPC.holding := by omega
      obtain ⟨a, ha, hah⟩ := List.countP_pos_iff.mp hpos
      obtain ⟨i, hi⟩ := List.mem_iff_get?.mp ha
      cases a with
      | send r p =>
        cases p with
        | lock => simp [TaskPC.holding] at hah
        | encode =>
          cases hen : encodes L r with
          | true => exact mk _ (Trans.sendEncode s i r he hi hen)
          | false => exact mk _ (Trans.sendDrop s i r he hi hen)
        | unlock => exact mk _ (Trans.sendUnlock s i r he hi)
      | op p => simp [TaskPC.holding] at hah
      | done => simp [TaskPC.holding] at hah
      | finished => simp [TaskPC.holding] at hah
  | false =>
    simp only [hmu, Bool.false_eq_true, if_false] at h1
    have hnh : s.tasks.countP TaskPC.holding = 0 := by omega
    have hmh : s.main.holding = false := by
      cases hx : s.main.holding with
      | false => rfl
      | true => simp [hx] at h1
    by_cases hl : s.tasks.countP TaskPC.live = 0
    · have hwg : s.wg = 0 := by omega
      cases hm : s.main with
      | handshake p =>
        cases p with
        | lock => exact mk _ (Trans.hsLock s he hm hmu)
        | encode => simp [hm, MainPC.holding] at hmh
        | unlock => simp [hm, MainPC.holding] at hmh
      | closeAck ID p =>
        cases p with
        | lock => exact mk _ (Trans.ackLock s ID he hm hmu)
        | encode => simp [hm, MainPC.holding] at hmh
        | unlock => simp [hm, MainPC.holding] at hmh
      | read => exact mk _ (Trans.read s he hm)
      | closeWait ID => exact mk _ (Trans.closeWait s ID he hm hwg)
      | eofWait => exact mk _ (Trans.eofWait s he hm hwg)
      | deferred => exact mk _ (Trans.deferred s he hm)
    · have hpos : 0 < s.tasks.countP TaskPC.live := by omega
      obtain ⟨a, ha, hal⟩ := List.countP_pos_iff.mp hpos
      obtain ⟨i, hi⟩ := List.mem_iff_get?.mp ha
      have hna := List.countP_eq_zero.mp hnh a ha
      cases a with
      | op p =>
        cases p with
        | ret r => exact mk _ (Trans.opRet s i r he hi)
        | call cl k => exact mk _ (Trans.opCall s i cl k he hi)
      | send r p =>
        cases p with
        | lock => exact mk _ (Trans.sendLock s i r he hi hmu)
        | encode => simp [TaskPC.holding] at hna
        | unlock => simp [TaskPC.holding] at hna
      | done =>
        by_cases hwg : s.wg = 0
        · exact mk _ (Trans.donePanic s i he hi hwg)
        · exact mk _ (Trans.done s i he hi hwg)
      | finished => simp [TaskPC.live] at hal


/-! ## The dispatcher: every run ends -/

theorem get_bounded (L : TimeLib) (c : cache) (req : request) : (c.get L req).Bounded 5 := by
  simp only [cache.get, closeBody, Prog.Bounded]
  intro r
  repeat' (first | split | (intro _) | (simp only [Prog.Bounded]))

theorem put_bounded (L : TimeLib) (c : cache) (req : request) : (c.put L req).Bounded 5 := by
  simp only [cache.put, Prog.Bounded]
  intro r
  repeat' (first | split | (intro _) | (simp only [Prog.Bounded]))

theorem budget_pos (len : Nat) (m : MainPC) : 1 ≤ m.budget len := by
  cases m with
  | handshake p => cases p <;> simp [MainPC.budget]
  | closeAck ID p => cases p <;> simp [MainPC.budget]
  | read => simp [MainPC.budget]
  | closeWait ID => simp [MainPC.budget]
  | eofWait => simp [MainPC.budget]
  | deferred => simp [MainPC.budget]

theorem forall₂_set {α : Type} (R : α → Nat → Prop) (l : List α) (ns : List Nat)
    (hf : List.Forall₂ R l ns) (i : Nat) (a : α) (hi : l.get? i = some a) :
    ∃ n, R a n ∧ ∀ (b : α) (m : Nat), R b m →
      List.Forall₂ R (l.set i b) (ns.set i m) ∧ (ns.set i m).sum + n = ns.sum + m := by
  induction hf generalizing i with
  | nil => simp at hi
  | @cons x n xs ns hx hxs ih =>
    cases i with
    | zero =>
      simp only [List.get?_cons_zero, Option.some.injEq] at hi
      subst hi
      refine ⟨n, hx, ?_⟩
      intro b m hb
      simp only [List.set_cons_zero, List.sum_cons]
      exact ⟨List.Forall₂.cons hb hxs, by omega⟩
    | succ i =>
      simp only [List.get?_cons_succ] at hi
      obtain ⟨n', hn', hall⟩ := ih i hi
      refine ⟨n', hn', ?_⟩
      intro b m hb
      obtain ⟨h1, h2⟩ := hall b m hb
      simp only [List.set_cons_succ, List.sum_cons]
      exact ⟨List.Forall₂.cons hx h1, by omega⟩

theorem forall₂_snoc {α β : Type} (R : α → β → Prop) (l : List α) (ns : List β)
    (hf : List.Forall₂ R l ns) (a : α) (n : β) (ha : R a n) :
    List.Forall₂ R (l ++ [a]) (ns ++ [n]) := by
  induction hf with
  | nil => exact List.Forall₂.cons ha List.Forall₂.nil
  | cons hx _ ih => exact List.Forall₂.cons hx ih

theorem Within_dispatch {σ : Type} (L : TimeLib) (c : cache) (req : request) (s : State σ)
    (n : Nat) (he : s.exit = none) (hm : s.main = .read)
    (hw : ∃ ns : List Nat, List.Forall₂ TaskPC.Within s.tasks ns ∧
      (s.stdin.length * 12 + 17) + ns.sum ≤ n + 1) :
    (dispatch L c req s).Within n := by
  obtain ⟨ns, hf, hle⟩ := hw
  unfold dispatch
  split
  · refine ⟨ns ++ [10], forall₂_snoc _ _ _ hf _ _ ⟨5, get_bounded L c req, le_rfl⟩, ?_⟩
    simp [he, hm, MainPC.budget]
    omega
  · split
    · refine ⟨ns ++ [10], forall₂_snoc _ _ _ hf _ _ ⟨5, put_bounded L c req, le_rfl⟩, ?_⟩
      simp [he, hm, MainPC.budget]
      omega
    · split
      · refine ⟨ns, hf, ?_⟩
        simp [he, MainPC.budget]
        omega
      · refine ⟨ns, hf, ?_⟩
        simp [he, hm, MainPC.budget]
        omega

theorem Within_readStep {σ : Type} (L : TimeLib) (c : cache) (s : State σ) (n : Nat)
    (he : s.exit = none) (hm : s.main = .read) (hw : s.Within (n + 1)) :
    (readStep L c s).Within n := by
  obtain ⟨ns, hf, hle⟩ := hw
  simp only [he, Option.isSome_none, Bool.false_eq_true, if_false, hm, MainPC.budget] at hle
  have hr := ReadTurn_readStep L c s
  generalize readStep L c s = t at hr
  cases hr with
  | eof hin _ =>
    refine ⟨ns, hf, ?_⟩
    simp [he, MainPC.budget]
    omega
  | readErr _ _ => exact ⟨ns, hf, by simp [fatal]; omega⟩
  | badRequest line rest _ _ => exact ⟨ns, hf, by simp [fatal]; omega⟩
  | noBody line r _ _ _ => exact ⟨ns, hf, by simp [fatal]; omega⟩
  | badBody line b rest r _ _ _ _ => exact ⟨ns, hf, by simp [fatal]; omega⟩
  | withBody line b rest r bs hin _ _ _ =>
    refine Within_dispatch L c _ { s with stdin := rest } n he hm ⟨ns, hf, ?_⟩
    rw [hin] at hle
    simp only [List.length_cons] at hle ⊢
    omega
  | bare line rest r hin _ _ =>
    refine Within_dispatch L c _ { s with stdin := rest } n he hm ⟨ns, hf, ?_⟩
    rw [hin] at hle
    simp only [List.length_cons] at hle ⊢
    omega


/-- Every step uses up one step of the budget. -/
theorem Within_step {σ : Type} (h : Handler σ) (L : TimeLib) (c : cache) (s t : State σ)
    (n : Nat) (hst : Step h L c s t) (hw : s.Within (n + 1)) : t.Within n := by
  have ht := (Step_iff_Trans h L c s t).mp hst
  cases ht with
  | read he hm => exact Within_readStep L c s n he hm hw
  | hsLock he hm hmu =>
    obtain ⟨ns, hf, hle⟩ := hw
    refine ⟨ns, hf, ?_⟩
    simp [he, hm, MainPC.budget] at hle ⊢
    omega
  | hsEncode he hm =>
    obtain ⟨ns, hf, hle⟩ := hw
    refine ⟨ns, hf, ?_⟩
    simp [he, hm, MainPC.budget] at hle ⊢
    omega
  | hsUnlock he hm =>
    obtain ⟨ns, hf, hle⟩ := hw
    refine ⟨ns, hf, ?_⟩
    simp [he, hm, MainPC.budget] at hle ⊢
    omega
  | closeWait ID he hm hw' =>
    obtain ⟨ns, hf, hle⟩ := hw
    refine ⟨ns, hf, ?_⟩
    simp [he, hm, MainPC.budget] at hle ⊢
    omega
  | ackLock ID he hm hmu =>
    obtain ⟨ns, hf, hle⟩ := hw
    refine ⟨ns, hf, ?_⟩
    simp [he, hm, MainPC.budget] at hle ⊢
    omega
  | ackEncode ID he hm =>
    obtain ⟨ns, hf, hle⟩ := hw
    refine ⟨ns, hf, ?_⟩
    simp [he, hm, MainPC.budget] at hle ⊢
    omega
  | ackUnlock ID he hm =>
    obtain ⟨ns, hf, hle⟩ := hw
    refine ⟨ns, hf, ?_⟩
    simp [he, hm, MainPC.budget] at hle ⊢
    omega
  | eofWait he hm hw' =>
    obtain ⟨ns, hf, hle⟩ := hw
    refine ⟨ns, hf, ?_⟩
    simp [he, hm, MainPC.budget] at hle ⊢
    omega
  | deferred he hm =>
    obtain ⟨ns, hf, hle⟩ := hw
    refine ⟨ns, hf, ?_⟩
    simp [he, hm, MainPC.budget] at hle ⊢
    omega
  | donePanic i he ht hw' =>
    obtain ⟨ns, hf, hle⟩ := hw
    refine ⟨ns, hf, ?_⟩
    have := budget_pos s.stdin.length s.main
    simp [he] at hle ⊢
    omega
  | opCall i cl k he ht =>
    obtain ⟨ns, hf, hle⟩ := hw
    obtain ⟨m, hm, hall⟩ := forall₂_set _ _ _ hf i _ ht
    obtain ⟨b, hb, hbm⟩ := hm
    cases b with
    | zero => exact absurd hb (by simp [Prog.Bounded])
    | succ b =>
      obtain ⟨h1, h2⟩ := hall (.op (k (h s.env cl).1)) (m - 1) ⟨b, hb _, by omega⟩
      refine ⟨_, h1, ?_⟩
      simp [he] at hle ⊢
      omega
  | opRet i r he ht =>
    obtain ⟨ns, hf, hle⟩ := hw
    obtain ⟨m, hm, hall⟩ := forall₂_set _ _ _ hf i _ ht
    obtain ⟨b, hb, hbm⟩ := hm
    obtain ⟨h1, h2⟩ := hall (.send r .lock) (m - 1) (by simp only [TaskPC.Within]; omega)
    refine ⟨_, h1, ?_⟩
    simp [he] at hle ⊢
    omega
  | sendLock i r he ht hmu =>
    obtain ⟨ns, hf, hle⟩ := hw
    obtain ⟨m, hm, hall⟩ := forall₂_set _ _ _ hf i _ ht
    simp only [TaskPC.Within] at hm
    obtain ⟨h1, h2⟩ := hall (.send r .encode) (m - 1) (by simp only [TaskPC.Within]; omega)
    refine ⟨_, h1, ?_⟩
    simp [he] at hle ⊢
    omega
  | sendEncode i r he ht hen =>
    obtain ⟨ns, hf, hle⟩ := hw
    obtain ⟨m, hm, hall⟩ := forall₂_set _ _ _ hf i _ ht
    simp only [TaskPC.Within] at hm
    obtain ⟨h1, h2⟩ := hall (.send r .unlock) (m - 1) (by simp only [TaskPC.Within]; omega)
    refine ⟨_, h1, ?_⟩
    simp [he] at hle ⊢
    omega
  | sendDrop i r he ht hen =>
    obtain ⟨ns, hf, hle⟩ := hw
    obtain ⟨m, hm, hall⟩ := forall₂_set _ _ _ hf i _ ht
    simp only [TaskPC.Within] at hm
    obtain ⟨h1, h2⟩ := hall (.send r .unlock) (m - 1) (by simp only [TaskPC.Within]; omega)
    refine ⟨_, h1, ?_⟩
    simp [he] at hle ⊢
    omega
  | sendUnlock i r he ht =>
    obtain ⟨ns, hf, hle⟩ := hw
    obtain ⟨m, hm, hall⟩ := forall₂_set _ _ _ hf i _ ht
    simp only [TaskPC.Within] at hm
    obtain ⟨h1, h2⟩ := hall .done (m - 1) (by simp only [TaskPC.Within]; omega)
    refine ⟨_, h1, ?_⟩
    simp [he] at hle ⊢
    omega
  | done i he ht hw' =>
    obtain ⟨ns, hf, hle⟩ := hw
    obtain ⟨m, hm, hall⟩ := forall₂_set _ _ _ hf i _ ht
    simp only [TaskPC.Within] at hm
    obtain ⟨h1, h2⟩ := hall .finished (m - 1) (by simp only [TaskPC.Within])
    refine ⟨_, h1, ?_⟩
    simp [he] at hle ⊢
    omega

theorem Within_init {σ : Type} (stdin : List Line) (broken : Bool) (env : σ) :
    (State.init stdin broken env).Within (stdin.length * 12 + 9) :=
  ⟨[], List.Forall₂.nil, by simp [State.init, MainPC.budget]⟩

/-- A run from a state with a budget of `n` steps has at most `n` steps. -/
theorem Steps_le {σ : Type} (h : Handler σ) (L : TimeLib) (c : cache) (k : Nat)
    (s t : State σ) (hr : Steps h L c k s t) : ∀ n, s.Within n → k ≤ n := by
  induction hr with
  | refl s => intro n _; exact Nat.zero_le _
  | @step k s t u hst _ ih =>
    intro n hw
    cases n with
    | zero =>
      exfalso
      obtain ⟨ns, hf, hle⟩ := hw
      have ht := (Step_iff_Trans h L c s t).mp hst
      have he : s.exit = none := by cases ht <;> assumption
      have := budget_pos s.stdin.length s.main
      simp [he] at hle
      omega
    | succ n =>
      have := ih n (Within_step h L c s t n hst hw)
      omega

theorem Sound_Steps {σ : Type} (h : Handler σ) (L : TimeLib) (c : cache) (k : Nat)
    (s t : State σ) (hr : Steps h L c k s t) (hs : s.Sound) : t.Sound := by
  induction hr with
  | refl s => exact hs
  | step hst _ ih => exact ih (Sound_step h L c _ _ hst hs)

theorem Steps_snoc {σ : Type} (h : Handler σ) (L : TimeLib) (c : cache) (k : Nat)
    (s t u : State σ) (hr : Steps h L c k s t) (hst : Step h L c t u) :
    Steps h L c (k + 1) s u := by
  induction hr with
  | refl s => exact Steps.step hst (Steps.refl _)
  | step h1 _ ih => exact Steps.step h1 (ih hst)


theorem readStep_bare {σ : Type} (L : TimeLib) (c : cache) (s : State σ) (l : Line)
    (rest : List Line) (r : request) (hin : s.stdin = l :: rest) (hr : l.asRequest = some r)
    (hsz : r.BodySize ≤ 0) :
    readStep L c s = dispatch L c { r with body := [] } { s with stdin := rest } := by
  have : ¬ (0 < r.BodySize) := by omega
  simp [readStep, hin, hr, this]

theorem readStep_body {σ : Type} (L : TimeLib) (c : cache) (s : State σ) (l b : Line)
    (rest : List Line) (r : request) (bs : List Byte) (hin : s.stdin = l :: b :: rest)
    (hr : l.asRequest = some r) (hsz : 0 < r.BodySize) (hb : b.asBody = some bs) :
    readStep L c s = dispatch L c { r with body := bs } { s with stdin := rest } := by
  simp [readStep, hin, hr, hsz, hb]

/-! ## The dispatcher on an input with a close request -/

theorem get_yields (L : TimeLib) (c : cache) (req : request) :
    (c.get L req).Yields fun r => r.ID = req.ID := by
  simp only [cache.get, closeBody, Prog.Yields]
  intro r
  repeat' (first | split | (intro _) | (simp only [Prog.Yields]))

theorem put_yields (L : TimeLib) (c : cache) (req : request) :
    (c.put L req).Yields fun r => r.ID = req.ID := by
  simp only [cache.put, Prog.Yields]
  intro r
  repeat' (first | split | (intro _) | (simp only [Prog.Yields]))

theorem answered_nil_right (ts : List TaskPC) : answered ts [] = [] := by
  cases ts <;> rfl

theorem answered_snoc (ts : List TaskPC) (qs : List request)
    (hf : List.Forall₂ TaskPC.Answers ts qs) (a : TaskPC) (q : request) :
    answered (ts ++ [a]) (qs ++ [q]) =
      answered ts qs ++ (if a.encoded then [q.ID] else []) := by
  induction hf with
  | nil => simp only [List.nil_append, answered]
  | @cons x y xs ys _ _ ih =>
    by_cases hx : x.encoded = true
    · simp only [List.cons_append, answered, hx, if_true]
      exact congrArg _ ih
    · simp only [List.cons_append, answered, hx, if_false]
      exact ih

/-- The goroutine `i` and its request, and what a step of this goroutine does
to the list of the requests answered. -/
theorem answers_set (ts : List TaskPC) (qs : List request)
    (hf : List.Forall₂ TaskPC.Answers ts qs) (i : Nat) (a : TaskPC) (hi : ts.get? i = some a) :
    ∃ q, a.Answers q ∧
      (∀ b : TaskPC, b.Answers q → List.Forall₂ TaskPC.Answers (ts.set i b) qs) ∧
      (∀ b : TaskPC, b.encoded = a.encoded → answered (ts.set i b) qs = answered ts qs) ∧
      (∀ b : TaskPC, a.encoded = false → b.encoded = true →
        (answered (ts.set i b) qs).Perm (answered ts qs ++ [q.ID])) := by
  induction hf generalizing i with
  | nil => simp at hi
  | @cons x y xs ys hx hxs ih =>
    cases i with
    | zero =>
      simp only [List.get?_cons_zero, Option.some.injEq] at hi
      subst hi
      refine ⟨y, hx, ?_, ?_, ?_⟩
      · intro b hb
        exact List.Forall₂.cons hb hxs
      · intro b hb
        simp only [List.set_cons_zero, answered, hb]
      · intro b ha hb
        simp only [List.set_cons_zero, answered, ha, hb, if_true, Bool.false_eq_true, if_false]
        exact (List.perm_append_singleton _ _).symm
    | succ i =>
      simp only [List.get?_cons_succ] at hi
      obtain ⟨q, h1, h2, h3, h4⟩ := ih i hi
      refine ⟨q, h1, ?_, ?_, ?_⟩
      · intro b hb
        exact List.Forall₂.cons hx (h2 b hb)
      · intro b hb
        simp only [List.set_cons_succ, answered, h3 b hb]
      · intro b ha hb
        simp only [List.set_cons_succ, answered]
        split
        · exact List.Perm.cons _ (h4 b ha hb)
        · exact h4 b ha hb

theorem answered_all (ts : List TaskPC) (qs : List request)
    (hf : List.Forall₂ TaskPC.Answers ts qs) (h : ts.countP TaskPC.live = 0) :
    answered ts qs = qs.map fun q => q.ID := by
  induction hf with
  | nil => rfl
  | @cons x y xs ys _ _ ih =>
    have hx : x.live = false := by
      have := List.countP_eq_zero.mp h x (List.mem_cons_self _ _)
      simpa using this
    have hxs : xs.countP TaskPC.live = 0 := by
      rw [List.countP_eq_zero] at h ⊢
      intro a ha
      exact h a (List.mem_cons_of_mem _ ha)
    have hw : x.encoded = true := by
      cases x with
      | op p => simp [TaskPC.live] at hx
      | send r p => simp [TaskPC.live] at hx
      | done => rfl
      | finished => rfl
    simp only [answered, hw, if_true, List.map_cons, ih hxs]

theorem Place_mono (I : CloseInput) (main : MainPC) (stdin : List Line) (qs : List request)
    (live live' : Nat) (hl : live' ≤ live) (hp : I.Place main stdin qs live) :
    I.Place main stdin qs live' := by
  cases main with
  | handshake p => exact hp
  | read => exact hp
  | closeWait ID => exact hp
  | eofWait => exact hp
  | closeAck ID p =>
    obtain ⟨h1, h2, h3⟩ := hp
    exact ⟨h1, h2, by omega⟩
  | deferred =>
    obtain ⟨h1, h2⟩ := hp
    exact ⟨h1, by omega⟩

theorem Inv_init {σ : Type} (L : TimeLib) (I : CloseInput) (env : σ) :
    I.Inv L (State.init I.stdin I.broken env) := by
  refine ⟨Or.inl rfl, [], List.Forall₂.nil, ⟨[], [], ?_, ?_, ?_, ?_⟩, ?_⟩
  · simp [State.init, MainPC.greeted, MainPC.acked]
  · simp
  · simp
  · simp [State.init, answered]
  · simp [State.init, CloseInput.Place]

theorem cmdClose_ne_cmdGet : cmdClose ≠ cmdGet := by decide

theorem cmdClose_ne_cmdPut : cmdClose ≠ cmdPut := by decide

/-- The `switch` of the loop on a request that is no close: a get or a put
starts a goroutine that answers it, anything else starts nothing. -/
theorem dispatch_other {σ : Type} (L : TimeLib) (c : cache) (req : request) (s : State σ)
    (hc : req.Command ≠ cmdClose) :
    (dispatch L c req s).main = s.main ∧ (dispatch L c req s).stdin = s.stdin ∧
    (dispatch L c req s).stdout = s.stdout ∧ (dispatch L c req s).exit = s.exit ∧
    ((spawned [req] = [req] ∧ ∃ p : Prog response, (p.Yields fun r => r.ID = req.ID) ∧
        (dispatch L c req s).tasks = s.tasks ++ [.op p]) ∨
      (spawned [req] = [] ∧ (dispatch L c req s).tasks = s.tasks)) := by
  unfold dispatch
  by_cases h1 : req.Command = cmdGet
  · rw [if_pos h1]
    exact ⟨rfl, rfl, rfl, rfl, Or.inl ⟨by simp [spawned, h1], _, get_yields L c req, rfl⟩⟩
  · rw [if_neg h1]
    by_cases h2 : req.Command = cmdPut
    · rw [if_pos h2]
      exact ⟨rfl, rfl, rfl, rfl, Or.inl ⟨by simp [spawned, h2], _, put_yields L c req, rfl⟩⟩
    · rw [if_neg h2, if_neg hc]
      exact ⟨rfl, rfl, rfl, rfl, Or.inr ⟨by simp [spawned, h1, h2], rfl⟩⟩

theorem dispatch_close {σ : Type} (L : TimeLib) (c : cache) (req : request) (s : State σ)
    (hc : req.Command = cmdClose) :
    dispatch L c req s = { s with main := .closeWait req.ID } := by
  unfold dispatch
  simp [hc, cmdClose_ne_cmdGet, cmdClose_ne_cmdPut]

theorem Framed_nil_right (ls : List Line) (hF : Framed ls []) : ls = [] := by
  cases hF
  rfl

/-- The turn of the loop that reads a close request, with its body line if it
declares one. -/
theorem readStep_close {σ : Type} (L : TimeLib) (c : cache) (s : State σ) (cls : List Line)
    (q : request) (tail : List Line) (hF : Framed cls [q]) (hc : q.Command = cmdClose)
    (hin : s.stdin = cls ++ tail) :
    readStep L c s = { s with stdin := tail, main := .closeWait q.ID } := by
  cases hF with
  | bare l ls r rs h1 h2 hrs =>
    have := Framed_nil_right ls hrs
    subst this
    rw [readStep_bare L c s l tail r hin h1 h2, dispatch_close L c { r with body := [] } _ hc]
  | body l b ls r bs rs h1 h2 h3 hrs =>
    have := Framed_nil_right ls hrs
    subst this
    rw [readStep_body L c s l b tail r bs hin h1 h2 h3,
      dispatch_close L c { r with body := bs } _ hc]

theorem spawned_append (a b : List request) : spawned (a ++ b) = spawned a ++ spawned b := by
  simp [spawned]

/-- A turn of the loop on a request that is no close keeps what holds of the
states of the run. -/
theorem Inv_dispatch {σ : Type} (L : TimeLib) (c : cache) (I : CloseInput) (req : request)
    (s : State σ) (hc : req.Command ≠ cmdClose) (hex : s.exit = none) (hm : s.main = .read)
    (qs : List request) (hf : List.Forall₂ TaskPC.Answers s.tasks qs)
    (hB : I.Output L .read s.stdout (answered s.tasks qs))
    (hP : I.Place .read s.stdin (qs ++ spawned [req]) 0) :
    I.Inv L (dispatch L c req s) := by
  obtain ⟨d1, d2, d3, d4, d5⟩ := dispatch_other L c req s hc
  refine ⟨Or.inl (by rw [d4]; exact hex), qs ++ spawned [req], ?_, ?_, ?_⟩
  · rcases d5 with ⟨e1, p, hp, e2⟩ | ⟨e1, e2⟩
    · rw [e1, e2]; exact forall₂_snoc _ _ _ hf _ _ hp
    · rw [e1, e2, List.append_nil]; exact hf
  · rw [d1, d3, hm]
    rcases d5 with ⟨e1, p, hp, e2⟩ | ⟨e1, e2⟩
    · rw [e1, e2, answered_snoc _ _ hf]
      simpa [TaskPC.encoded] using hB
    · rw [e1, e2, List.append_nil]; exact hB
  · rw [d1, d2, hm]
    exact hP

theorem Inv_readStep {σ : Type} (L : TimeLib) (c : cache) (I : CloseInput) (hI : I.WF)
    (s : State σ) (hm : s.main = .read) (hs : I.Inv L s) : I.Inv L (readStep L c s) := by
  obtain ⟨hA, qs, hF, hB, hC⟩ := hs
  rw [hm] at hB hC
  obtain ⟨done, todo, lines, hreq, hfr, hin, hqs⟩ := hC
  obtain ⟨wf1, wf2, wf3, wf4⟩ := hI
  obtain ⟨reqs0, lines0, closeLines, closeReq, rest0, broken0⟩ := I
  simp only at wf1 wf2 wf3 wf4 hreq hin
  have hex : s.exit = none := by
    rcases hA with h | ⟨_, h⟩
    · exact h
    · rw [hm] at h; cases h
  cases hfr with
  | nil =>
    -- the next request is the close request
    simp only [List.nil_append] at hin
    simp only [List.append_nil] at hreq
    rw [readStep_close L c s closeLines closeReq rest0 wf3 wf4 hin]
    refine ⟨Or.inl hex, qs, hF, ?_, ?_⟩
    · simpa [CloseInput.Output, MainPC.greeted, MainPC.acked] using hB
    · exact ⟨rfl, by rw [hqs, hreq]⟩
  | bare l ls r rs h1 h2 hrs =>
    have hnc : r.Command ≠ cmdClose :=
      wf2 { r with body := [] } (by rw [hreq]; simp)
    rw [readStep_bare L c s l _ r hin h1 h2]
    refine Inv_dispatch L c _ { r with body := [] }
      { s with stdin := ls ++ (closeLines ++ rest0) } hnc hex hm qs hF hB ?_
    exact ⟨done ++ [{ r with body := [] }], rs, ls, by rw [hreq]; simp, hrs, rfl,
      by rw [spawned_append, hqs]⟩
  | body l b ls r bs rs h1 h2 h3 hrs =>
    have hnc : r.Command ≠ cmdClose :=
      wf2 { r with body := bs } (by rw [hreq]; simp)
    rw [readStep_body L c s l b _ r bs hin h1 h2 h3]
    refine Inv_dispatch L c _ { r with body := bs }
      { s with stdin := ls ++ (closeLines ++ rest0) } hnc hex hm qs hF hB ?_
    exact ⟨done ++ [{ r with body := bs }], rs, ls, by rw [hreq]; simp, hrs, rfl,
      by rw [spawned_append, hqs]⟩

theorem countP_live_pos (ts : List TaskPC) (i : Nat) (a : TaskPC) (hi : ts.get? i = some a)
    (ha : a.live = true) : 0 < ts.countP TaskPC.live :=
  List.countP_pos_iff.mpr ⟨a, List.mem_iff_get?.mpr ⟨i, hi⟩, ha⟩

theorem acked_of_live (I : CloseInput) (main : MainPC) (stdin : List Line) (qs : List request)
    (live : Nat) (hC : I.Place main stdin qs live) (hpos : 0 < live) : main.acked = false := by
  cases main with
  | closeAck ID p => exact absurd hC.2.2 (by omega)
  | deferred => exact absurd hC.2 (by omega)
  | handshake p => rfl
  | read => rfl
  | closeWait ID => rfl
  | eofWait => rfl

/-- A step of a goroutine that writes nothing keeps what holds of the states
of the run. -/
theorem Inv_of_task {σ : Type} (L : TimeLib) (I : CloseInput) (s t : State σ) (i : Nat) (a b : TaskPC)
    (hi : I.Inv L s) (hx : s.exit = none) (ha : s.tasks.get? i = some a)
    (he : t.exit = s.exit) (hm : t.main = s.main) (hin : t.stdin = s.stdin)
    (hout : t.stdout = s.stdout) (hts : t.tasks = s.tasks.set i b)
    (hab : ∀ q, a.Answers q → b.Answers q) (hw : b.encoded = a.encoded)
    (hl : a.live = true) : I.Inv L t := by
  obtain ⟨_, qs, hF, hB, hC⟩ := hi
  obtain ⟨q, h1, h2, h3, _⟩ := answers_set s.tasks qs hF i a ha
  refine ⟨Or.inl (by rw [he, hx]), qs, ?_, ?_, ?_⟩
  · rw [hts]; exact h2 b (hab q h1)
  · rw [hm, hout, hts, h3 b hw]; exact hB
  · rw [hm, hin, hts]
    refine Place_mono I _ _ _ _ _ ?_ hC
    have e := countP_set TaskPC.live s.tasks i a b ha
    rw [hl] at e
    simp only [if_true] at e
    split at e <;> omega

/-- Every step of a run on a `CloseInput` keeps what holds of its states. -/
theorem Inv_step {σ : Type} (h : Handler σ) (L : TimeLib) (c : cache) (I : CloseInput)
    (hI : I.WF) (s t : State σ) (hst : Step h L c s t) (hs : s.Sound) (hi : I.Inv L s) :
    I.Inv L t := by
  have ht := (Step_iff_Trans h L c s t).mp hst
  cases ht with
  | read he hm => exact Inv_readStep L c I hI s hm hi
  | hsLock he hm hmu =>
    obtain ⟨hA, qs, hF, hB, hC⟩ := hi
    rw [hm] at hB hC
    exact ⟨Or.inl he, qs, hF, hB, hC⟩
  | hsEncode he hm =>
    obtain ⟨hA, qs, hF, hB, hC⟩ := hi
    rw [hm] at hB hC
    obtain ⟨outs, dropped, h1, ho, hd, h2⟩ := hB
    rw [hC.1, answered_nil_right] at h2
    have h3 : outs ++ dropped = [] := List.map_eq_nil_iff.mp (List.Perm.eq_nil h2)
    have : outs = [] := (List.append_eq_nil.mp h3).1
    subst this
    refine ⟨Or.inl he, qs, hF, ⟨[], dropped, ?_, ho, hd, ?_⟩, hC⟩
    · simp only [h1]
      simp [MainPC.greeted, MainPC.acked]
    · rw [hC.1, answered_nil_right]; exact h2
  | hsUnlock he hm =>
    obtain ⟨hA, qs, hF, hB, hC⟩ := hi
    rw [hm] at hB hC
    refine ⟨Or.inl he, qs, hF, hB, ?_⟩
    exact ⟨[], I.reqs, I.lines, rfl, hI.framed, hC.2, by rw [hC.1]; rfl⟩
  | closeWait ID he hm hw =>
    obtain ⟨hA, qs, hF, hB, hC⟩ := hi
    rw [hm] at hB hC
    refine ⟨Or.inl he, qs, hF, hB, hC.1, hC.2, ?_⟩
    rw [← hs.2]; exact hw
  | ackLock ID he hm hmu =>
    obtain ⟨hA, qs, hF, hB, hC⟩ := hi
    rw [hm] at hB hC
    exact ⟨Or.inl he, qs, hF, hB, hC⟩
  | ackEncode ID he hm =>
    obtain ⟨hA, qs, hF, hB, hC⟩ := hi
    rw [hm] at hB hC
    obtain ⟨outs, dropped, h1, ho, hd, h2⟩ := hB
    refine ⟨Or.inl he, qs, hF, ⟨outs, dropped, ?_, ho, hd, h2⟩, hC⟩
    simp only [h1, hC.1]
    simp [MainPC.greeted, MainPC.acked]
  | ackUnlock ID he hm =>
    obtain ⟨hA, qs, hF, hB, hC⟩ := hi
    rw [hm] at hB hC
    exact ⟨Or.inl he, qs, hF, hB, hC.2.1, hC.2.2⟩
  | eofWait he hm hw =>
    obtain ⟨hA, qs, hF, hB, hC⟩ := hi
    rw [hm] at hC
    exact absurd hC id
  | deferred he hm =>
    obtain ⟨hA, qs, hF, hB, hC⟩ := hi
    exact ⟨Or.inr ⟨rfl, hm⟩, qs, hF, hB, hC⟩
  | donePanic i he ht hw =>
    exfalso
    have := countP_live_pos s.tasks i _ ht rfl
    have := hs.2
    omega
  | opCall i cl k he ht =>
    exact Inv_of_task L I s _ i _ (.op (k (h s.env cl).1)) hi he ht rfl rfl rfl rfl rfl
      (fun q hq => hq _) rfl rfl
  | opRet i r he ht =>
    exact Inv_of_task L I s _ i _ (.send r .lock) hi he ht rfl rfl rfl rfl rfl
      (fun q hq => hq) rfl rfl
  | sendLock i r he ht hmu =>
    exact Inv_of_task L I s _ i _ (.send r .encode) hi he ht rfl rfl rfl rfl rfl
      (fun q hq => hq) rfl rfl
  | sendUnlock i r he ht =>
    exact Inv_of_task L I s _ i _ .done hi he ht rfl rfl rfl rfl rfl
      (fun q hq => trivial) rfl rfl
  | done i he ht hw =>
    exact Inv_of_task L I s _ i _ .finished hi he ht rfl rfl rfl rfl rfl
      (fun q hq => trivial) rfl rfl
  | sendEncode i r he ht hen =>
    obtain ⟨hA, qs, hF, ⟨outs, dropped, h1, ho, hd, h2⟩, hC⟩ := hi
    obtain ⟨q, q1, q2, _, q4⟩ := answers_set s.tasks qs hF i _ ht
    have hpos := countP_live_pos s.tasks i _ ht rfl
    have e2 := countP_set TaskPC.live s.tasks i _ (.send r .unlock) ht
    simp [TaskPC.live] at e2
    have hna := acked_of_live I s.main s.stdin qs _ hC hpos
    refine ⟨Or.inl he, qs, q2 (.send r .unlock) q1,
      ⟨outs ++ [r], dropped, ?_, ?_, hd, ?_⟩, ?_⟩
    · simp only [h1, hna]
      simp
    · intro x hx
      rcases List.mem_append.mp hx with hx | hx
      · exact ho x hx
      · rw [List.mem_singleton.mp hx]; exact hen
    · have hr : r.ID = q.ID := q1
      refine List.Perm.trans ?_ (q4 (.send r .unlock) rfl rfl).symm
      rw [← hr]
      refine List.Perm.trans ?_ (List.Perm.append_right _ h2)
      simp only [List.map_append, List.map_cons, List.map_nil, List.append_assoc]
      exact List.Perm.append_left _ List.perm_append_comm
    · simp only [e2]
      exact hC
  | sendDrop i r he ht hen =>
    obtain ⟨hA, qs, hF, ⟨outs, dropped, h1, ho, hd, h2⟩, hC⟩ := hi
    obtain ⟨q, q1, q2, _, q4⟩ := answers_set s.tasks qs hF i _ ht
    have e2 := countP_set TaskPC.live s.tasks i _ (.send r .unlock) ht
    simp [TaskPC.live] at e2
    refine ⟨Or.inl he, qs, q2 (.send r .unlock) q1,
      ⟨outs, dropped ++ [r], h1, ho, ?_, ?_⟩, ?_⟩
    · intro x hx
      rcases List.mem_append.mp hx with hx | hx
      · exact hd x hx
      · rw [List.mem_singleton.mp hx]; exact hen
    · have hr : r.ID = q.ID := q1
      refine List.Perm.trans ?_ (q4 (.send r .unlock) rfl rfl).symm
      rw [← hr]
      refine List.Perm.trans ?_ (List.Perm.append_right _ h2)
      simp only [List.map_append, List.map_cons, List.map_nil, List.append_assoc]
      exact List.Perm.refl _
    · simp only [e2]
      exact hC

theorem Reach_refl {σ : Type} (h : Handler σ) (L : TimeLib) (c : cache) (s : State σ) :
    Reach h L c s s := ⟨0, Steps.refl s⟩

theorem Reach_step {σ : Type} (h : Handler σ) (L : TimeLib) (c : cache) (s t u : State σ)
    (hr : Reach h L c s t) (hst : Step h L c t u) : Reach h L c s u := by
  obtain ⟨n, hn⟩ := hr
  exact ⟨n + 1, Steps_snoc h L c n s t u hn hst⟩

theorem Reach_exec {σ : Type} (h : Handler σ) (L : TimeLib) (c : cache) (sched : List Nat) :
    ∀ s : State σ, Reach h L c s (exec h L c sched s) := by
  induction sched with
  | nil => intro s; exact Reach_refl h L c s
  | cons tid rest ih =>
    intro s
    simp only [exec]
    cases hst : step h L c s tid with
    | none => simpa using ih s
    | some t =>
      obtain ⟨n, hn⟩ := ih t
      exact ⟨n + 1, Steps.step ⟨tid, hst⟩ (by simpa using hn)⟩

/-- What holds of every state of a run on a `CloseInput` from the start. -/
theorem Inv_Steps {σ : Type} (h : Handler σ) (L : TimeLib) (c : cache) (I : CloseInput)
    (hI : I.WF) (n : Nat) (s t : State σ) (hr : Steps h L c n s t) (hs : s.Sound)
    (hi : I.Inv L s) : t.Sound ∧ I.Inv L t := by
  induction hr with
  | refl s => exact ⟨hs, hi⟩
  | step hst _ ih =>
    exact ih (Sound_step h L c _ _ hst hs) (Inv_step h L c I hI _ _ hst hs hi)

theorem Inv_Reach {σ : Type} (h : Handler σ) (L : TimeLib) (c : cache) (I : CloseInput)
    (hI : I.WF) (env : σ) (s : State σ)
    (hr : Reach h L c (State.init I.stdin I.broken env) s) : s.Sound ∧ I.Inv L s := by
  obtain ⟨n, hn⟩ := hr
  exact Inv_Steps h L c I hI n _ _ hn (Sound_init _ _ _) (Inv_init L I env)

theorem readStep_stdout {σ : Type} (L : TimeLib) (c : cache) (s : State σ) :
    (readStep L c s).stdout = s.stdout := by
  have hd : ∀ (req : request) (s' : State σ), (dispatch L c req s').stdout = s'.stdout := by
    intro req s'
    unfold dispatch
    repeat' split
    all_goals rfl
  have hr := ReadTurn_readStep L c s
  generalize readStep L c s = t at hr
  cases hr with
  | eof _ _ => rfl
  | readErr _ _ => rfl
  | badRequest line rest _ _ => rfl
  | noBody line r _ _ _ => rfl
  | badBody line b rest r _ _ _ _ => rfl
  | withBody line b rest r bs _ _ _ _ => exact hd _ _
  | bare line rest r _ _ _ => exact hd _ _

/-- Standard output only grows, at its end. -/
theorem stdout_step {σ : Type} (h : Handler σ) (L : TimeLib) (c : cache) (s t : State σ)
    (hst : Step h L c s t) : s.stdout <+: t.stdout := by
  have ht := (Step_iff_Trans h L c s t).mp hst
  cases ht with
  | read he hm => rw [readStep_stdout]
  | hsEncode he hm => exact List.prefix_append _ _
  | ackEncode ID he hm => exact List.prefix_append _ _
  | sendEncode i r he ht hen => exact List.prefix_append _ _
  | sendDrop i r he ht hen => exact List.prefix_refl _
  | hsLock he hm hmu => exact List.prefix_refl _
  | hsUnlock he hm => exact List.prefix_refl _
  | closeWait ID he hm hw => exact List.prefix_refl _
  | ackLock ID he hm hmu => exact List.prefix_refl _
  | ackUnlock ID he hm => exact List.prefix_refl _
  | eofWait he hm hw => exact List.prefix_refl _
  | deferred he hm => exact List.prefix_refl _
  | opCall i cl k he ht => exact List.prefix_refl _
  | opRet i r he ht => exact List.prefix_refl _
  | sendLock i r he ht hmu => exact List.prefix_refl _
  | sendUnlock i r he ht => exact List.prefix_refl _
  | donePanic i he ht hw => exact List.prefix_refl _
  | done i he ht hw => exact List.prefix_refl _

theorem spawned_eq_self (reqs : List request)
    (h : ∀ r ∈ reqs, r.Command = cmdGet ∨ r.Command = cmdPut) : spawned reqs = reqs := by
  unfold spawned
  rw [List.filter_eq_self]
  intro r hr
  simpa using h r hr

/-- The output of a run on a `CloseInput` that has ended: the process has
ended with code 0 and has written the handshake, the response of each get and
put that could be marshalled, and the acknowledgement. -/
theorem Inv_exit {σ : Type} (L : TimeLib) (I : CloseInput) (s : State σ) (hi : I.Inv L s)
    (he : s.exit ≠ none) :
    s.exit = some 0 ∧ ∃ outs dropped : List response,
      s.stdout = handshake :: outs ++ [{ ID := I.closeReq.ID }] ∧
      (∀ r ∈ outs, encodes L r = true) ∧ (∀ r ∈ dropped, encodes L r = false) ∧
      ((outs ++ dropped).map fun r => r.ID).Perm ((spawned I.reqs).map fun q => q.ID) := by
  obtain ⟨hA, qs, hF, hB, hC⟩ := hi
  rcases hA with hA | ⟨hA, hm⟩
  · exact absurd hA he
  · rw [hm] at hB hC
    obtain ⟨outs, dropped, h1, ho, hd, h2⟩ := hB
    refine ⟨hA, outs, dropped, ?_, ho, hd, ?_⟩
    · rw [h1]; simp [MainPC.greeted, MainPC.acked]
    · rw [answered_all _ _ hF hC.2, hC.1] at h2
      exact h2

/-- The output when `main` is about to write the acknowledgement: every
goroutine has ended and the handshake and the response of each get and put that
could be marshalled are on standard output. -/
theorem Inv_barrier {σ : Type} (L : TimeLib) (I : CloseInput) (s : State σ) (hi : I.Inv L s)
    (ID : Int) (hm : s.main = .closeAck ID .encode) :
    ID = I.closeReq.ID ∧ (∀ t ∈ s.tasks, t.live = false) ∧
    ∃ outs dropped : List response, s.stdout = handshake :: outs ∧
      (∀ r ∈ outs, encodes L r = true) ∧ (∀ r ∈ dropped, encodes L r = false) ∧
      ((outs ++ dropped).map fun r => r.ID).Perm ((spawned I.reqs).map fun q => q.ID) := by
  obtain ⟨hA, qs, hF, hB, hC⟩ := hi
  rw [hm] at hB hC
  obtain ⟨outs, dropped, h1, ho, hd, h2⟩ := hB
  refine ⟨hC.1, ?_, outs, dropped, ?_, ho, hd, ?_⟩
  · intro t ht
    have := List.countP_eq_zero.mp hC.2.2 t ht
    simpa using this
  · rw [h1]; simp [MainPC.greeted, MainPC.acked]
  · rw [answered_all _ _ hF hC.2.2, hC.2.1] at h2
    exact h2

theorem Inv_head {σ : Type} (L : TimeLib) (I : CloseInput) (s : State σ) (hi : I.Inv L s) :
    s.stdout = [] ∨ s.stdout.head? = some handshake := by
  obtain ⟨hA, qs, hF, ⟨outs, dropped, h1, _, _, h2⟩, hC⟩ := hi
  cases hg : s.main.greeted with
  | true => right; rw [h1, hg]; simp
  | false =>
    left
    have hm : ∃ p, s.main = .handshake p := by
      cases hm : s.main with
      | handshake p => exact ⟨p, rfl⟩
      | read => simp [hm, MainPC.greeted] at hg
      | closeWait ID => simp [hm, MainPC.greeted] at hg
      | closeAck ID p => simp [hm, MainPC.greeted] at hg
      | eofWait => simp [hm, MainPC.greeted] at hg
      | deferred => simp [hm, MainPC.greeted] at hg
    obtain ⟨p, hm⟩ := hm
    rw [hm] at hC
    rw [hC.1, answered_nil_right] at h2
    have h3 : outs ++ dropped = [] := List.map_eq_nil_iff.mp (List.Perm.eq_nil h2)
    have : outs = [] := (List.append_eq_nil.mp h3).1
    subst this
    rw [h1, hg]
    cases p <;> simp [hm, MainPC.acked]

theorem answered_length (ts : List TaskPC) (qs : List request)
    (hf : List.Forall₂ TaskPC.Answers ts qs) :
    (answered ts qs).length = ts.countP TaskPC.encoded := by
  induction hf with
  | nil => rfl
  | @cons x y xs ys _ _ ih =>
    by_cases hx : x.encoded = true
    · simp [answered, hx, ih]
    · simp [answered, hx, ih]

/-- Standard output at any time of a run on a `CloseInput`: the handshake once
it is written, the response of each goroutine that is past `enc.Encode` and
whose response could be marshalled, and the acknowledgement once it is
written. -/
theorem Inv_output {σ : Type} (L : TimeLib) (I : CloseInput) (s : State σ) (hi : I.Inv L s) :
    ∃ outs dropped : List response,
      s.stdout = (if s.main.greeted then [handshake] else []) ++ outs ++
        (if s.main.acked then [{ ID := I.closeReq.ID }] else []) ∧
      (∀ r ∈ outs, encodes L r = true) ∧ (∀ r ∈ dropped, encodes L r = false) ∧
      outs.length + dropped.length = s.tasks.countP TaskPC.encoded := by
  obtain ⟨_, qs, hF, ⟨outs, dropped, h1, ho, hd, h2⟩, _⟩ := hi
  refine ⟨outs, dropped, h1, ho, hd, ?_⟩
  rw [← answered_length _ _ hF, ← h2.length_eq]
  simp

theorem Within_Steps {σ : Type} (h : Handler σ) (L : TimeLib) (c : cache) (k : Nat)
    (s t : State σ) (hr : Steps h L c k s t) : ∀ n, s.Within n → t.Within (n - k) := by
  induction hr with
  | refl s => intro n hw; exact hw
  | @step k s t u hst hr ih =>
    intro n hw
    have hk := Steps_le h L c (k + 1) s u (Steps.step hst hr) n hw
    obtain ⟨m, rfl⟩ : ∃ m, n = m + 1 := ⟨n - 1, by omega⟩
    have := ih m (Within_step h L c s t m hst hw)
    have e : m + 1 - (k + 1) = m - k := by omega
    rw [e]
    exact this

/-- From a state of a run on a `CloseInput` the process can always go on to
its end. -/
theorem ends {σ : Type} (h : Handler σ) (L : TimeLib) (c : cache) (I : CloseInput) (hI : I.WF) :
    ∀ (n : Nat) (s : State σ), s.Within n → s.Sound → I.Inv L s →
      ∃ t, Reach h L c s t ∧ t.exit = some 0 := by
  intro n
  induction n with
  | zero =>
    intro s hw hs hi
    by_cases he : s.exit = none
    · exfalso
      obtain ⟨ns, _, hle⟩ := hw
      have := budget_pos s.stdin.length s.main
      simp [he] at hle
      omega
    · exact ⟨s, Reach_refl h L c s, (Inv_exit L I s hi he).1⟩
  | succ n ih =>
    intro s hw hs hi
    by_cases he : s.exit = none
    · obtain ⟨t, hst⟩ := progress h L c s hs he
      obtain ⟨u, ⟨k, hk⟩, hu⟩ := ih t (Within_step h L c s t n hst hw) (Sound_step h L c s t hst hs)
        (Inv_step h L c I hI s t hst hs hi)
      exact ⟨u, ⟨k + 1, Steps.step hst hk⟩, hu⟩
    · exact ⟨s, Reach_refl h L c s, (Inv_exit L I s hi he).1⟩

theorem ends_Reach {σ : Type} (h : Handler σ) (L : TimeLib) (c : cache) (I : CloseInput)
    (hI : I.WF) (env : σ) (s : State σ)
    (hr : Reach h L c (State.init I.stdin I.broken env) s) :
    ∃ t, Reach h L c s t ∧ t.exit = some 0 := by
  obtain ⟨hs, hi⟩ := Inv_Reach h L c I hI env s hr
  obtain ⟨k, hk⟩ := hr
  exact ends h L c I hI _ s (Within_Steps h L c k _ s hk _ (Within_init _ _ _)) hs hi

theorem sampleInput_WF : sampleInput.WF where
  framed :=
    Framed.body _ _ _ { samplePut with body := [] } [1, 2, 3] _ rfl (by decide) rfl
      (Framed.bare _ _ sampleGet _ rfl (by decide) Framed.nil)
  noClose := by decide
  closeFramed := Framed.bare _ _ { ID := 9, Command := cmdClose } _ rfl (by decide) Framed.nil
  isClose := rfl

theorem encodes_false (L : TimeLib) (r : response) (h : encodes L r = false) :
    ∃ t, r.Time = some t ∧ L.MarshalJSON t = none := by
  unfold encodes at h
  cases ht : r.Time with
  | none => simp [ht] at h
  | some t =>
    refine ⟨t, rfl, ?_⟩
    simpa [ht] using h

theorem dropped_nil (L : TimeLib) (dropped : List response)
    (hd : ∀ r ∈ dropped, encodes L r = false) (hall : ∀ t, L.MarshalJSON t ≠ none) :
    dropped = [] := by
  cases dropped with
  | nil => rfl
  | cons x xs =>
    obtain ⟨t, _, ht⟩ := encodes_false L x (hd x (List.mem_cons_self _ _))
    exact absurd ht (hall t)

theorem dropInput_WF : dropInput.WF where
  framed := Framed.bare _ _ sampleGet _ rfl (by decide) Framed.nil
  noClose := by decide
  closeFramed := Framed.bare _ _ { ID := 9, Command := cmdClose } _ rfl (by decide) Framed.nil
  isClose := rfl

/-- C2, as stated, fails: on the input of one get and a close (N = 1), with an
object whose time metadata is `2024-01-01T00:00:00+24:00`, the get is a hit
whose `Time` cannot be marshalled; `enc.Encode` writes nothing for it and `send`
drops the error, so the run ends with code 0 and two lines on standard output,
the handshake and the acknowledgement, not three. -/
theorem C2_close_barrier_drops_response :
    dropInput.reqs.length = 1 ∧
    (∀ r ∈ dropInput.reqs, r.Command = cmdGet ∨ r.Command = cmdPut) ∧
    ((sampleCache.get sampleTime sampleGet).run World.handle dropWorld).1 =
      { ID := 2, OutputID := [0xBB], Size := 3, DiskPath := "/tmp/gocache-s3-1/aa",
        Time := some { unixNano := 1703980800000000000, offset := 86400 } } ∧
    (exec World.handle sampleTime sampleCache dropSchedule
      (State.init dropInput.stdin dropInput.broken dropWorld)).exit = some 0 ∧
    (exec World.handle sampleTime sampleCache dropSchedule
      (State.init dropInput.stdin dropInput.broken dropWorld)).stdout =
      [handshake, { ID := 9 }] ∧
    (exec World.handle sampleTime sampleCache dropSchedule
      (State.init dropInput.stdin dropInput.broken dropWorld)).stdout.length ≠
      dropInput.reqs.length + 2 := by
  refine ⟨rfl, by decide, by decide, by decide, by decide, by decide⟩

/-- C2, amended: on an input of N get/put requests and then a close request, in
every interleaving of the goroutines: the run ends (within a bound on its
steps, and it is never stuck before the process exits); standard output only
grows and its first line is the handshake; when `main` is about to write the
close acknowledgement every goroutine has ended and the handshake and the
response of every request are on standard output, but for the responses that
could not be marshalled, which were dropped; and when the process has ended it
has ended with code 0 and standard output holds the handshake first, the close
acknowledgement last, and between them, in any order, one response for each
request, by ID, but for the dropped ones: N+2 lines less the dropped ones, and
N+2 lines when `MarshalJSON` returns no error. -/
theorem C2_close_barrier {σ : Type} (h : Handler σ) (L : TimeLib) (c : cache) (I : CloseInput)
    (env : σ) (hI : I.WF) (hops : ∀ r ∈ I.reqs, r.Command = cmdGet ∨ r.Command = cmdPut) :
    (∀ n s, Steps h L c n (State.init I.stdin I.broken env) s → n ≤ I.stdin.length * 12 + 9) ∧
    (∀ s, Reach h L c (State.init I.stdin I.broken env) s → s.exit = none →
      ∃ t, Step h L c s t) ∧
    (∀ s, Reach h L c (State.init I.stdin I.broken env) s →
      ∃ t, Reach h L c s t ∧ t.exit = some 0) ∧
    (∀ s t, Reach h L c (State.init I.stdin I.broken env) s → Step h L c s t →
      s.stdout <+: t.stdout) ∧
    (∀ s, Reach h L c (State.init I.stdin I.broken env) s →
      s.stdout = [] ∨ s.stdout.head? = some handshake) ∧
    (∀ s ID, Reach h L c (State.init I.stdin I.broken env) s → s.main = .closeAck ID .encode →
      ID = I.closeReq.ID ∧ (∀ t ∈ s.tasks, t.live = false) ∧
      ∃ outs dropped : List response, s.stdout = handshake :: outs ∧
        (∀ r ∈ outs, encodes L r = true) ∧
        (∀ r ∈ dropped, ∃ t, r.Time = some t ∧ L.MarshalJSON t = none) ∧
        ((outs ++ dropped).map fun r => r.ID).Perm (I.reqs.map fun q => q.ID) ∧
        outs.length + dropped.length = I.reqs.length ∧
        ((∀ t, L.MarshalJSON t ≠ none) → dropped = [])) ∧
    (∀ s, Reach h L c (State.init I.stdin I.broken env) s → s.exit ≠ none →
      s.exit = some 0 ∧
      ∃ outs dropped : List response,
        s.stdout = handshake :: outs ++ [{ ID := I.closeReq.ID }] ∧
        (∀ r ∈ outs, encodes L r = true) ∧
        (∀ r ∈ dropped, ∃ t, r.Time = some t ∧ L.MarshalJSON t = none) ∧
        ((outs ++ dropped).map fun r => r.ID).Perm (I.reqs.map fun q => q.ID) ∧
        s.stdout.length + dropped.length = I.reqs.length + 2 ∧
        ((∀ t, L.MarshalJSON t ≠ none) → dropped = [])) := by
  have hN := spawned_eq_self I.reqs hops
  refine ⟨?_, ?_, ?_, ?_, ?_, ?_, ?_⟩
  · intro n s hr
    exact Steps_le h L c n _ _ hr _ (Within_init _ _ _)
  · intro s hr he
    exact progress h L c s (Inv_Reach h L c I hI env s hr).1 he
  · intro s hr
    exact ends_Reach h L c I hI env s hr
  · intro s t _ hst
    exact stdout_step h L c s t hst
  · intro s hr
    exact Inv_head L I s (Inv_Reach h L c I hI env s hr).2
  · intro s ID hr hm
    obtain ⟨h0, h1, outs, dropped, h2, ho, hd, h3⟩ :=
      Inv_barrier L I s (Inv_Reach h L c I hI env s hr).2 ID hm
    rw [hN] at h3
    have hlen : outs.length + dropped.length = I.reqs.length := by
      simpa using h3.length_eq
    exact ⟨h0, h1, outs, dropped, h2, ho, fun r hr => encodes_false L r (hd r hr), h3, hlen,
      dropped_nil L dropped hd⟩
  · intro s hr he
    obtain ⟨h0, outs, dropped, h1, ho, hd, h2⟩ :=
      Inv_exit L I s (Inv_Reach h L c I hI env s hr).2 he
    rw [hN] at h2
    have hlen : outs.length + dropped.length = I.reqs.length := by
      simpa using h2.length_eq
    refine ⟨h0, outs, dropped, h1, ho, fun r hr => encodes_false L r (hd r hr), h2, ?_,
      dropped_nil L dropped hd⟩
    rw [h1]
    simp only [List.length_cons, List.length_append, List.length_nil]
    omega

/-- C2 at the example of the specification: the put, the get and the close,
with the get run before the put. -/
theorem C2_close_barrier_witness :
    sampleInput.WF ∧
    (∀ r ∈ sampleInput.reqs, r.Command = cmdGet ∨ r.Command = cmdPut) ∧
    (exec World.handle sampleTime sampleCache sampleSchedule
      (State.init sampleInput.stdin sampleInput.broken emptyWorld)).exit = some 0 ∧
    (exec World.handle sampleTime sampleCache sampleSchedule
      (State.init sampleInput.stdin sampleInput.broken emptyWorld)).stdout.length = 4 :=
  ⟨sampleInput_WF, by decide,
   ((C2_close_barrier World.handle sampleTime sampleCache sampleInput emptyWorld sampleInput_WF
      (by decide)).2.2.2.2.2.2 _ (Reach_exec World.handle sampleTime sampleCache sampleSchedule _)
      (by decide)).1, by decide⟩


/-! ## Nothing behind the close request is read -/

/-- A step that is no turn of the loop of `main` does not look at standard
input. -/
theorem Trans_other {σ : Type} (h : Handler σ) (L : TimeLib) (c : cache) (s t : State σ)
    (ht : Trans h L c s t) :
    (s.main = .read ∧ s.exit = none ∧ t = readStep L c s) ∨
    (t.stdin = s.stdin ∧ t.broken = s.broken ∧ (t.main.reading = true → s.main.reading = true) ∧
      ∀ (x : List Line) (b : Bool), Trans h L c (s.withInput x b) (t.withInput x b)) := by
  cases ht with
  | read he hm => exact Or.inl ⟨hm, he, rfl⟩
  | hsLock he hm hmu =>
    exact Or.inr ⟨rfl, rfl, fun _ => by rw [hm]; rfl,
      fun x b => Trans.hsLock (s.withInput x b) he hm hmu⟩
  | hsEncode he hm =>
    exact Or.inr ⟨rfl, rfl, fun _ => by rw [hm]; rfl,
      fun x b => Trans.hsEncode (s.withInput x b) he hm⟩
  | hsUnlock he hm =>
    exact Or.inr ⟨rfl, rfl, fun _ => by rw [hm]; rfl,
      fun x b => Trans.hsUnlock (s.withInput x b) he hm⟩
  | closeWait ID he hm hw =>
    exact Or.inr ⟨rfl, rfl, fun hr => by simp [MainPC.reading] at hr,
      fun x b => Trans.closeWait (s.withInput x b) ID he hm hw⟩
  | ackLock ID he hm hmu =>
    exact Or.inr ⟨rfl, rfl, fun hr => by simp [MainPC.reading] at hr,
      fun x b => Trans.ackLock (s.withInput x b) ID he hm hmu⟩
  | ackEncode ID he hm =>
    exact Or.inr ⟨rfl, rfl, fun hr => by simp [MainPC.reading] at hr,
      fun x b => Trans.ackEncode (s.withInput x b) ID he hm⟩
  | ackUnlock ID he hm =>
    exact Or.inr ⟨rfl, rfl, fun hr => by simp [MainPC.reading] at hr,
      fun x b => Trans.ackUnlock (s.withInput x b) ID he hm⟩
  | eofWait he hm hw =>
    exact Or.inr ⟨rfl, rfl, fun hr => by simp [MainPC.reading] at hr,
      fun x b => Trans.eofWait (s.withInput x b) he hm hw⟩
  | deferred he hm =>
    exact Or.inr ⟨rfl, rfl, fun hr => hr, fun x b => Trans.deferred (s.withInput x b) he hm⟩
  | opCall i cl k he ht =>
    exact Or.inr ⟨rfl, rfl, fun hr => hr, fun x b => Trans.opCall (s.withInput x b) i cl k he ht⟩
  | opRet i r he ht =>
    exact Or.inr ⟨rfl, rfl, fun hr => hr, fun x b => Trans.opRet (s.withInput x b) i r he ht⟩
  | sendLock i r he ht hmu =>
    exact Or.inr ⟨rfl, rfl, fun hr => hr,
      fun x b => Trans.sendLock (s.withInput x b) i r he ht hmu⟩
  | sendEncode i r he ht hen =>
    exact Or.inr ⟨rfl, rfl, fun hr => hr,
      fun x b => Trans.sendEncode (s.withInput x b) i r he ht hen⟩
  | sendDrop i r he ht hen =>
    exact Or.inr ⟨rfl, rfl, fun hr => hr,
      fun x b => Trans.sendDrop (s.withInput x b) i r he ht hen⟩
  | sendUnlock i r he ht =>
    exact Or.inr ⟨rfl, rfl, fun hr => hr,
      fun x b => Trans.sendUnlock (s.withInput x b) i r he ht⟩
  | donePanic i he ht hw =>
    exact Or.inr ⟨rfl, rfl, fun hr => hr, fun x b => Trans.donePanic (s.withInput x b) i he ht hw⟩
  | done i he ht hw =>
    exact Or.inr ⟨rfl, rfl, fun hr => hr, fun x b => Trans.done (s.withInput x b) i he ht hw⟩

theorem dispatch_withInput {σ : Type} (L : TimeLib) (c : cache) (req : request) (s : State σ)
    (x : List Line) (b : Bool) :
    dispatch L c req (s.withInput x b) = (dispatch L c req s).withInput x b := by
  unfold dispatch
  repeat' split
  all_goals rfl

theorem Twin_symm {σ : Type} (cl : List Line) (clReq : request) (tA tB : List Line) (s s' : State σ)
    (hT : Twin cl clReq tA tB s s') : Twin cl clReq tB tA s' s := by
  obtain ⟨⟨x, b, h1⟩, h2⟩ := hT
  subst h1
  refine ⟨⟨s.stdin, s.broken, rfl⟩, ?_⟩
  intro hr
  obtain ⟨todo, lines, f1, f2, f3, f4, f6, f7⟩ := h2 hr
  exact ⟨todo, lines, f1, f2, f3, f4, f7, f6⟩

/-- The two runs move together. -/
theorem Twin_step {σ : Type} (h : Handler σ) (L : TimeLib) (c : cache) (cl : List Line)
    (clReq : request) (tA tB : List Line) (s s' t : State σ)
    (hT : Twin cl clReq tA tB s s') (ht : Trans h L c s t) :
    ∃ t', Trans h L c s' t' ∧ Twin cl clReq tA tB t t' := by
  obtain ⟨⟨x, b, h1⟩, h2⟩ := hT
  subst h1
  rcases Trans_other h L c s t ht with ⟨hm, he, rfl⟩ | ⟨e1, e2, e3, e4⟩
  · refine ⟨readStep L c (s.withInput x b), Trans.read _ he hm, ?_⟩
    obtain ⟨todo, lines, f1, f2, f3, f4, f6, f7⟩ := h2 (by rw [hm]; rfl)
    simp only [State.withInput] at f7
    cases f1 with
    | nil =>
      simp only [List.nil_append] at f6 f7
      rw [readStep_close L c s cl clReq tA f3 f4 f6,
        readStep_close L c (s.withInput x b) cl clReq tB f3 f4 f7]
      exact ⟨⟨tB, b, rfl⟩, fun hr => by simp [MainPC.reading] at hr⟩
    | bare l ls r rs g1 g2 g3 =>
      have hnc : r.Command ≠ cmdClose := f2 { r with body := [] } (by simp)
      rw [readStep_bare L c s l _ r f6 g1 g2,
        readStep_bare L c (s.withInput x b) l _ r f7 g1 g2]
      have D := fun s' : State σ => dispatch_other L c { r with body := [] } s' hnc
      refine ⟨⟨ls ++ (cl ++ tB), b, ?_⟩, ?_⟩
      · rw [← dispatch_withInput]; rfl
      · intro _
        refine ⟨rs, ls, g3, fun q hq => f2 q (by simp [hq]), f3, f4, ?_, ?_⟩
        · rw [(D _).2.1]; rfl
        · rw [(D _).2.1]; rfl
    | body l bl ls r bs rs g1 g2 g3 g4 =>
      have hnc : r.Command ≠ cmdClose := f2 { r with body := bs } (by simp)
      rw [readStep_body L c s l bl _ r bs f6 g1 g2 g3,
        readStep_body L c (s.withInput x b) l bl _ r bs f7 g1 g2 g3]
      have D := fun s' : State σ => dispatch_other L c { r with body := bs } s' hnc
      refine ⟨⟨ls ++ (cl ++ tB), b, ?_⟩, ?_⟩
      · rw [← dispatch_withInput]; rfl
      · intro _
        refine ⟨rs, ls, g4, fun q hq => f2 q (by simp [hq]), f3, f4, ?_, ?_⟩
        · rw [(D _).2.1]; rfl
        · rw [(D _).2.1]; rfl
  · refine ⟨t.withInput x b, e4 x b, ⟨x, b, rfl⟩, ?_⟩
    intro hr
    obtain ⟨todo, lines, f1, f2, f3, f4, f6, f7⟩ := h2 (e3 hr)
    exact ⟨todo, lines, f1, f2, f3, f4, by rw [e1]; exact f6, f7⟩

theorem Twin_Steps {σ : Type} (h : Handler σ) (L : TimeLib) (c : cache) (cl : List Line)
    (clReq : request) (tA tB : List Line) (n : Nat) (s t : State σ)
    (hr : Steps h L c n s t) : ∀ s', Twin cl clReq tA tB s s' →
    ∃ t', Steps h L c n s' t' ∧ Twin cl clReq tA tB t t' := by
  induction hr with
  | refl s => intro s' hT; exact ⟨s', Steps.refl s', hT⟩
  | @step n s u t hst _ ih =>
    intro s' hT
    obtain ⟨u', hu, hT'⟩ := Twin_step h L c cl clReq tA tB s s' u hT
      ((Step_iff_Trans h L c s u).mp hst)
    obtain ⟨t', ht, hT''⟩ := ih u' hT'
    exact ⟨t', Steps.step ((Step_iff_Trans h L c s' u').mpr hu) ht, hT''⟩

theorem Twin_init {σ : Type} (I : CloseInput) (hI : I.WF) (tB : List Line) (bB : Bool) (env : σ) :
    Twin I.closeLines I.closeReq I.rest tB (State.init I.stdin I.broken env)
      (State.init (I.lines ++ (I.closeLines ++ tB)) bB env) :=
  ⟨⟨I.lines ++ (I.closeLines ++ tB), bB, rfl⟩,
   fun _ => ⟨I.reqs, I.lines, hI.framed, hI.noClose, hI.closeFramed, hI.isClose, rfl, rfl⟩⟩

theorem Twin_cut {σ : Type} (I : CloseInput) (hI : I.WF) (env : σ) :
    Twin I.closeLines I.closeReq I.rest [] (State.init I.stdin I.broken env)
      (State.init (I.lines ++ I.closeLines) false env) := by
  have h0 := Twin_init I hI [] false env
  rw [List.append_nil] at h0
  exact h0

theorem Twin_same {σ : Type} (cl : List Line) (clReq : request) (tA tB : List Line) (s s' : State σ)
    (hT : Twin cl clReq tA tB s s') :
    s'.stdout = s.stdout ∧ s'.calls = s.calls ∧ s'.env = s.env ∧ s'.exit = s.exit := by
  obtain ⟨⟨x, b, h1⟩, _⟩ := hT
  subst h1
  exact ⟨rfl, rfl, rfl, rfl⟩


/-! ## A close request is received on well-framed input only -/

theorem Framed_append (l1 l2 : List Line) (r1 r2 : List request) (h1 : Framed l1 r1)
    (h2 : Framed l2 r2) : Framed (l1 ++ l2) (r1 ++ r2) := by
  induction h1 with
  | nil => exact h2
  | bare l ls r rs g1 g2 _ ih => exact Framed.bare l _ r _ g1 g2 ih
  | body l b ls r bs rs g1 g2 g3 _ ih => exact Framed.body l b _ r bs _ g1 g2 g3 ih

theorem Framing_dispatch {σ : Type} (L : TimeLib) (c : cache) (stdin : List Line)
    (req : request) (s : State σ) (hm : s.main = .read) (cls : List Line)
    (hcl : Framed cls [req]) (reqs : List request) (lines : List Line) (hf : Framed lines reqs)
    (hn : ∀ r ∈ reqs, r.Command ≠ cmdClose) (hin : stdin = lines ++ (cls ++ s.stdin)) :
    Framing stdin (dispatch L c req s) := by
  by_cases hc : req.Command = cmdClose
  · rw [dispatch_close L c req s hc]
    exact ⟨⟨reqs, lines, cls, req, s.stdin, s.broken⟩, ⟨hf, hn, hcl, hc⟩, hin.symm, rfl⟩
  · obtain ⟨d1, d2, _, _, _⟩ := dispatch_other L c req s hc
    unfold Framing
    rw [d1, hm, d2]
    intro _
    refine ⟨reqs ++ [req], lines ++ cls, Framed_append _ _ _ _ hf hcl, ?_, ?_⟩
    · intro r hr
      rcases List.mem_append.mp hr with hr | hr
      · exact hn r hr
      · rw [List.mem_singleton.mp hr]; exact hc
    · rw [hin, List.append_assoc]

theorem Framing_readStep {σ : Type} (L : TimeLib) (c : cache) (stdin : List Line)
    (s : State σ) (hm : s.main = .read) (he : s.exit = none) (hs : Framing stdin s) :
    Framing stdin (readStep L c s) := by
  unfold Framing at hs
  rw [hm] at hs
  obtain ⟨reqs, lines, hf, hn, hin⟩ := hs he
  have hfatal : ∀ t : State σ, t.main = .read → Framing stdin (fatal t) := by
    intro t ht
    unfold Framing
    simp only [fatal, ht]
    intro hx
    cases hx
  have hr := ReadTurn_readStep L c s
  generalize readStep L c s = t at hr
  cases hr with
  | eof _ _ => trivial
  | readErr _ _ => exact hfatal s hm
  | badRequest line rest _ _ => exact hfatal _ hm
  | noBody line r _ _ _ => exact hfatal _ hm
  | badBody line b rest r _ _ _ _ => exact hfatal _ hm
  | withBody line b rest r bs g0 g1 g2 g3 =>
    refine Framing_dispatch L c stdin { r with body := bs } { s with stdin := rest } hm
      [line, b] (Framed.body line b [] r bs [] g1 g2 g3 Framed.nil) reqs lines hf hn ?_
    rw [hin, g0]; rfl
  | bare line rest r g0 g1 g2 =>
    refine Framing_dispatch L c stdin { r with body := [] } { s with stdin := rest } hm
      [line] (Framed.bare line [] r [] g1 g2 Framed.nil) reqs lines hf hn ?_
    rw [hin, g0]; rfl

theorem Framing_of_main {σ : Type} (stdin : List Line) (s t : State σ)
    (hm : t.main = s.main) (hin : t.stdin = s.stdin) (he : t.exit = none → s.exit = none)
    (hs : Framing stdin s) : Framing stdin t := by
  unfold Framing at hs ⊢
  rw [hm, hin]
  cases hmain : s.main with
  | handshake p => rw [hmain] at hs; exact fun hx => hs (he hx)
  | read => rw [hmain] at hs; exact fun hx => hs (he hx)
  | closeWait ID => rw [hmain] at hs; exact hs
  | closeAck ID p => rw [hmain] at hs; exact hs
  | eofWait => trivial
  | deferred => trivial

theorem Framing_step {σ : Type} (h : Handler σ) (L : TimeLib) (c : cache) (stdin : List Line)
    (s t : State σ) (hst : Step h L c s t) (hs : Framing stdin s) : Framing stdin t := by
  have ht := (Step_iff_Trans h L c s t).mp hst
  cases ht with
  | read he hm => exact Framing_readStep L c stdin s hm he hs
  | hsLock he hm hmu =>
    unfold Framing at hs ⊢
    rw [hm] at hs
    exact fun _ => hs he
  | hsEncode he hm =>
    unfold Framing at hs ⊢
    rw [hm] at hs
    exact fun _ => hs he
  | hsUnlock he hm =>
    unfold Framing at hs ⊢
    rw [hm] at hs
    exact fun _ => ⟨[], [], Framed.nil, by simp, by simpa using (hs he).symm⟩
  | closeWait ID he hm hw =>
    unfold Framing at hs ⊢
    rw [hm] at hs
    exact hs
  | ackLock ID he hm hmu =>
    unfold Framing at hs ⊢
    rw [hm] at hs
    exact hs
  | ackEncode ID he hm =>
    unfold Framing at hs ⊢
    rw [hm] at hs
    exact hs
  | ackUnlock ID he hm => trivial
  | eofWait he hm hw => trivial
  | deferred he hm =>
    unfold Framing
    simp only [hm]
  | opCall i cl k he ht => exact Framing_of_main stdin s _ rfl rfl (fun _ => he) hs
  | opRet i r he ht => exact Framing_of_main stdin s _ rfl rfl (fun _ => he) hs
  | sendLock i r he ht hmu => exact Framing_of_main stdin s _ rfl rfl (fun _ => he) hs
  | sendEncode i r he ht hen => exact Framing_of_main stdin s _ rfl rfl (fun _ => he) hs
  | sendDrop i r he ht hen => exact Framing_of_main stdin s _ rfl rfl (fun _ => he) hs
  | sendUnlock i r he ht => exact Framing_of_main stdin s _ rfl rfl (fun _ => he) hs
  | donePanic i he ht hw => exact Framing_of_main stdin s _ rfl rfl (fun _ => he) hs
  | done i he ht hw => exact Framing_of_main stdin s _ rfl rfl (fun _ => he) hs

/-- On any input, `main` comes to `case cmdClose`, where the acknowledgement is
written, only when the lines up to the close request are the lines of
requests: on every other input no close request is received. -/
theorem close_received {σ : Type} (h : Handler σ) (L : TimeLib) (c : cache)
    (stdin : List Line) (broken : Bool) (env : σ) (s : State σ)
    (hr : Reach h L c (State.init stdin broken env) s) :
    (∀ ID, s.main = .closeWait ID → Received stdin ID) ∧
    (∀ ID p, s.main = .closeAck ID p → Received stdin ID) := by
  have key : Framing stdin s := by
    obtain ⟨n, hn⟩ := hr
    have h0 : Framing stdin (State.init stdin broken env) := fun _ => rfl
    generalize State.init stdin broken env = s0 at hn h0
    induction hn with
    | refl s => exact h0
    | step hst _ ih => exact ih (Framing_step h L c stdin _ _ hst h0)
  constructor
  · intro ID hm
    unfold Framing at key
    rw [hm] at key
    exact key
  · intro ID p hm
    unfold Framing at key
    rw [hm] at key
    exact key

/-- C6, as stated, fails: a record behind a close request can decide whether the
acknowledgement is written. Behind the record of a close request that declares
a body, a body line gives the acknowledgement and the exit code 0; the end of
the input, or the record of a get, gives a fatal end (code 1) with the
handshake alone on standard output. A line that is no request before a close
request gives the same fatal end: the input contains a close request and no
acknowledgement is written. -/
theorem C6_record_behind_close_decides :
    closeWithBody.asRequest = some { ID := 9, Command := cmdClose, BodySize := 1 } ∧
    closeBare.asRequest = some { ID := 9, Command := cmdClose } ∧
    (exec World.handle sampleTime sampleCache (List.replicate 9 0)
      (State.init [closeWithBody, bodyLine] false emptyWorld)).exit = some 0 ∧
    (exec World.handle sampleTime sampleCache (List.replicate 9 0)
      (State.init [closeWithBody, bodyLine] false emptyWorld)).stdout =
      [handshake, { ID := 9 }] ∧
    (exec World.handle sampleTime sampleCache (List.replicate 9 0)
      (State.init [closeWithBody] false emptyWorld)).exit = some 1 ∧
    (exec World.handle sampleTime sampleCache (List.replicate 9 0)
      (State.init [closeWithBody] false emptyWorld)).stdout = [handshake] ∧
    (exec World.handle sampleTime sampleCache (List.replicate 9 0)
      (State.init [closeWithBody, getLine] false emptyWorld)).exit = some 1 ∧
    (exec World.handle sampleTime sampleCache (List.replicate 9 0)
      (State.init [closeWithBody, getLine] false emptyWorld)).stdout = [handshake] ∧
    (exec World.handle sampleTime sampleCache (List.replicate 9 0)
      (State.init [badLine, closeBare] false emptyWorld)).exit = some 1 ∧
    (exec World.handle sampleTime sampleCache (List.replicate 9 0)
      (State.init [badLine, closeBare] false emptyWorld)).stdout = [handshake] := by
  refine ⟨rfl, rfl, by decide, by decide, by decide, by decide, by decide, by decide,
    by decide, by decide⟩

/-- C6, amended: on an input whose lines up to the first close request are the
lines of requests (each with its body line when it declares a body, the close
request too), what follows the close request has no effect: every run is, step
by step, a run on the input that ends right behind the close request, with the
same standard output, the same calls to the store, the same state of the store
and the same exit, and the other way round; every run ends (within a bound on
its steps, never stuck before the process exits); standard output is at any
time the handshake, the responses of the goroutines that could be marshalled
and, once `main` has written it, one acknowledgement; and when the process has
ended it has ended with code 0 and the last line is that one acknowledgement,
which carries the ID of the close request and no other field, behind the
handshake and one response for each get and put before the close request, by
ID, but for the responses that could not be marshalled, which were dropped. -/
theorem C6_nothing_after_close {σ : Type} (h : Handler σ) (L : TimeLib) (c : cache)
    (I : CloseInput) (env : σ) (hI : I.WF) :
    (∀ n s, Steps h L c n (State.init I.stdin I.broken env) s →
      ∃ s', Steps h L c n (State.init (I.lines ++ I.closeLines) false env) s' ∧
        s'.stdout = s.stdout ∧ s'.calls = s.calls ∧ s'.env = s.env ∧ s'.exit = s.exit) ∧
    (∀ n s', Steps h L c n (State.init (I.lines ++ I.closeLines) false env) s' →
      ∃ s, Steps h L c n (State.init I.stdin I.broken env) s ∧
        s.stdout = s'.stdout ∧ s.calls = s'.calls ∧ s.env = s'.env ∧ s.exit = s'.exit) ∧
    (∀ n s, Steps h L c n (State.init I.stdin I.broken env) s → n ≤ I.stdin.length * 12 + 9) ∧
    (∀ s, Reach h L c (State.init I.stdin I.broken env) s → s.exit = none →
      ∃ t, Step h L c s t) ∧
    (∀ s, Reach h L c (State.init I.stdin I.broken env) s →
      ∃ t, Reach h L c s t ∧ t.exit = some 0) ∧
    (∀ s, Reach h L c (State.init I.stdin I.broken env) s →
      ∃ outs dropped : List response,
        s.stdout = (if s.main.greeted then [handshake] else []) ++ outs ++
          (if s.main.acked then [{ ID := I.closeReq.ID }] else []) ∧
        (∀ r ∈ outs, encodes L r = true) ∧
        (∀ r ∈ dropped, ∃ t, r.Time = some t ∧ L.MarshalJSON t = none) ∧
        outs.length + dropped.length = s.tasks.countP TaskPC.encoded) ∧
    (∀ s, Reach h L c (State.init I.stdin I.broken env) s → s.exit ≠ none →
      s.exit = some 0 ∧
      ∃ outs dropped : List response,
        s.stdout = handshake :: outs ++
          [{ ID := I.closeReq.ID, Err := "", KnownCommands := [], Miss := false, OutputID := [],
             Size := 0, Time := none, DiskPath := "" }] ∧
        (∀ r ∈ outs, encodes L r = true) ∧
        (∀ r ∈ dropped, ∃ t, r.Time = some t ∧ L.MarshalJSON t = none) ∧
        ((outs ++ dropped).map fun r => r.ID).Perm ((spawned I.reqs).map fun q => q.ID)) := by
  refine ⟨?_, ?_, ?_, ?_, ?_, ?_, ?_⟩
  · intro n s hr
    obtain ⟨s', h1, h2⟩ := Twin_Steps h L c I.closeLines I.closeReq I.rest [] n _ s hr _
      (Twin_cut I hI env)
    exact ⟨s', h1, Twin_same _ _ _ _ _ _ h2⟩
  · intro n s' hr
    obtain ⟨s, h1, h2⟩ := Twin_Steps h L c I.closeLines I.closeReq [] I.rest n _ s' hr _
      (Twin_symm _ _ _ _ _ _ (Twin_cut I hI env))
    exact ⟨s, h1, Twin_same _ _ _ _ _ _ h2⟩
  · intro n s hr
    exact Steps_le h L c n _ _ hr _ (Within_init _ _ _)
  · intro s hr he
    exact progress h L c s (Inv_Reach h L c I hI env s hr).1 he
  · intro s hr
    exact ends_Reach h L c I hI env s hr
  · intro s hr
    obtain ⟨outs, dropped, h1, ho, hd, h2⟩ :=
      Inv_output L I s (Inv_Reach h L c I hI env s hr).2
    exact ⟨outs, dropped, h1, ho, fun r hr => encodes_false L r (hd r hr), h2⟩
  · intro s hr he
    obtain ⟨h0, outs, dropped, h1, ho, hd, h2⟩ :=
      Inv_exit L I s (Inv_Reach h L c I hI env s hr).2 he
    exact ⟨h0, outs, dropped, h1, ho, fun r hr => encodes_false L r (hd r hr), h2⟩

/-- C6 at the example of the specification, with a line that is no request
behind the close request. -/
theorem C6_nothing_after_close_witness :
    sampleInput.WF ∧
    (exec World.handle sampleTime sampleCache sampleSchedule
      (State.init sampleInput.stdin sampleInput.broken emptyWorld)).exit = some 0 ∧
    (exec World.handle sampleTime sampleCache sampleSchedule
      (State.init sampleInput.stdin sampleInput.broken emptyWorld)).stdout.getLast? =
      some { ID := 9 } ∧
    ∃ outs dropped : List response,
      (exec World.handle sampleTime sampleCache sampleSchedule
        (State.init sampleInput.stdin sampleInput.broken emptyWorld)).stdout =
        handshake :: outs ++ [{ ID := 9 }] ∧
      (∀ r ∈ outs, encodes sampleTime r = true) ∧
      (∀ r ∈ dropped, ∃ t, r.Time = some t ∧ sampleTime.MarshalJSON t = none) ∧
      ((outs ++ dropped).map fun r => r.ID).Perm ((spawned sampleInput.reqs).map fun q => q.ID) :=
  ⟨sampleInput_WF, by decide, by decide,
   ((C6_nothing_after_close World.handle sampleTime sampleCache sampleInput emptyWorld
      sampleInput_WF).2.2.2.2.2.2 _
      (Reach_exec World.handle sampleTime sampleCache sampleSchedule _) (by decide)).2⟩

end GocacheS3
